import Mathlib

/-!
# Route recommendation system: time-dependent shortest routes

A shallow embedding of `src/main.cpp` (class `Graph` with `addCity`, `addEdge`,
`bellmanFord`, `printPath`, `parseTime`) and theorems about it.

Conventions of the embedding

* `int` values are mathematical integers (`Int`); the two additions evaluated by
  `bellmanFord` are checked against the 32-bit range and a sum that leaves the range
  (undefined behaviour in C++) is the outcome `Err.overflow`.
* A `std::vector` is a `List`; an index outside the vector (undefined behaviour in C++)
  is the outcome `Err.outOfRange`.
* A `std::unordered_map` is an association list with unique keys, listed in iteration
  order.  The iteration order of `unordered_map` is unspecified; the theorems about
  `bellmanFord` hold for every adjacency list, hence for every iteration order, and the
  hypothesis that no sum overflows is always about the run on that adjacency list.
* `unordered_map::at` on a missing key throws; that is the outcome `Err.missingWeight`.
* `printPath` contains an unbounded loop; it is given a fuel argument and running out of
  fuel is the outcome `Err.outOfFuel`.
-/

namespace RouteRec

/-- The three values of `enum class TimeOfDay`. -/
inductive TimeOfDay where
  | Morning
  | Afternoon
  | Evening
  deriving DecidableEq, Repr

/-- Abnormal outcomes: exceptions thrown by the program and undefined behaviour. -/
inductive Err where
  /-- `Traffic::getWeight`: `weights.at(t)` on a slot that has no weight. -/
  | missingWeight
  /-- A signed 32-bit addition whose result is not representable. -/
  | overflow
  /-- An index outside `[0, size)` of a vector. -/
  | outOfRange
  /-- The constructor `vector<int>(V, ...)` with a negative `V`. -/
  | lengthError
  /-- The `invalid_argument` exception thrown by `parseTime`. -/
  | invalidTime
  /-- The call `path.front()` on an empty vector. -/
  | emptyFront
  /-- The loop of `printPath` did not finish within the fuel given. -/
  | outOfFuel
  deriving DecidableEq, Repr

deriving instance DecidableEq for Except

/-- The value `numeric_limits<int>::max()`. -/
def INT_MAX : Int := 2147483647

/-- The value `numeric_limits<int>::min()`. -/
def INT_MIN : Int := -2147483648

/-- Signed 32-bit addition; a result outside the range is `Err.overflow`. -/
def addInt (a b : Int) : Except Err Int :=
  if INT_MIN ≤ a + b ∧ a + b ≤ INT_MAX then .ok (a + b) else .error .overflow

/-- The struct `Traffic`: the map `weights`, as an association list. -/
structure Traffic where
  weights : List (TimeOfDay × Int)
  deriving DecidableEq, Repr

/-- Lookup in the map `weights`: the value of the first entry with key `t`. -/
def Traffic.find (tr : Traffic) (t : TimeOfDay) : Option Int :=
  (tr.weights.find? (fun p => p.1 = t)).map Prod.snd

/-- `Traffic::getWeight`: `weights.at(t)`, which throws when `t` has no entry. -/
def Traffic.getWeight (tr : Traffic) (t : TimeOfDay) : Except Err Int :=
  match tr.find t with
  | some w => .ok w
  | none => .error .missingWeight

/-- The `Traffic` value built by `loadFromJson` from the three numbers of an edge. -/
def Traffic.ofTriple (m a e : Int) : Traffic :=
  ⟨[(.Morning, m), (.Afternoon, a), (.Evening, e)]⟩

/-- The struct `Edge`. -/
structure Edge where
  u : Int
  v : Int
  baseWeight : Int
  traffic : Traffic
  deriving DecidableEq, Repr

/-- The class `Graph`: capacity `V`, adjacency map, and the two name maps. -/
structure Graph where
  V : Int
  adjList : List (Int × List Edge)
  cityNames : List (Int × String)
  nameToId : List (String × Int)
  deriving DecidableEq, Repr

/-- The constructor `Graph(int vertices)`. -/
def Graph.new (vertices : Int) : Graph := ⟨vertices, [], [], []⟩

/-- The assignment `m[k] = x` on an `unordered_map`: overwrite the entry of `k`, or insert it. -/
def assign {κ ν : Type} [DecidableEq κ] : List (κ × ν) → κ → ν → List (κ × ν)
  | [], k, x => [(k, x)]
  | (k', y) :: m, k, x => if k' = k then (k, x) :: m else (k', y) :: assign m k x

/-- The lookup `m.find(k)` on an `unordered_map`. -/
def lookup {κ ν : Type} [DecidableEq κ] : List (κ × ν) → κ → Option ν
  | [], _ => none
  | (k', y) :: m, k => if k' = k then some y else lookup m k

/-- The statement `adjList[k].push_back(e)`: `operator[]` creates an empty vector when the
key is new, then the edge is appended to the vector of `k`.  Where a new key lands in the
iteration order is unspecified in C++; here it is filed last.  Statements about a run of
`bellmanFord` on a constructed graph are therefore made for every graph with the same
adjacency entries in any order (`g.edges.Perm (Graph.build V ops).edges`). -/
def pushBack : List (Int × List Edge) → Int → Edge → List (Int × List Edge)
  | [], k, e => [(k, [e])]
  | (k', es) :: m, k, e => if k' = k then (k', es ++ [e]) :: m else (k', es) :: pushBack m k e

/-- The vector `adjList[k]` as seen by a reader: empty when the key is absent. -/
def adjOf (m : List (Int × List Edge)) (k : Int) : List Edge :=
  (lookup m k).getD []

/-- `Graph::addCity`. -/
def Graph.addCity (g : Graph) (id : Int) (name : String) : Graph :=
  { g with cityNames := assign g.cityNames id name, nameToId := assign g.nameToId name id }

/-- `Graph::addEdge`: two directed entries with the same base weight and traffic. -/
def Graph.addEdge (g : Graph) (u v baseWeight : Int) (traffic : Traffic) : Graph :=
  { g with adjList :=
      pushBack (pushBack g.adjList u ⟨u, v, baseWeight, traffic⟩) v ⟨v, u, baseWeight, traffic⟩ }

/-- All directed adjacency entries, in the order the nested loops of `bellmanFord` visit them. -/
def allEdges : List (Int × List Edge) → List Edge
  | [] => []
  | p :: m => p.2 ++ allEdges m

/-- The directed adjacency entries of a graph in iteration order. -/
def Graph.edges (g : Graph) : List Edge := allEdges g.adjList

/-- A call that populates the graph: `addCity(id, name)` or `addEdge(u, v, base, traffic)`. -/
inductive Op where
  | addCity (id : Int) (name : String)
  | addEdge (u v baseWeight : Int) (traffic : Traffic)
  deriving DecidableEq, Repr

/-- The effect of one populating call. -/
def Graph.apply (g : Graph) : Op → Graph
  | .addCity id name => g.addCity id name
  | .addEdge u v b tr => g.addEdge u v b tr

/-- The graph after a sequence of populating calls on `Graph(vertices)`. -/
def Graph.build (vertices : Int) (ops : List Op) : Graph :=
  ops.foldl Graph.apply (Graph.new vertices)

/-- The two vectors `dist` and `parent` of `bellmanFord`. -/
structure BFState where
  dist : List Int
  parent : List Int
  deriving DecidableEq, Repr

/-- The element of a vector at an `int` index, when the index is inside the vector. -/
def getAt (l : List Int) (i : Int) : Option Int :=
  if 0 ≤ i then l[i.toNat]? else none

/-- The read `vec[i]` of a vector at an `int` index. -/
def readAt (l : List Int) (i : Int) : Except Err Int :=
  match getAt l i with
  | some x => .ok x
  | none => .error .outOfRange

/-- The write `vec[i] = x` of a vector at an `int` index. -/
def writeAt (l : List Int) (i : Int) (x : Int) : Except Err (List Int) :=
  if 0 ≤ i ∧ i.toNat < l.length then .ok (l.set i.toNat x) else .error .outOfRange

/-- The body of the innermost loop of `bellmanFord` for one adjacency entry. -/
def relaxEdge (t : TimeOfDay) (st : BFState) (e : Edge) : Except Err BFState :=
  match e.traffic.getWeight t with
  | .error x => .error x
  | .ok w =>
    match addInt e.baseWeight w with
    | .error x => .error x
    | .ok totalWeight =>
      match readAt st.dist e.u with
      | .error x => .error x
      | .ok du =>
        if du ≠ INT_MAX then
          match addInt du totalWeight with
          | .error x => .error x
          | .ok s =>
            match readAt st.dist e.v with
            | .error x => .error x
            | .ok dv =>
              if s < dv then
                match writeAt st.dist e.v s, writeAt st.parent e.v e.u with
                | .ok d, .ok p => .ok ⟨d, p⟩
                | _, _ => .error .outOfRange
              else .ok st
        else .ok st

/-- The loop `for (const auto& edge : pair.second)`. -/
def relaxEdges (t : TimeOfDay) : List Edge → BFState → Except Err BFState
  | [], st => .ok st
  | e :: es, st =>
    match relaxEdge t st e with
    | .ok st' => relaxEdges t es st'
    | .error x => .error x

/-- The loop `for (const auto& pair : adjList)`: one full pass over the adjacency entries. -/
def relaxPass (t : TimeOfDay) : List (Int × List Edge) → BFState → Except Err BFState
  | [], st => .ok st
  | p :: m, st =>
    match relaxEdges t p.2 st with
    | .ok st' => relaxPass t m st'
    | .error x => .error x

/-- The loop `for (int i = 1; i <= V - 1; ++i)` with the given number of iterations. -/
def passes (t : TimeOfDay) (adj : List (Int × List Edge)) : Nat → BFState → Except Err BFState
  | 0, st => .ok st
  | n + 1, st =>
    match relaxPass t adj st with
    | .ok st' => passes t adj n st'
    | .error x => .error x

/-- The first three statements of `bellmanFord`. -/
def initState (V : Int) (start : Int) : Except Err BFState :=
  if V < 0 then .error .lengthError
  else
    match writeAt (List.replicate V.toNat INT_MAX) start 0 with
    | .ok d => .ok ⟨d, List.replicate V.toNat (-1)⟩
    | .error x => .error x

/-- `Graph::bellmanFord`: the returned vector `dist` and the out-parameter `parent`. -/
def Graph.bellmanFord (g : Graph) (start : Int) (timeOfDay : TimeOfDay) : Except Err BFState :=
  match initState g.V start with
  | .ok st => passes timeOfDay g.adjList (g.V - 1).toNat st
  | .error x => .error x

/-- The loop `for (int at = end; at != -1; at = parent[at]) path.push_back(at)`;
the result is `path` before it is reversed. -/
def walkBack (parent : List Int) : Nat → Int → Except Err (List Int)
  | 0, cur => if cur = -1 then .ok [] else .error .outOfFuel
  | fuel + 1, cur =>
    if cur = -1 then .ok []
    else
      match readAt parent cur with
      | .error x => .error x
      | .ok nxt =>
        match walkBack parent fuel nxt with
        | .ok rest => .ok (cur :: rest)
        | .error x => .error x

/-- What `printPath` writes: the line "No path found." or the route. -/
inductive PathOutput where
  | noPath
  | route (ids : List Int) (names : List String)
  deriving DecidableEq, Repr

/-- The expression `cityNames[id]`: the name, or a default-constructed (empty) name that
`operator[]` inserts when the id is absent. -/
def nameOf (names : List (Int × String)) (id : Int) : String × List (Int × String) :=
  match lookup names id with
  | some s => (s, names)
  | none => ("", assign names id "")

/-- The printing loop of `printPath`: the names read and the map `cityNames` afterwards. -/
def printNames : List (Int × String) → List Int → List String × List (Int × String)
  | names, [] => ([], names)
  | names, id :: ids =>
    let r := nameOf names id
    let rest := printNames r.2 ids
    (r.1 :: rest.1, rest.2)

/-- `Graph::printPath`: the output and the graph afterwards. -/
def Graph.printPath (g : Graph) (fuel : Nat) (start stop : Int) (parent : List Int) :
    Except Err (PathOutput × Graph) :=
  match walkBack parent fuel stop with
  | .error x => .error x
  | .ok walked =>
    match walked.reverse with
    | [] => .error .emptyFront
    | front :: rest =>
      if front ≠ start then .ok (.noPath, g)
      else
        let r := printNames g.cityNames (front :: rest)
        .ok (.route (front :: rest) r.1, { g with cityNames := r.2 })

/-- `Graph::parseTime`. -/
def parseTime (timeStr : String) : Except Err TimeOfDay :=
  if timeStr = "morning" then .ok .Morning
  else if timeStr = "afternoon" then .ok .Afternoon
  else if timeStr = "evening" then .ok .Evening
  else .error .invalidTime

/-! ## Specification vocabulary -/

/-- The cost of an adjacency entry in a slot, `baseWeight + trafficWeights[slot]`, as a
mathematical integer; meaningful when the slot has a weight (it counts as 0 otherwise, and
every statement using `cost` assumes the weight is there). -/
def Edge.cost (t : TimeOfDay) (e : Edge) : Int :=
  e.baseWeight + (e.traffic.find t).getD 0

/-- The list `p` is a sequence of adjacency entries of `E` leading from `a` to `b`. -/
def IsWalk (E : List Edge) : Int → Int → List Edge → Prop
  | a, b, [] => a = b
  | a, b, e :: p => e ∈ E ∧ e.u = a ∧ IsWalk E e.v b p

/-- Being a walk is decidable. -/
instance IsWalk.instDecidable (E : List Edge) : ∀ a b p, Decidable (IsWalk E a b p)
  | a, b, [] => inferInstanceAs (Decidable (a = b))
  | _, b, e :: p =>
    have := IsWalk.instDecidable E e.v b p
    inferInstanceAs (Decidable (_ ∧ _ ∧ _))

/-- Total cost of a sequence of adjacency entries. -/
def walkCost (t : TimeOfDay) : List Edge → Int
  | [] => 0
  | e :: p => e.cost t + walkCost t p

/-- No negative-cost cycle in slot `t`: no closed walk of the adjacency entries has negative
cost.  A cycle is a closed walk, not necessarily simple, as in the usual statement of the
Bellman-Ford algorithm; an entry followed by its mirror image is one. -/
def NoNegCycle (E : List Edge) (t : TimeOfDay) : Prop :=
  ∀ a p, IsWalk E a a p → 0 ≤ walkCost t p

/-- The ids are in range: source and both endpoints of every entry lie in `[0, V)`, and
every entry has a weight for slot `t`. -/
def WellFormed (g : Graph) (start : Int) (t : TimeOfDay) : Prop :=
  (0 ≤ start ∧ start < g.V) ∧
  ∀ e ∈ g.edges, (0 ≤ e.u ∧ e.u < g.V) ∧ (0 ≤ e.v ∧ e.v < g.V) ∧ (e.traffic.find t).isSome

/-! ## Ideal view of the engine state

The vectors `dist` and `parent` read as total functions on vertex ids, and the relaxation
step on them with unbounded integers.  A run of the program that meets no error computes
exactly these functions (`relaxEdge_abs` below). -/

/-- The two vectors as total functions: `D` is `dist`, `P` is `parent`. -/
structure FS where
  D : Int → Int
  P : Int → Int

/-- The entry `dist[v]`, and `INT_MAX` outside the vector. -/
def dVal (st : BFState) (v : Int) : Int := (getAt st.dist v).getD INT_MAX

/-- The entry `parent[v]`, and `-1` outside the vector. -/
def pVal (st : BFState) (v : Int) : Int := (getAt st.parent v).getD (-1)

/-- The state of the engine as a pair of functions. -/
def BFState.abs (st : BFState) : FS := ⟨dVal st, pVal st⟩

/-- The relaxation of one adjacency entry on unbounded integers. -/
def relaxF (t : TimeOfDay) (s : FS) (e : Edge) : FS :=
  if s.D e.u ≠ INT_MAX ∧ s.D e.u + e.cost t < s.D e.v then
    ⟨Function.update s.D e.v (s.D e.u + e.cost t), Function.update s.P e.v e.u⟩
  else s

/-- One pass over all adjacency entries on unbounded integers. -/
def passF (t : TimeOfDay) (E : List Edge) (s : FS) : FS := E.foldl (relaxF t) s

/-- The chain of predecessor links starting at a vertex: the list walked by `printPath`. -/
inductive Chain (P : Int → Int) : Int → List Int → Prop
  | root {v : Int} : P v = -1 → Chain P v [v]
  | step {v : Int} {l : List Int} : P v ≠ -1 → Chain P (P v) l → Chain P v (v :: l)

/-- Invariant of the relaxation steps that needs no assumption on the weights. -/
structure InvW (E : List Edge) (t : TimeOfDay) (s : Int) (σ : FS) : Prop where
  le : ∀ v, σ.D v ≤ INT_MAX
  walk : ∀ v, σ.D v ≠ INT_MAX → ∃ p, IsWalk E s v p ∧ walkCost t p = σ.D v
  par : ∀ v, σ.P v ≠ -1 → σ.D (σ.P v) ≠ INT_MAX ∧ σ.D v ≠ INT_MAX ∧
    ∃ e ∈ E, e.u = σ.P v ∧ e.v = v ∧ σ.D (σ.P v) + e.cost t ≤ σ.D v

/-- Invariant at the source, valid when no closed walk through the source is negative. -/
def InvS (E : List Edge) (t : TimeOfDay) (s : Int) (σ : FS) : Prop :=
  InvW E t s σ ∧ σ.D s = 0 ∧ σ.P s = -1

/-- Full invariant, valid when no closed walk is negative. -/
def Inv (E : List Edge) (t : TimeOfDay) (s : Int) (σ : FS) : Prop :=
  InvS E t s σ ∧ (∀ v, σ.P v = -1 → v ≠ s → σ.D v = INT_MAX) ∧ ∀ v, ∃ l, Chain σ.P v l

/-- The vertices visited by a sequence of adjacency entries that starts at `a`. -/
def walkVerts (a : Int) (p : List Edge) : List Int := a :: p.map Edge.v

/-- The ideal view of the state built by the first three statements of `bellmanFord`. -/
def initF (s : Int) : FS := ⟨fun v => if v = s then 0 else INT_MAX, fun _ => -1⟩

/-- Possible outcomes of a run on a well-formed graph: a state of the same size, or overflow. -/
def OkOrOverflow (n : Nat) (r : Except Err BFState) : Prop :=
  (∃ st, r = .ok st ∧ st.dist.length = n ∧ st.parent.length = n) ∨ r = .error .overflow

/-- The adjacency invariant of construction: entries are filed under their own `u`, and an
entry and its mirror image occur equally often. -/
def SymAdj (m : List (Int × List Edge)) : Prop :=
  (∀ k, ∀ e ∈ adjOf m k, e.u = k) ∧
  ∀ u v b tr, (adjOf m u).count ⟨u, v, b, tr⟩ = (adjOf m v).count ⟨v, u, b, tr⟩

/-- The populating calls of the worked example: cities A=0, B=1, C=2, road A-B with base 5
and traffic 2/1/4, road B-C with base 3 and traffic 1/5/0. -/
def exampleOps : List Op :=
  [.addCity 0 "A", .addCity 1 "B", .addCity 2 "C",
   .addEdge 0 1 5 (.ofTriple 2 1 4), .addEdge 1 2 3 (.ofTriple 1 5 0)]

/-- The graph of the worked example, with capacity 3. -/
def exampleGraph : Graph := Graph.build 3 exampleOps

/-- A graph whose single road costs exactly `INT_MAX`. -/
def maxCostGraph : Graph := Graph.build 2 [.addEdge 0 1 2147483647 (.ofTriple 0 0 0)]

/-- A graph with a road of negative cost from city 0 to itself. -/
def negLoopGraph : Graph := Graph.build 2 [.addEdge 0 0 (-1) (.ofTriple 0 0 0)]

/-- The roads of the worked example in a graph with a fourth city D=3 that has no road. -/
def isolatedGraph : Graph :=
  Graph.build 4 [.addEdge 0 1 5 (.ofTriple 2 1 4), .addEdge 1 2 3 (.ofTriple 1 5 0)]

/-- A graph whose single road costs more than half of `INT_MAX`. -/
def overflowGraph : Graph := Graph.build 3 [.addEdge 0 1 1073741825 (.ofTriple 0 0 0)]

/-- The id registered by a populating call, when it is an `addCity`. -/
def Op.cityId : Op → Option Int
  | .addCity id _ => some id
  | .addEdge _ _ _ _ => none

/-- The name registered by a populating call, when it is an `addCity`. -/
def Op.cityName : Op → Option String
  | .addCity _ name => some name
  | .addEdge _ _ _ _ => none

/-- What one round of the loop of `userInterface` writes. -/
inductive QueryOutput where
  /-- The start name is "exit": the loop ends. -/
  | quit
  /-- The line "Invalid city name(s). Try again." -/
  | invalidCity
  /-- The line "Invalid time of day. Try again." -/
  | invalidTime
  /-- The line "No route found from ... to ...". -/
  | noRoute
  /-- The line with the shortest distance, followed by what `printPath` writes. -/
  | found (distance : Int) (path : PathOutput)
  deriving DecidableEq, Repr

/-- One round of the loop of `Graph::userInterface` on the three words read from the input:
the output and the graph afterwards. -/
def Graph.query (g : Graph) (fuel : Nat) (startName endName timeStr : String) :
    Except Err (QueryOutput × Graph) :=
  if startName = "exit" then .ok (.quit, g)
  else
    match lookup g.nameToId startName, lookup g.nameToId endName with
    | some start, some stop =>
      match parseTime timeStr with
      | .error _ => .ok (.invalidTime, g)
      | .ok timeOfDay =>
        match g.bellmanFord start timeOfDay with
        | .error x => .error x
        | .ok st =>
          match readAt st.dist stop with
          | .error x => .error x
          | .ok d =>
            if d = INT_MAX then .ok (.noRoute, g)
            else
              match g.printPath fuel start stop st.parent with
              | .error x => .error x
              | .ok (out, g') => .ok (.found d out, g')
    | _, _ => .ok (.invalidCity, g)

/-- A graph in which city 1 lies on the road from A=0 to C=2 but was never registered. -/
def unnamedStopGraph : Graph :=
  Graph.build 3 [.addCity 0 "A", .addCity 2 "C",
    .addEdge 0 1 5 (.ofTriple 2 1 4), .addEdge 1 2 3 (.ofTriple 1 5 0)]

/-- The ids registered by the `addCity` calls of a construction, in call order. -/
def regIds (ops : List Op) : List Int := ops.filterMap Op.cityId

/-- The names registered by the `addCity` calls of a construction, in call order. -/
def regNames (ops : List Op) : List String := ops.filterMap Op.cityName

/-- A construction that registers the name "A" twice, for city 0 and then for city 1. -/
def duplicateNameOps : List Op := [.addCity 0 "A", .addCity 1 "A"]

/-- A square of four roads of cost 1: city 3 is reached from city 0 at cost 2 through
city 1 or through city 2. -/
def diamondGraph : Graph :=
  Graph.build 4 [.addEdge 0 1 1 (.ofTriple 0 0 0), .addEdge 0 2 1 (.ofTriple 0 0 0),
    .addEdge 1 3 1 (.ofTriple 0 0 0), .addEdge 2 3 1 (.ofTriple 0 0 0)]

/-- No distance exceeds `INT_MAX`, the finite distances are carried by a repetition-free
list `L` of vertices in `[0, V)`, and each is between 0 and `(|L| - 1) * W`: a vertex that
becomes finite adds one to `|L|` and is at most `W` above a vertex that was finite before. -/
def Counted (W : Int) (V : Nat) (σ : FS) : Prop :=
  (∀ v, σ.D v ≤ INT_MAX) ∧
  ∃ L : List Int, L.Nodup ∧ (∀ v, σ.D v ≠ INT_MAX ↔ v ∈ L) ∧ (∀ v ∈ L, 0 ≤ v ∧ v < V) ∧
    ∀ v ∈ L, 0 ≤ σ.D v ∧ σ.D v ≤ ((L.length : Int) - 1) * W

/-- Size of the vectors and the counting invariant. -/
def Safe (W : Int) (V : Nat) (st : BFState) : Prop :=
  st.dist.length = V ∧ st.parent.length = V ∧ Counted W V st.abs

/-- An entry of `dist` as the specification reads it: the sentinel `INT_MAX` stands for an
unreachable vertex and counts as +infinity, every other value is a finite distance. -/
def extDist (d : Int) : WithTop Int := if d = INT_MAX then ⊤ else ((d : Int) : WithTop Int)

/-- A graph whose single road, entered as `addEdge(1, 0, ...)`, costs `INT_MAX - 1`; the
adjacency map lists city 1 before city 0. -/
def lateGraph : Graph := Graph.build 2 [.addEdge 1 0 2147483646 (.ofTriple 0 0 0)]

/-- One line written by `displayMap`: the two names, the base weight and the three traffic
weights of an adjacency entry. -/
structure MapLine where
  uName : String
  vName : String
  base : Int
  morning : Int
  afternoon : Int
  evening : Int
  deriving DecidableEq, Repr

/-- The output statement of `displayMap` for one adjacency entry: `cityNames[edge.u]` and
`cityNames[edge.v]` are read with `operator[]`, then the three weights with `getWeight`;
the line written and the map `cityNames` afterwards. -/
def displayEdge (names : List (Int × String)) (e : Edge) :
    Except Err (MapLine × List (Int × String)) :=
  let ru := nameOf names e.u
  let rv := nameOf ru.2 e.v
  match e.traffic.getWeight .Morning with
  | .error x => .error x
  | .ok m =>
    match e.traffic.getWeight .Afternoon with
    | .error x => .error x
    | .ok a =>
      match e.traffic.getWeight .Evening with
      | .error x => .error x
      | .ok ev => .ok (⟨ru.1, rv.1, e.baseWeight, m, a, ev⟩, rv.2)

/-- The two nested loops of `displayMap` over the adjacency entries in iteration order. -/
def displayEdges : List (Int × String) → List Edge →
    Except Err (List MapLine × List (Int × String))
  | names, [] => .ok ([], names)
  | names, e :: es =>
    match displayEdge names e with
    | .error x => .error x
    | .ok (line, names') =>
      match displayEdges names' es with
      | .error x => .error x
      | .ok (lines, names'') => .ok (line :: lines, names'')

/-- `Graph::displayMap`: the lines written and the graph afterwards. -/
def Graph.displayMap (g : Graph) : Except Err (List MapLine × Graph) :=
  match displayEdges g.cityNames g.edges with
  | .error x => .error x
  | .ok (lines, names) => .ok (lines, { g with cityNames := names })

/-! # Theorems -/

/-! ## Vectors and single steps -/

theorem getAt_eq_some {l : List Int} {i x : Int} (h : getAt l i = some x) :
    0 ≤ i ∧ i < l.length := by
  unfold getAt at h
  split at h
  · rename_i h0
    have := List.getElem?_eq_some.1 h
    obtain ⟨hlt, -⟩ := this
    omega
  · cases h

theorem getAt_isSome {l : List Int} {i : Int} (h0 : 0 ≤ i) (h1 : i < l.length) :
    ∃ x, getAt l i = some x := by
  unfold getAt
  rw [if_pos h0]
  have : i.toNat < l.length := by omega
  exact ⟨l[i.toNat], List.getElem?_eq_getElem this⟩

theorem getAt_set {l : List Int} {i : Int} (x : Int) (h0 : 0 ≤ i) (h1 : i.toNat < l.length)
    (j : Int) : getAt (l.set i.toNat x) j = if j = i then some x else getAt l j := by
  unfold getAt
  by_cases hj : 0 ≤ j
  · simp only [hj, if_true]
    by_cases hji : j = i
    · subst hji
      simp [List.getElem?_set, h1]
    · have : i.toNat ≠ j.toNat := by omega
      simp [List.getElem?_set, this, hji]
  · have : j ≠ i := by omega
    simp [hj, this]

theorem writeAt_ok {l l' : List Int} {i x : Int} (h : writeAt l i x = .ok l') :
    (0 ≤ i ∧ i < l.length) ∧ l'.length = l.length ∧
      ∀ j, getAt l' j = if j = i then some x else getAt l j := by
  unfold writeAt at h
  split at h
  · rename_i hc
    injection h with h
    subst h
    refine ⟨⟨hc.1, by omega⟩, by simp, fun j => getAt_set x hc.1 hc.2 j⟩
  · cases h

theorem writeAt_isOk {l : List Int} {i : Int} (x : Int) (h0 : 0 ≤ i) (h1 : i < l.length) :
    ∃ l', writeAt l i x = .ok l' := by
  unfold writeAt
  have : 0 ≤ i ∧ i.toNat < l.length := ⟨h0, by omega⟩
  exact ⟨_, if_pos this⟩

theorem readAt_ok {l : List Int} {i x : Int} (h : readAt l i = .ok x) : getAt l i = some x := by
  unfold readAt at h
  split at h
  · injection h with h; subst h; assumption
  · cases h

theorem cost_eq {t : TimeOfDay} {e : Edge} {w : Int} (h : e.traffic.getWeight t = .ok w) :
    e.cost t = e.baseWeight + w := by
  unfold Traffic.getWeight at h
  unfold Edge.cost
  split at h
  · rename_i hf; injection h with h; subst h; simp [hf]
  · cases h

theorem addInt_ok {a b s : Int} (h : addInt a b = .ok s) :
    s = a + b ∧ INT_MIN ≤ a + b ∧ a + b ≤ INT_MAX := by
  unfold addInt at h
  split at h
  · rename_i hc; injection h with h; exact ⟨h.symm, hc⟩
  · cases h

/-- A successful concrete step is the ideal step on the abstraction. -/
theorem relaxEdge_abs {t : TimeOfDay} {st st' : BFState} {e : Edge}
    (h : relaxEdge t st e = .ok st') :
    st'.dist.length = st.dist.length ∧ st'.parent.length = st.parent.length ∧
      st'.abs = relaxF t st.abs e := by
  unfold relaxEdge at h
  split at h
  · cases h
  rename_i w hw
  split at h
  · cases h
  rename_i tw htw
  split at h
  · cases h
  rename_i du hdu
  have hcost := cost_eq hw
  obtain ⟨htw1, -, -⟩ := addInt_ok htw
  have hdu' := readAt_ok hdu
  have hD : st.abs.D e.u = du := by simp [BFState.abs, dVal, hdu']
  split at h
  · rename_i hne
    split at h
    · cases h
    rename_i s hs
    obtain ⟨hs1, -, -⟩ := addInt_ok hs
    split at h
    · cases h
    rename_i dv hdv
    have hdv' := readAt_ok hdv
    have hDv : st.abs.D e.v = dv := by simp [BFState.abs, dVal, hdv']
    split at h
    · rename_i hlt
      split at h
      · rename_i d p hd hp
        injection h with h
        subst h
        obtain ⟨-, hl1, hg1⟩ := writeAt_ok hd
        obtain ⟨-, hl2, hg2⟩ := writeAt_ok hp
        refine ⟨hl1, hl2, ?_⟩
        have hguard : st.abs.D e.u ≠ INT_MAX ∧ st.abs.D e.u + e.cost t < st.abs.D e.v := by
          rw [hD, hDv, hcost, ← htw1, ← hs1]; exact ⟨hne, hlt⟩
        unfold relaxF
        rw [if_pos hguard]
        simp only [BFState.abs, FS.mk.injEq]
        constructor
        · funext j
          simp only [dVal, hg1 j, Function.update_apply]
          split
          · simp only [Option.getD_some]
            rw [hdu', hcost, ← htw1, hs1]; rfl
          · rfl
        · funext j
          simp only [pVal, hg2 j, Function.update_apply]
          split <;> rfl
      · cases h
    · rename_i hnlt
      injection h with h
      subst h
      refine ⟨rfl, rfl, ?_⟩
      unfold relaxF
      have : ¬ (st.abs.D e.u ≠ INT_MAX ∧ st.abs.D e.u + e.cost t < st.abs.D e.v) := by
        rw [hD, hDv, hcost, ← htw1, ← hs1]; tauto
      rw [if_neg this]
  · rename_i heq
    injection h with h
    subst h
    refine ⟨rfl, rfl, ?_⟩
    unfold relaxF
    have : ¬ (st.abs.D e.u ≠ INT_MAX ∧ st.abs.D e.u + e.cost t < st.abs.D e.v) := by
      rw [hD]; tauto
    rw [if_neg this]

/-! ## Walks -/

theorem IsWalk.append {E : List Edge} {a b c : Int} {p q : List Edge}
    (hp : IsWalk E a b p) (hq : IsWalk E b c q) : IsWalk E a c (p ++ q) := by
  induction p generalizing a with
  | nil => simp only [IsWalk] at hp; subst hp; simpa using hq
  | cons e p ih =>
    obtain ⟨h1, h2, h3⟩ := hp
    exact ⟨h1, h2, ih h3⟩

theorem walkCost_append (t : TimeOfDay) (p q : List Edge) :
    walkCost t (p ++ q) = walkCost t p + walkCost t q := by
  induction p with
  | nil => simp [walkCost]
  | cons e p ih => simp [walkCost, ih, add_assoc]

theorem IsWalk.single {E : List Edge} {e : Edge} (h : e ∈ E) : IsWalk E e.u e.v [e] :=
  ⟨h, rfl, rfl⟩

theorem walkCost_single (t : TimeOfDay) (e : Edge) : walkCost t [e] = e.cost t := by
  simp [walkCost]

/-! ## Invariants of one relaxation -/

theorem relaxF_D_le (t : TimeOfDay) (σ : FS) (e : Edge) (v : Int) :
    (relaxF t σ e).D v ≤ σ.D v := by
  unfold relaxF
  split
  · rename_i h
    simp only [Function.update_apply]
    split
    · rename_i hv; subst hv; exact le_of_lt h.2
    · exact le_refl _
  · exact le_refl _

theorem relaxF_InvW {E : List Edge} {t : TimeOfDay} {s : Int} {σ : FS} {e : Edge}
    (he : e ∈ E) (h : InvW E t s σ) : InvW E t s (relaxF t σ e) := by
  have hmono := relaxF_D_le t σ e
  unfold relaxF at hmono ⊢
  split
  · rename_i hg
    rw [if_pos hg] at hmono
    obtain ⟨hne, hlt⟩ := hg
    have hx : σ.D e.u + e.cost t < INT_MAX := lt_of_lt_of_le hlt (h.le _)
    have hfin : ∀ w, σ.D w ≠ INT_MAX →
        Function.update σ.D e.v (σ.D e.u + e.cost t) w ≠ INT_MAX := by
      intro w hw
      have h1 := hmono w
      have h2 := h.le w
      simp only at h1
      omega
    refine ⟨?_, ?_, ?_⟩
    · intro v
      simp only [Function.update_apply]
      split
      · exact le_of_lt hx
      · exact h.le v
    · intro v hv
      simp only [Function.update_apply] at hv ⊢
      split
      · rename_i hve
        subst hve
        obtain ⟨p, hp, hc⟩ := h.walk _ hne
        refine ⟨p ++ [e], hp.append (IsWalk.single he), ?_⟩
        rw [walkCost_append, walkCost_single, hc]
      · rename_i hve
        rw [if_neg hve] at hv
        exact h.walk v hv
    · intro v hv
      simp only [Function.update_apply] at hv
      by_cases hve : v = e.v
      · subst hve
        simp only [if_true] at hv
        have hP : Function.update σ.P e.v e.u e.v = e.u := by simp
        dsimp only
        rw [hP]
        refine ⟨hfin _ hne, ?_, e, he, rfl, rfl, ?_⟩
        · simp only [Function.update_same]; exact ne_of_lt hx
        · have := hmono e.u
          simp only at this
          simp only [Function.update_same]
          omega
      · rw [if_neg hve] at hv
        have hP : Function.update σ.P e.v e.u v = σ.P v := by simp [hve]
        dsimp only
        rw [hP]
        obtain ⟨h1, h2, e0, he0, hu, hv0, hc⟩ := h.par v hv
        refine ⟨hfin _ h1, hfin _ h2, e0, he0, hu, hv0, ?_⟩
        have := hmono (σ.P v)
        simp only at this
        have hv' : Function.update σ.D e.v (σ.D e.u + e.cost t) v = σ.D v := by simp [hve]
        rw [hv']
        omega
  · exact h

theorem relaxF_InvS {E : List Edge} {t : TimeOfDay} {s : Int} {σ : FS} {e : Edge}
    (hs : ∀ p, IsWalk E s s p → 0 ≤ walkCost t p)
    (he : e ∈ E) (h : InvS E t s σ) : InvS E t s (relaxF t σ e) := by
  obtain ⟨hW, hD, hP⟩ := h
  refine ⟨relaxF_InvW he hW, ?_⟩
  unfold relaxF
  split
  · rename_i hg
    obtain ⟨hne, hlt⟩ := hg
    have hvs : e.v ≠ s := by
      intro hvs
      obtain ⟨p, hp, hc⟩ := hW.walk _ hne
      have hw : IsWalk E s s (p ++ [e]) := by
        have := hp.append (IsWalk.single he)
        rwa [hvs] at this
      have := hs _ hw
      rw [walkCost_append, walkCost_single, hc] at this
      rw [hvs, hD] at hlt
      omega
    have hsv : s ≠ e.v := fun h => hvs h.symm
    simp [Function.update_apply, hsv, hD, hP]
  · exact ⟨hD, hP⟩

theorem Chain.walk {E : List Edge} {t : TimeOfDay} {s : Int} {σ : FS} (hW : InvW E t s σ)
    {u : Int} {l : List Int} (hc : Chain σ.P u l) :
    ∀ v ∈ l, ∃ q, IsWalk E v u q ∧ σ.D v + walkCost t q ≤ σ.D u := by
  induction hc with
  | root _ =>
    intro v hv
    simp only [List.mem_singleton] at hv
    subst hv
    exact ⟨[], rfl, by simp [walkCost]⟩
  | @step u l hne _ ih =>
    intro v hv
    rcases List.mem_cons.1 hv with hv | hv
    · subst hv
      exact ⟨[], rfl, by simp [walkCost]⟩
    · obtain ⟨q, hq, hc⟩ := ih v hv
      obtain ⟨-, -, e0, he0, hu, hv0, hc0⟩ := hW.par u hne
      refine ⟨q ++ [e0], ?_, ?_⟩
      · have := IsWalk.single he0
        rw [hu, hv0] at this
        exact hq.append this
      · rw [walkCost_append, walkCost_single]
        omega

theorem Chain.update {P : Int → Int} {u : Int} {l : List Int} (hc : Chain P u l)
    (v x : Int) (hv : v ∉ l) : Chain (Function.update P v x) u l := by
  induction hc with
  | @root u h =>
    have : u ≠ v := by
      intro h'; subst h'; simp at hv
    exact Chain.root (by simp [Function.update_apply, this, h])
  | @step u l hne _ ih =>
    have hu : u ≠ v := by
      intro h'; subst h'; simp at hv
    have hv' : v ∉ l := fun h => hv (List.mem_cons_of_mem _ h)
    have hP : Function.update P v x u = P u := by simp [Function.update_apply, hu]
    refine Chain.step (by rw [hP]; exact hne) ?_
    rw [hP]
    exact ih hv'

theorem Chain.after {P : Int → Int} {v y : Int} {lv : List Int}
    (hv : Chain (Function.update P v y) v lv) {x : Int} {l : List Int} (hc : Chain P x l) :
    ∃ l', Chain (Function.update P v y) x l' := by
  induction hc with
  | @root x h =>
    by_cases hx : x = v
    · subst hx; exact ⟨lv, hv⟩
    · exact ⟨[x], Chain.root (by simp [Function.update_apply, hx, h])⟩
  | @step x l hne _ ih =>
    by_cases hx : x = v
    · subst hx; exact ⟨lv, hv⟩
    · obtain ⟨l', hl'⟩ := ih
      have hP : Function.update P v y x = P x := by simp [Function.update_apply, hx]
      refine ⟨x :: l', Chain.step (by rw [hP]; exact hne) ?_⟩
      rw [hP]
      exact hl'

theorem relaxF_Inv {E : List Edge} {t : TimeOfDay} {s : Int} {σ : FS} {e : Edge}
    (hneg : NoNegCycle E t) (hE : ∀ e ∈ E, e.u ≠ -1)
    (he : e ∈ E) (h : Inv E t s σ) : Inv E t s (relaxF t σ e) := by
  obtain ⟨hS, hroot, hch⟩ := h
  have hW := hS.1
  refine ⟨relaxF_InvS (fun p hp => hneg s p hp) he hS, ?_⟩
  unfold relaxF
  split
  · rename_i hg
    obtain ⟨hne, hlt⟩ := hg
    dsimp only
    constructor
    · intro v hv hvs
      by_cases hve : v = e.v
      · subst hve
        simp only [Function.update_same] at hv
        exact absurd hv (hE e he)
      · simp only [Function.update_apply, hve, if_false] at hv ⊢
        exact hroot v hv hvs
    · obtain ⟨lu, hlu⟩ := hch e.u
      have hnot : e.v ∉ lu := by
        intro hmem
        obtain ⟨q, hq, hc⟩ := hlu.walk hW e.v hmem
        have hw : IsWalk E e.v e.v (q ++ [e]) := hq.append (IsWalk.single he)
        have := hneg _ _ hw
        rw [walkCost_append, walkCost_single] at this
        omega
      have h1 := hlu.update e.v e.u hnot
      have h2 : Chain (Function.update σ.P e.v e.u) e.v (e.v :: lu) := by
        refine Chain.step ?_ ?_
        · simp only [Function.update_same]; exact hE e he
        · simp only [Function.update_same]; exact h1
      intro v
      obtain ⟨l, hl⟩ := hch v
      exact Chain.after h2 hl
  · exact ⟨hroot, hch⟩

/-! ## Passes on the ideal view -/

theorem foldl_relaxF_inv {t : TimeOfDay} {E : List Edge} (I : FS → Prop)
    (hstep : ∀ σ e, e ∈ E → I σ → I (relaxF t σ e)) :
    ∀ (E' : List Edge), (∀ e ∈ E', e ∈ E) → ∀ σ, I σ → I (E'.foldl (relaxF t) σ) := by
  intro E'
  induction E' with
  | nil => intro _ σ h; exact h
  | cons e E' ih =>
    intro hsub σ h
    simp only [List.foldl_cons]
    exact ih (fun x hx => hsub x (List.mem_cons_of_mem _ hx)) _
      (hstep σ e (hsub e (List.mem_cons_self _ _)) h)

theorem passF_inv {t : TimeOfDay} {E : List Edge} (I : FS → Prop)
    (hstep : ∀ σ e, e ∈ E → I σ → I (relaxF t σ e)) (σ : FS) (h : I σ) : I (passF t E σ) :=
  foldl_relaxF_inv I hstep E (fun _ h => h) σ h

theorem iterate_passF_inv {t : TimeOfDay} {E : List Edge} (I : FS → Prop)
    (hstep : ∀ σ e, e ∈ E → I σ → I (relaxF t σ e)) (n : Nat) (σ : FS) (h : I σ) :
    I ((passF t E)^[n] σ) := by
  induction n generalizing σ with
  | zero => exact h
  | succ n ih =>
    rw [Function.iterate_succ_apply]
    exact ih _ (passF_inv I hstep σ h)

theorem foldl_relaxF_D_le (t : TimeOfDay) (E : List Edge) (σ : FS) (v : Int) :
    (E.foldl (relaxF t) σ).D v ≤ σ.D v := by
  induction E generalizing σ with
  | nil => exact le_refl _
  | cons e E ih =>
    simp only [List.foldl_cons]
    exact le_trans (ih _) (relaxF_D_le t σ e v)

theorem passF_D_le (t : TimeOfDay) (E : List Edge) (σ : FS) (v : Int) :
    (passF t E σ).D v ≤ σ.D v := foldl_relaxF_D_le t E σ v

theorem iterate_passF_D_le (t : TimeOfDay) (E : List Edge) (n : Nat) (σ : FS) (v : Int) :
    ((passF t E)^[n] σ).D v ≤ σ.D v := by
  induction n generalizing σ with
  | zero => exact le_refl _
  | succ n ih =>
    rw [Function.iterate_succ_apply]
    exact le_trans (ih _) (passF_D_le t E σ v)

theorem iterate_passF_D_anti (t : TimeOfDay) (E : List Edge) {k n : Nat} (hkn : k ≤ n)
    (σ : FS) (v : Int) : ((passF t E)^[n] σ).D v ≤ ((passF t E)^[k] σ).D v := by
  obtain ⟨m, rfl⟩ := Nat.exists_eq_add_of_le hkn
  rw [Nat.add_comm, Function.iterate_add_apply]
  exact iterate_passF_D_le t E m _ v

theorem relaxF_edge (t : TimeOfDay) (σ : FS) (e : Edge) (hne : σ.D e.u ≠ INT_MAX) :
    (relaxF t σ e).D e.v ≤ σ.D e.u + e.cost t := by
  unfold relaxF
  split
  · simp
  · rename_i h
    have : ¬ (σ.D e.u + e.cost t < σ.D e.v) := fun h' => h ⟨hne, h'⟩
    omega

/-- If the distance of `e.u` is the same before and after a list of relaxations that
contains `e`, then afterwards `e` is not improvable at that value. -/
theorem foldl_relaxF_edge (t : TimeOfDay) {E : List Edge} {e : Edge} (he : e ∈ E)
    (σ : FS) (hne : σ.D e.u ≠ INT_MAX) (hfix : σ.D e.u ≤ (E.foldl (relaxF t) σ).D e.u) :
    (E.foldl (relaxF t) σ).D e.v ≤ σ.D e.u + e.cost t := by
  induction E generalizing σ with
  | nil => cases he
  | cons e' E ih =>
    simp only [List.foldl_cons] at hfix ⊢
    have h1 := relaxF_D_le t σ e' e.u
    have h2 := foldl_relaxF_D_le t E (relaxF t σ e') e.u
    have heq : (relaxF t σ e').D e.u = σ.D e.u := le_antisymm h1 (le_trans hfix h2)
    rcases List.mem_cons.1 he with h | h
    · subst h
      exact le_trans (foldl_relaxF_D_le t E _ _) (relaxF_edge t σ e hne)
    · have := ih h (relaxF t σ e') (by rw [heq]; exact hne) (by rw [heq]; exact hfix)
      rw [heq] at this
      exact this

/-- Vertices whose final predecessor chain has at most `k + 1` vertices have their final
distance after `k` passes. -/
theorem settle {E : List Edge} {t : TimeOfDay} {s : Int} (σ0 : FS) (n : Nat)
    (h0 : σ0.D s = 0)
    (hI : Inv E t s ((passF t E)^[n] σ0)) :
    ∀ k, k ≤ n → ∀ v l, Chain ((passF t E)^[n] σ0).P v l → l.length ≤ k + 1 →
      ((passF t E)^[n] σ0).D v ≠ INT_MAX →
      ((passF t E)^[k] σ0).D v = ((passF t E)^[n] σ0).D v := by
  obtain ⟨⟨hW, hDs, hPs⟩, hroot, -⟩ := hI
  have hsrc : ∀ k, k ≤ n → ((passF t E)^[k] σ0).D s = ((passF t E)^[n] σ0).D s := by
    intro k hk
    have h1 := iterate_passF_D_anti t E hk σ0 s
    have h2 := iterate_passF_D_le t E k σ0 s
    omega
  have hrootcase : ∀ k, k ≤ n → ∀ v, ((passF t E)^[n] σ0).P v = -1 →
      ((passF t E)^[n] σ0).D v ≠ INT_MAX →
      ((passF t E)^[k] σ0).D v = ((passF t E)^[n] σ0).D v := by
    intro k hk v hP hD
    have : v = s := by
      by_contra hvs
      exact hD (hroot v hP hvs)
    subst this
    exact hsrc k hk
  intro k
  induction k with
  | zero =>
    intro hk v l hc hlen hD
    cases hc with
    | root hP => exact hrootcase 0 hk v hP hD
    | step hne hc' =>
      cases hc' <;> simp at hlen
  | succ k ih =>
    intro hk v l hc hlen hD
    cases hc with
    | root hP => exact hrootcase (k + 1) hk v hP hD
    | @step _ l' hne hc' =>
      obtain ⟨hDu, -, e0, he0, hu, hv0, hcost⟩ := hW.par v hne
      have hlen' : l'.length ≤ k + 1 := by simpa using hlen
      have hIH := ih (Nat.le_of_succ_le hk) _ l' hc' hlen' hDu
      rw [← hu] at hIH hDu hcost
      rw [Function.iterate_succ_apply']
      have hfix : ((passF t E)^[k] σ0).D e0.u ≤
          (passF t E ((passF t E)^[k] σ0)).D e0.u := by
        have h := iterate_passF_D_anti t E hk σ0 e0.u
        rw [Function.iterate_succ_apply'] at h
        rw [hIH]
        exact h
      have hedge : (passF t E ((passF t E)^[k] σ0)).D e0.v ≤ _ :=
        foldl_relaxF_edge t he0 ((passF t E)^[k] σ0) (by rw [hIH]; exact hDu) hfix
      rw [hIH, hv0] at hedge
      have hlow := iterate_passF_D_anti t E hk σ0 v
      rw [Function.iterate_succ_apply'] at hlow
      omega

/-! ## Predecessor chains and stability -/

theorem Chain.unique {P : Int → Int} {v : Int} {l1 l2 : List Int}
    (h1 : Chain P v l1) (h2 : Chain P v l2) : l1 = l2 := by
  induction h1 generalizing l2 with
  | root h =>
    cases h2 with
    | root _ => rfl
    | step hne _ => exact absurd h hne
  | step hne _ ih =>
    cases h2 with
    | root h => exact absurd h hne
    | step _ h2' => rw [ih h2']

theorem Chain.suffix {P : Int → Int} {v : Int} {l : List Int} (h : Chain P v l) :
    ∀ x ∈ l, ∃ l', Chain P x l' ∧ l'.length ≤ l.length := by
  induction h with
  | @root v h =>
    intro x hx
    simp only [List.mem_singleton] at hx
    subst hx
    exact ⟨[x], Chain.root h, le_refl _⟩
  | @step v l hne hc ih =>
    intro x hx
    rcases List.mem_cons.1 hx with hx | hx
    · subst hx
      exact ⟨x :: l, Chain.step hne hc, le_refl _⟩
    · obtain ⟨l', hl', hlen⟩ := ih x hx
      exact ⟨l', hl', by simp; omega⟩

theorem Chain.nodup {P : Int → Int} {v : Int} {l : List Int} (h : Chain P v l) : l.Nodup := by
  induction h with
  | root _ => simp
  | @step v l hne hc ih =>
    refine List.nodup_cons.2 ⟨?_, ih⟩
    intro hv
    obtain ⟨l', hl', hlen⟩ := hc.suffix v hv
    have := Chain.unique hl' (Chain.step hne hc)
    subst this
    simp at hlen

theorem Chain.ne_nil {P : Int → Int} {v : Int} {l : List Int} (h : Chain P v l) :
    1 ≤ l.length := by
  cases h <;> simp

theorem Chain.finite {E : List Edge} {t : TimeOfDay} {s : Int} {σ : FS} (hW : InvW E t s σ)
    {v : Int} {l : List Int} (h : Chain σ.P v l) (hv : σ.D v ≠ INT_MAX) :
    ∀ x ∈ l, σ.D x ≠ INT_MAX := by
  induction h with
  | root _ =>
    intro x hx
    simp only [List.mem_singleton] at hx
    subst hx; exact hv
  | @step v l hne _ ih =>
    intro x hx
    rcases List.mem_cons.1 hx with hx | hx
    · subst hx; exact hv
    · exact ih (hW.par v hne).1 x hx

/-- Pigeonhole for lists of vertex ids. -/
theorem nodup_range {l : List Int} {V : Nat} (hn : l.Nodup)
    (hr : ∀ x ∈ l, 0 ≤ x ∧ x < V) :
    l.length ≤ V ∧ (l.length = V → ∀ y : Int, 0 ≤ y → y < V → y ∈ l) := by
  have hinj : ∀ x ∈ l, ∀ y ∈ l, Int.toNat x = Int.toNat y → x = y := by
    intro x hx y hy h
    have := hr x hx
    have := hr y hy
    omega
  have hn' : (l.map Int.toNat).Nodup := (List.nodup_map_iff_inj_on hn).2 hinj
  have hsub : l.map Int.toNat ⊆ List.range V := by
    intro a ha
    obtain ⟨x, hx, rfl⟩ := List.mem_map.1 ha
    have := hr x hx
    exact List.mem_range.2 (by omega)
  have hsp := hn'.subperm hsub
  have hlen := hsp.length_le
  simp only [List.length_map, List.length_range] at hlen
  refine ⟨hlen, ?_⟩
  intro heq y hy0 hyV
  have hperm := hsp.perm_of_length_le (by simp [heq])
  have : y.toNat ∈ l.map Int.toNat := hperm.symm.subset (List.mem_range.2 (by omega))
  obtain ⟨x, hx, hxy⟩ := List.mem_map.1 this
  have := hr x hx
  have : x = y := by omega
  subst this
  exact hx

/-- Post-relaxation stability after `n` passes on `n + 1` vertices, on the ideal view. -/
theorem stable_F {E : List Edge} {t : TimeOfDay} {s : Int} (σ0 : FS) (n : Nat)
    (hneg : NoNegCycle E t) (h0 : σ0.D s = 0)
    (hI : Inv E t s ((passF t E)^[n] σ0))
    (hR : ∀ v, ((passF t E)^[n] σ0).D v ≠ INT_MAX → 0 ≤ v ∧ v < (n + 1 : Nat))
    (hEv : ∀ e ∈ E, 0 ≤ e.v ∧ e.v < (n + 1 : Nat)) :
    ∀ e ∈ E, ((passF t E)^[n] σ0).D e.u ≠ INT_MAX →
      ((passF t E)^[n] σ0).D e.v ≤ ((passF t E)^[n] σ0).D e.u + e.cost t := by
  intro e he hu
  have hW := hI.1.1
  obtain ⟨l, hl⟩ := hI.2.2 e.u
  have hfin := hl.finite hW hu
  obtain ⟨hlen, hfull⟩ := nodup_range hl.nodup (fun x hx => hR x (hfin x hx))
  have hpos := hl.ne_nil
  by_cases hc : l.length = n + 1
  · have hmem := hfull hc e.v (hEv e he).1 (hEv e he).2
    obtain ⟨q, hq, hcost⟩ := hl.walk hW e.v hmem
    have hw : IsWalk E e.v e.v (q ++ [e]) := hq.append (IsWalk.single he)
    have := hneg _ _ hw
    rw [walkCost_append, walkCost_single] at this
    omega
  · cases n with
    | zero => omega
    | succ m =>
      have hset := settle σ0 (m + 1) h0 hI m (Nat.le_succ m) e.u l hl (by omega) hu
      have hfix : ((passF t E)^[m] σ0).D e.u ≤ (passF t E ((passF t E)^[m] σ0)).D e.u := by
        rw [hset, Function.iterate_succ_apply']
      have hedge : (passF t E ((passF t E)^[m] σ0)).D e.v ≤ _ :=
        foldl_relaxF_edge t he ((passF t E)^[m] σ0) (by rw [hset]; exact hu) hfix
      rw [hset] at hedge
      rw [Function.iterate_succ_apply']
      rw [Function.iterate_succ_apply'] at hedge
      exact hedge

/-- The reversed predecessor chain of a vertex with finite distance is a walk from the
source whose cost is the distance, once the state is stable. -/
theorem Chain.route {E : List Edge} {t : TimeOfDay} {s : Int} {σ : FS} (hI : Inv E t s σ)
    (hst : ∀ e ∈ E, σ.D e.u ≠ INT_MAX → σ.D e.v ≤ σ.D e.u + e.cost t)
    {v : Int} {l : List Int} (h : Chain σ.P v l) (hv : σ.D v ≠ INT_MAX) :
    ∃ es, IsWalk E s v es ∧ walkVerts s es = l.reverse ∧ walkCost t es = σ.D v := by
  obtain ⟨⟨hW, hDs, -⟩, hroot, -⟩ := hI
  induction h with
  | @root v hP =>
    have : v = s := by
      by_contra hvs
      exact hv (hroot v hP hvs)
    subst this
    exact ⟨[], rfl, by simp [walkVerts], by simp [walkCost, hDs]⟩
  | @step v l hne _ ih =>
    obtain ⟨hDu, -, e0, he0, hu, hv0, hcost⟩ := hW.par v hne
    obtain ⟨es, hes, hverts, hc⟩ := ih hDu
    have hle := hst e0 he0 (by rw [hu]; exact hDu)
    rw [hu, hv0] at hle
    refine ⟨es ++ [e0], ?_, ?_, ?_⟩
    · have := IsWalk.single he0
      rw [hu, hv0] at this
      exact hes.append this
    · simp only [walkVerts, List.map_append, List.map_cons, List.map_nil,
        List.reverse_cons] at hverts ⊢
      rw [← hverts, hv0]
      simp
    · rw [walkCost_append, walkCost_single, hc]
      omega

theorem walkCost_nonneg {E : List Edge} {t : TimeOfDay} (hnn : ∀ e ∈ E, 0 ≤ e.cost t)
    {a b : Int} {p : List Edge} (hp : IsWalk E a b p) : 0 ≤ walkCost t p := by
  induction p generalizing a with
  | nil => simp [walkCost]
  | cons e p ih =>
    obtain ⟨h1, -, h3⟩ := hp
    have := ih h3
    have := hnn e h1
    simp only [walkCost]
    omega

/-- With non-negative costs a stable state is below every walk cost under `INT_MAX`. -/
theorem stable_le_walk {E : List Edge} {t : TimeOfDay} {σ : FS}
    (hnn : ∀ e ∈ E, 0 ≤ e.cost t)
    (hst : ∀ e ∈ E, σ.D e.u ≠ INT_MAX → σ.D e.v ≤ σ.D e.u + e.cost t)
    {a b : Int} {p : List Edge} (hp : IsWalk E a b p) (ha : σ.D a ≠ INT_MAX)
    (hlt : σ.D a + walkCost t p < INT_MAX) : σ.D b ≤ σ.D a + walkCost t p := by
  induction p generalizing a with
  | nil =>
    simp only [IsWalk] at hp
    subst hp
    simp [walkCost]
  | cons e p ih =>
    obtain ⟨h1, h2, h3⟩ := hp
    subst h2
    have hnp := walkCost_nonneg hnn h3
    have hle := hst e h1 ha
    simp only [walkCost] at hlt ⊢
    have := ih h3 (by omega) (by omega)
    omega

/-! ## The program computes the ideal passes -/

theorem relaxEdges_abs {t : TimeOfDay} {es : List Edge} {st st' : BFState}
    (h : relaxEdges t es st = .ok st') :
    st'.dist.length = st.dist.length ∧ st'.parent.length = st.parent.length ∧
      st'.abs = es.foldl (relaxF t) st.abs := by
  induction es generalizing st with
  | nil =>
    simp only [relaxEdges] at h
    injection h with h; subst h
    exact ⟨rfl, rfl, rfl⟩
  | cons e es ih =>
    simp only [relaxEdges] at h
    split at h
    · rename_i st1 h1
      obtain ⟨a1, a2, a3⟩ := relaxEdge_abs h1
      obtain ⟨b1, b2, b3⟩ := ih h
      refine ⟨b1.trans a1, b2.trans a2, ?_⟩
      rw [b3, a3, List.foldl_cons]
    · cases h

theorem relaxPass_abs {t : TimeOfDay} {adj : List (Int × List Edge)} {st st' : BFState}
    (h : relaxPass t adj st = .ok st') :
    st'.dist.length = st.dist.length ∧ st'.parent.length = st.parent.length ∧
      st'.abs = passF t (allEdges adj) st.abs := by
  induction adj generalizing st with
  | nil =>
    simp only [relaxPass] at h
    injection h with h; subst h
    exact ⟨rfl, rfl, rfl⟩
  | cons p adj ih =>
    simp only [relaxPass] at h
    split at h
    · rename_i st1 h1
      obtain ⟨a1, a2, a3⟩ := relaxEdges_abs h1
      obtain ⟨b1, b2, b3⟩ := ih h
      refine ⟨b1.trans a1, b2.trans a2, ?_⟩
      rw [b3, a3]
      simp [passF, allEdges, List.foldl_append]
    · cases h

theorem passes_abs {t : TimeOfDay} {adj : List (Int × List Edge)} {n : Nat} {st st' : BFState}
    (h : passes t adj n st = .ok st') :
    st'.dist.length = st.dist.length ∧ st'.parent.length = st.parent.length ∧
      st'.abs = (passF t (allEdges adj))^[n] st.abs := by
  induction n generalizing st with
  | zero =>
    simp only [passes] at h
    injection h with h; subst h
    exact ⟨rfl, rfl, rfl⟩
  | succ n ih =>
    simp only [passes] at h
    split at h
    · rename_i st1 h1
      obtain ⟨a1, a2, a3⟩ := relaxPass_abs h1
      obtain ⟨b1, b2, b3⟩ := ih h
      refine ⟨b1.trans a1, b2.trans a2, ?_⟩
      rw [b3, a3, Function.iterate_succ_apply]
    · cases h

theorem getAt_replicate (n : Nat) (a : Int) (j : Int) :
    getAt (List.replicate n a) j = if 0 ≤ j ∧ j < n then some a else none := by
  unfold getAt
  by_cases h0 : 0 ≤ j
  · by_cases h1 : j < n
    · have : j.toNat < n := by omega
      simp [h0, h1, List.getElem?_replicate, this]
    · have : ¬ j.toNat < n := by omega
      simp [h0, h1, List.getElem?_replicate, this]
  · simp [h0]

theorem initState_ok {V s : Int} {st : BFState} (h : initState V s = .ok st) :
    (0 ≤ s ∧ s < V) ∧ st.dist.length = V.toNat ∧ st.parent.length = V.toNat ∧
      st.abs = initF s := by
  unfold initState at h
  split at h
  · cases h
  rename_i hV
  split at h
  · rename_i d hd
    injection h with h; subst h
    obtain ⟨⟨h0, h1⟩, hl, hg⟩ := writeAt_ok hd
    simp only [List.length_replicate] at h1 hl
    refine ⟨⟨h0, by omega⟩, hl, by simp, ?_⟩
    simp only [BFState.abs, initF, FS.mk.injEq]
    constructor
    · funext j
      simp only [dVal, hg j, getAt_replicate]
      by_cases hj : j = s
      · simp [hj]
      · simp only [hj, if_false]
        split <;> rfl
    · funext j
      simp only [pVal, getAt_replicate]
      split <;> rfl
  · cases h

theorem initState_isOk {V s : Int} (h0 : 0 ≤ s) (h1 : s < V) : ∃ st, initState V s = .ok st := by
  unfold initState
  have hV : ¬ V < 0 := by omega
  rw [if_neg hV]
  obtain ⟨d, hd⟩ := writeAt_isOk (l := List.replicate V.toNat INT_MAX) 0 h0
    (by simp only [List.length_replicate]; omega)
  rw [hd]
  exact ⟨_, rfl⟩

/-- A successful run of `bellmanFord` computes the ideal passes from the ideal initial state. -/
theorem bellmanFord_abs {g : Graph} {s : Int} {t : TimeOfDay} {st : BFState}
    (h : g.bellmanFord s t = .ok st) :
    (0 ≤ s ∧ s < g.V) ∧ st.dist.length = g.V.toNat ∧ st.parent.length = g.V.toNat ∧
      st.abs = (passF t g.edges)^[(g.V - 1).toNat] (initF s) := by
  unfold Graph.bellmanFord at h
  split at h
  · rename_i st0 h0
    obtain ⟨hs, l1, l2, ha⟩ := initState_ok h0
    obtain ⟨b1, b2, b3⟩ := passes_abs h
    refine ⟨hs, b1.trans l1, b2.trans l2, ?_⟩
    rw [b3, ha]
    rfl
  · cases h

theorem dVal_ne {st : BFState} {v : Int} (h : dVal st v ≠ INT_MAX) :
    0 ≤ v ∧ v < st.dist.length := by
  unfold dVal at h
  cases hg : getAt st.dist v with
  | none => rw [hg] at h; simp at h
  | some x => exact getAt_eq_some hg

theorem dVal_eq {st : BFState} {v : Int} (h0 : 0 ≤ v) (h1 : v < st.dist.length) :
    getAt st.dist v = some (dVal st v) := by
  obtain ⟨x, hx⟩ := getAt_isSome h0 h1
  simp [dVal, hx]

theorem pVal_eq {st : BFState} {v : Int} (h0 : 0 ≤ v) (h1 : v < st.parent.length) :
    getAt st.parent v = some (pVal st v) := by
  obtain ⟨x, hx⟩ := getAt_isSome h0 h1
  simp [pVal, hx]

/-! ## Outcomes on well-formed graphs -/

theorem relaxEdge_total {t : TimeOfDay} {st : BFState} {e : Edge} {n : Nat}
    (hd : st.dist.length = n) (hp : st.parent.length = n)
    (hu : 0 ≤ e.u ∧ e.u < n) (hv : 0 ≤ e.v ∧ e.v < n) (hw : (e.traffic.find t).isSome) :
    OkOrOverflow n (relaxEdge t st e) := by
  obtain ⟨w, hw'⟩ := Option.isSome_iff_exists.1 hw
  obtain ⟨du, hdu⟩ := getAt_isSome hu.1 (by rw [hd]; exact hu.2)
  obtain ⟨dv, hdv⟩ := getAt_isSome hv.1 (by rw [hd]; exact hv.2)
  obtain ⟨d', hd'⟩ : ∃ d' : Int → List Int, ∀ x, writeAt st.dist e.v x = .ok (d' x) := by
    refine ⟨fun x => st.dist.set e.v.toNat x, fun x => ?_⟩
    unfold writeAt
    rw [if_pos ⟨hv.1, by omega⟩]
  obtain ⟨p', hp'⟩ := writeAt_isOk (l := st.parent) e.u hv.1 (by rw [hp]; exact hv.2)
  have hl1 : ∀ x, (d' x).length = n := fun x => by rw [(writeAt_ok (hd' x)).2.1, hd]
  have hl2 : p'.length = n := by rw [(writeAt_ok hp').2.1, hp]
  unfold relaxEdge Traffic.getWeight readAt
  simp only [hw', hdu, hdv]
  unfold addInt
  split
  · rename_i x hx; split at hx <;> simp_all [OkOrOverflow]
  rename_i tw htw
  split
  · split
    · rename_i x hx; split at hx <;> simp_all [OkOrOverflow]
    rename_i s hs
    split
    · rw [hd' s, hp']
      exact Or.inl ⟨_, rfl, hl1 s, hl2⟩
    · exact Or.inl ⟨_, rfl, hd, hp⟩
  · exact Or.inl ⟨_, rfl, hd, hp⟩

theorem relaxEdges_total {t : TimeOfDay} {n : Nat} (es : List Edge)
    (hE : ∀ e ∈ es, (0 ≤ e.u ∧ e.u < n) ∧ (0 ≤ e.v ∧ e.v < n) ∧ (e.traffic.find t).isSome)
    (st : BFState) (hd : st.dist.length = n) (hp : st.parent.length = n) :
    OkOrOverflow n (relaxEdges t es st) := by
  induction es generalizing st with
  | nil => exact Or.inl ⟨st, rfl, hd, hp⟩
  | cons e es ih =>
    have he := hE e (List.mem_cons_self _ _)
    simp only [relaxEdges]
    rcases relaxEdge_total (t := t) hd hp he.1 he.2.1 he.2.2 with ⟨st1, h1, hd1, hp1⟩ | h1
    · rw [h1]
      exact ih (fun x hx => hE x (List.mem_cons_of_mem _ hx)) st1 hd1 hp1
    · rw [h1]; exact Or.inr rfl

theorem relaxPass_total {t : TimeOfDay} {n : Nat} (adj : List (Int × List Edge))
    (hE : ∀ e ∈ allEdges adj,
      (0 ≤ e.u ∧ e.u < n) ∧ (0 ≤ e.v ∧ e.v < n) ∧ (e.traffic.find t).isSome)
    (st : BFState) (hd : st.dist.length = n) (hp : st.parent.length = n) :
    OkOrOverflow n (relaxPass t adj st) := by
  induction adj generalizing st with
  | nil => exact Or.inl ⟨st, rfl, hd, hp⟩
  | cons p adj ih =>
    simp only [relaxPass]
    have h1 := relaxEdges_total (t := t) p.2
      (fun e he => hE e (by simp [allEdges, he])) st hd hp
    rcases h1 with ⟨st1, h1, hd1, hp1⟩ | h1
    · rw [h1]
      exact ih (fun e he => hE e (by simp [allEdges, he])) st1 hd1 hp1
    · rw [h1]; exact Or.inr rfl

theorem passes_total {t : TimeOfDay} {n : Nat} (adj : List (Int × List Edge))
    (hE : ∀ e ∈ allEdges adj,
      (0 ≤ e.u ∧ e.u < n) ∧ (0 ≤ e.v ∧ e.v < n) ∧ (e.traffic.find t).isSome)
    (k : Nat) (st : BFState) (hd : st.dist.length = n) (hp : st.parent.length = n) :
    OkOrOverflow n (passes t adj k st) := by
  induction k generalizing st with
  | zero => exact Or.inl ⟨st, rfl, hd, hp⟩
  | succ k ih =>
    simp only [passes]
    rcases relaxPass_total (t := t) adj hE st hd hp with ⟨st1, h1, hd1, hp1⟩ | h1
    · rw [h1]; exact ih st1 hd1 hp1
    · rw [h1]; exact Or.inr rfl

/-- On a well-formed graph the only abnormal outcome of `bellmanFord` is an overflow. -/
theorem bellmanFord_total {g : Graph} {s : Int} {t : TimeOfDay} (hwf : WellFormed g s t) :
    OkOrOverflow g.V.toNat (g.bellmanFord s t) := by
  obtain ⟨⟨hs0, hs1⟩, hE⟩ := hwf
  obtain ⟨st0, h0⟩ := initState_isOk hs0 hs1
  obtain ⟨-, l1, l2, -⟩ := initState_ok h0
  unfold Graph.bellmanFord
  rw [h0]
  refine passes_total g.adjList (fun e he => ?_) _ st0 l1 l2
  obtain ⟨a, b, c⟩ := hE e he
  exact ⟨⟨a.1, by omega⟩, ⟨b.1, by omega⟩, c⟩

/-! ## The returned state -/

theorem initF_InvW (E : List Edge) (t : TimeOfDay) (s : Int) : InvW E t s (initF s) := by
  refine ⟨?_, ?_, ?_⟩
  · intro v
    simp only [initF]
    split <;> simp [INT_MAX]
  · intro v hv
    simp only [initF] at hv ⊢
    by_cases h : v = s
    · subst h
      exact ⟨[], rfl, by simp [walkCost]⟩
    · simp [h] at hv
  · intro v hv
    simp [initF] at hv

theorem initF_Inv (E : List Edge) (t : TimeOfDay) (s : Int) : Inv E t s (initF s) := by
  refine ⟨⟨initF_InvW E t s, by simp [initF], rfl⟩, ?_, ?_⟩
  · intro v _ hvs
    simp [initF, hvs]
  · intro v
    exact ⟨[v], Chain.root rfl⟩

/-- What holds of every returned state, whatever the weights. -/
theorem bellmanFord_InvW {g : Graph} {s : Int} {t : TimeOfDay} {st : BFState}
    (h : g.bellmanFord s t = .ok st) : InvW g.edges t s st.abs := by
  obtain ⟨-, -, -, ha⟩ := bellmanFord_abs h
  rw [ha]
  exact iterate_passF_inv (InvW g.edges t s) (fun _ _ he hI => relaxF_InvW he hI) _ _
    (initF_InvW _ _ _)

/-- What holds at the source when no closed walk through it is negative. -/
theorem bellmanFord_InvS {g : Graph} {s : Int} {t : TimeOfDay} {st : BFState}
    (hs : ∀ p, IsWalk g.edges s s p → 0 ≤ walkCost t p)
    (h : g.bellmanFord s t = .ok st) : InvS g.edges t s st.abs := by
  obtain ⟨-, -, -, ha⟩ := bellmanFord_abs h
  rw [ha]
  exact iterate_passF_inv (InvS g.edges t s) (fun _ _ he hI => relaxF_InvS hs he hI) _ _
    (initF_Inv _ _ _).1

/-- The full invariant of a returned state when no closed walk is negative. -/
theorem bellmanFord_Inv {g : Graph} {s : Int} {t : TimeOfDay} {st : BFState}
    (hwf : WellFormed g s t) (hneg : NoNegCycle g.edges t)
    (h : g.bellmanFord s t = .ok st) : Inv g.edges t s st.abs := by
  obtain ⟨-, -, -, ha⟩ := bellmanFord_abs h
  rw [ha]
  have hE : ∀ e ∈ g.edges, e.u ≠ -1 := fun e he => by
    have := (hwf.2 e he).1.1
    omega
  exact iterate_passF_inv (Inv g.edges t s) (fun _ _ he hI => relaxF_Inv hneg hE he hI) _ _
    (initF_Inv _ _ _)

/-- Post-relaxation stability of the returned state, on the ideal view. -/
theorem bellmanFord_stable {g : Graph} {s : Int} {t : TimeOfDay} {st : BFState}
    (hwf : WellFormed g s t) (hneg : NoNegCycle g.edges t)
    (h : g.bellmanFord s t = .ok st) :
    ∀ e ∈ g.edges, st.abs.D e.u ≠ INT_MAX → st.abs.D e.v ≤ st.abs.D e.u + e.cost t := by
  have hI := bellmanFord_Inv hwf hneg h
  obtain ⟨⟨hs0, hs1⟩, hd, -, ha⟩ := bellmanFord_abs h
  have hV : ((g.V - 1).toNat + 1 : Nat) = g.V.toNat := by omega
  have hR : ∀ v, st.abs.D v ≠ INT_MAX → 0 ≤ v ∧ v < ((g.V - 1).toNat + 1 : Nat) := by
    intro v hv
    have := dVal_ne hv
    rw [hV]
    omega
  have hEv : ∀ e ∈ g.edges, 0 ≤ e.v ∧ e.v < ((g.V - 1).toNat + 1 : Nat) := by
    intro e he
    have := (hwf.2 e he).2.1
    rw [hV]
    omega
  rw [ha] at hI hR ⊢
  exact stable_F (initF s) (g.V - 1).toNat hneg (by simp [initF]) hI hR hEv

theorem foldl_relaxF_fix {t : TimeOfDay} {σ : FS} (E : List Edge)
    (hst : ∀ e ∈ E, σ.D e.u ≠ INT_MAX → σ.D e.v ≤ σ.D e.u + e.cost t) :
    E.foldl (relaxF t) σ = σ := by
  induction E with
  | nil => rfl
  | cons e E ih =>
    have h1 : relaxF t σ e = σ := by
      unfold relaxF
      have : ¬ (σ.D e.u ≠ INT_MAX ∧ σ.D e.u + e.cost t < σ.D e.v) := by
        intro ⟨a, b⟩
        have := hst e (List.mem_cons_self _ _) a
        omega
      rw [if_neg this]
    rw [List.foldl_cons, h1]
    exact ih (fun e he => hst e (List.mem_cons_of_mem _ he))

theorem abs_inj {st st' : BFState} (hd : st.dist.length = st'.dist.length)
    (hp : st.parent.length = st'.parent.length) (h : st.abs = st'.abs) : st = st' := by
  have hD : ∀ j, dVal st j = dVal st' j := fun j => congrFun (congrArg FS.D h) j
  have hP : ∀ j, pVal st j = pVal st' j := fun j => congrFun (congrArg FS.P h) j
  have e1 : st.dist = st'.dist := by
    apply List.ext_getElem hd
    intro i h1 h2
    have := hD (i : Int)
    simp only [dVal, getAt, Int.toNat_ofNat, Int.ofNat_nonneg, if_true] at this
    rw [List.getElem?_eq_getElem h1, List.getElem?_eq_getElem h2] at this
    simpa using this
  have e2 : st.parent = st'.parent := by
    apply List.ext_getElem hp
    intro i h1 h2
    have := hP (i : Int)
    simp only [pVal, getAt, Int.toNat_ofNat, Int.ofNat_nonneg, if_true] at this
    rw [List.getElem?_eq_getElem h1, List.getElem?_eq_getElem h2] at this
    simpa using this
  cases st; cases st'
  simp only at e1 e2
  rw [e1, e2]

/-! ## Claims about the shortest-path engine -/

theorem noNegCycle_of_nonneg {E : List Edge} {t : TimeOfDay} (hnn : ∀ e ∈ E, 0 ≤ e.cost t) :
    NoNegCycle E t := fun _ _ hp => walkCost_nonneg hnn hp

theorem ok_of_not_overflow {n : Nat} {r : Except Err BFState} (h : OkOrOverflow n r)
    (hov : r ≠ .error .overflow) : ∃ st, r = .ok st := by
  rcases h with ⟨st, h, -, -⟩ | h
  · exact ⟨st, h⟩
  · exact absurd h hov

theorem exampleGraph_wf : WellFormed exampleGraph 0 .Morning := by
  unfold WellFormed
  decide

theorem exampleGraph_nonneg : ∀ e ∈ exampleGraph.edges, 0 ≤ e.cost .Morning := by
  decide

/-- C4 fails as stated: with a negative road from the source to itself the returned
`dist[source]` is -2 and `parent[source]` is the source. -/
theorem C4_counterexample :
    WellFormed negLoopGraph 0 .Morning ∧
    ∃ st, negLoopGraph.bellmanFord 0 .Morning = .ok st ∧
      getAt st.dist 0 = some (-2) ∧ getAt st.parent 0 = some 0 := by
  refine ⟨?_, ⟨[-2, INT_MAX], [0, -1]⟩, ?_, ?_, ?_⟩
  · unfold WellFormed; decide
  · decide
  · decide
  · decide

/-- C4 (amended): on a graph with ids in range and weights for the slot, with no
negative-cost closed walk through the source and no overflowing sum, `bellmanFord` returns
with `dist[source] == 0` and `parent[source] == -1`. -/
theorem C4_source_entry (g : Graph) (s : Int) (t : TimeOfDay)
    (hwf : WellFormed g s t) (hs : ∀ p, IsWalk g.edges s s p → 0 ≤ walkCost t p)
    (hov : g.bellmanFord s t ≠ .error .overflow) :
    ∃ st, g.bellmanFord s t = .ok st ∧
      getAt st.dist s = some 0 ∧ getAt st.parent s = some (-1) := by
  obtain ⟨st, h⟩ := ok_of_not_overflow (bellmanFord_total hwf) hov
  obtain ⟨-, hD, hP⟩ := bellmanFord_InvS hs h
  obtain ⟨⟨h0, h1⟩, hd, hp, -⟩ := bellmanFord_abs h
  refine ⟨st, h, ?_, ?_⟩
  · have hg : getAt st.dist s = some (dVal st s) := dVal_eq h0 (by omega)
    rw [hg]
    exact congrArg some hD
  · have hg : getAt st.parent s = some (pVal st s) := pVal_eq h0 (by omega)
    rw [hg]
    exact congrArg some hP

/-- Witness of C4 on the worked example. -/
theorem C4_witness :
    WellFormed exampleGraph 0 .Morning ∧
    (∀ p, IsWalk exampleGraph.edges 0 0 p → 0 ≤ walkCost .Morning p) ∧
    exampleGraph.bellmanFord 0 .Morning ≠ .error .overflow ∧
    ∃ st, exampleGraph.bellmanFord 0 .Morning = .ok st ∧
      getAt st.dist 0 = some 0 ∧ getAt st.parent 0 = some (-1) :=
  ⟨exampleGraph_wf, fun _ hp => walkCost_nonneg exampleGraph_nonneg hp, by decide,
    C4_source_entry exampleGraph 0 .Morning exampleGraph_wf
      (fun _ hp => walkCost_nonneg exampleGraph_nonneg hp) (by decide)⟩

theorem walkBack_root {parent : List Int} {d : Int} (h : getAt parent d = some (-1))
    (fuel : Nat) : walkBack parent (fuel + 1) d = .ok [d] := by
  have hd : d ≠ -1 := by
    have := (getAt_eq_some h).1
    omega
  cases fuel <;> simp [walkBack, hd, readAt, h]

theorem printPath_of_walk {g : Graph} {fuel : Nat} {s d : Int} {parent l : List Int}
    (h : walkBack parent fuel d = .ok l) :
    g.printPath fuel s d parent =
      match l.reverse with
      | [] => .error .emptyFront
      | front :: rest =>
        if front ≠ s then .ok (.noPath, g)
        else .ok (.route (front :: rest) (printNames g.cityNames (front :: rest)).1,
          { g with cityNames := (printNames g.cityNames (front :: rest)).2 }) := by
  simp only [Graph.printPath, h]

/-- C5: whenever `bellmanFord` returns, every vertex `d` in `[0, V)` other than the source
to which no walk from the source exists has `dist[d] == INT_MAX` (the unreachable sentinel)
and `parent[d] == -1`, and `printPath` from the source to `d` reports "No path found."
(whatever the sign of the weights). -/
theorem C5_unreachable (g : Graph) (s : Int) (t : TimeOfDay) (st : BFState) (d : Int)
    (h : g.bellmanFord s t = .ok st) (hd0 : 0 ≤ d) (hd1 : d < g.V) (hds : d ≠ s)
    (hun : ¬ ∃ p, IsWalk g.edges s d p) :
    getAt st.dist d = some INT_MAX ∧ getAt st.parent d = some (-1) ∧
      ∀ fuel, 1 ≤ fuel → g.printPath fuel s d st.parent = .ok (.noPath, g) := by
  have hW := bellmanFord_InvW h
  obtain ⟨-, hd, hp, -⟩ := bellmanFord_abs h
  have hD : dVal st d = INT_MAX := by
    by_contra hne
    obtain ⟨p, hp, -⟩ := hW.walk d hne
    exact hun ⟨p, hp⟩
  have hP : pVal st d = -1 := by
    by_contra hne
    exact (hW.par d hne).2.1 hD
  have h1 : getAt st.dist d = some INT_MAX := by
    rw [dVal_eq hd0 (by omega), hD]
  have h2 : getAt st.parent d = some (-1) := by
    rw [pVal_eq hd0 (by omega), hP]
  refine ⟨h1, h2, ?_⟩
  intro fuel hf
  obtain ⟨k, rfl⟩ : ∃ k, fuel = k + 1 := ⟨fuel - 1, by omega⟩
  rw [printPath_of_walk (walkBack_root h2 k)]
  simp [hds]

theorem isWalk_end {E : List Edge} {a b : Int} {p : List Edge} (hp : IsWalk E a b p)
    (hb : ∀ e ∈ E, e.v ≠ b) : a = b := by
  induction p generalizing a with
  | nil => exact hp
  | cons e p ih =>
    obtain ⟨h1, -, h3⟩ := hp
    exact absurd (ih h3) (hb e h1)

/-- Witness of C5: city D=3 of `isolatedGraph` has no road, queried from A=0. -/
theorem C5_witness :
    isolatedGraph.bellmanFord 0 .Morning = .ok ⟨[0, 7, 11, INT_MAX], [-1, 0, 1, -1]⟩ ∧
    (¬ ∃ p, IsWalk isolatedGraph.edges 0 3 p) ∧
    (getAt [0, 7, 11, INT_MAX] 3 = some INT_MAX ∧ getAt [-1, 0, 1, -1] 3 = some (-1) ∧
      ∀ fuel, 1 ≤ fuel →
        isolatedGraph.printPath fuel 0 3 [-1, 0, 1, -1] = .ok (.noPath, isolatedGraph)) :=
  have hun : ¬ ∃ p, IsWalk isolatedGraph.edges 0 3 p := fun ⟨_, hp⟩ =>
    absurd (isWalk_end hp (by decide)) (by decide)
  ⟨by decide, hun,
    C5_unreachable isolatedGraph 0 .Morning ⟨[0, 7, 11, INT_MAX], [-1, 0, 1, -1]⟩ 3
      (by decide) (by decide) (by decide) (by decide) hun⟩

/-! ## Path reconstruction and the time-slot parser -/

theorem walkBack_none (parent : List Int) (fuel : Nat) : walkBack parent fuel (-1) = .ok [] := by
  cases fuel <;> simp [walkBack]

theorem walkBack_step {parent : List Int} {fuel : Nat} {cur : Int} {l : List Int}
    (hc : cur ≠ -1) (h : walkBack parent fuel cur = .ok l) :
    ∃ k nxt rest, fuel = k + 1 ∧ getAt parent cur = some nxt ∧
      walkBack parent k nxt = .ok rest ∧ l = cur :: rest := by
  cases fuel with
  | zero => simp [walkBack, hc] at h
  | succ k =>
    simp only [walkBack, hc, if_false] at h
    split at h
    · cases h
    rename_i nxt hn
    split at h
    · rename_i rest hr
      injection h with h
      exact ⟨k, nxt, rest, rfl, readAt_ok hn, hr, h.symm⟩
    · cases h

/-- Shape of the list walked by the loop of `printPath` from a vertex. -/
theorem walkBack_shape {parent : List Int} {fuel : Nat} {cur : Int} {l : List Int}
    (hc : cur ≠ -1) (h : walkBack parent fuel cur = .ok l) :
    l.head? = some cur ∧ List.Chain' (fun b a => getAt parent b = some a) l ∧
      ∃ r, l.getLast? = some r ∧ getAt parent r = some (-1) := by
  induction fuel generalizing cur l with
  | zero => simp [walkBack, hc] at h
  | succ k ih =>
    obtain ⟨k', nxt, rest, hk, hn, hr, rfl⟩ := walkBack_step hc h
    obtain rfl : k' = k := by omega
    by_cases hnx : nxt = -1
    · subst hnx
      rw [walkBack_none] at hr
      injection hr with hr
      subst hr
      exact ⟨rfl, List.chain'_singleton _, cur, rfl, hn⟩
    · obtain ⟨h1, h2, r, h3, h4⟩ := ih hnx hr
      refine ⟨rfl, ?_, r, ?_, h4⟩
      · cases rest with
        | nil => exact List.chain'_singleton _
        | cons x rest =>
          simp only [List.head?_cons, Option.some.injEq] at h1
          subst h1
          exact List.chain'_cons.2 ⟨hn, h2⟩
      · cases rest with
        | nil => simp at h1
        | cons x rest => simpa [List.getLast?_cons_cons] using h3

/-- C6 fails as stated: with the predecessor map `[1, -1]` the walk from city 0 to city 0
continues to city 1, and `printPath` reports "No path found." instead of the route `[0]`. -/
theorem C6_counterexample :
    (∀ fuel, 2 ≤ fuel →
      (Graph.new 2).printPath fuel 0 0 [1, -1] = .ok (.noPath, Graph.new 2)) ∧
    ∀ fuel names g', (Graph.new 2).printPath fuel 0 0 [1, -1] ≠ .ok (.route [0] names, g') := by
  have key : ∀ fuel, 2 ≤ fuel →
      (Graph.new 2).printPath fuel 0 0 [1, -1] = .ok (.noPath, Graph.new 2) := by
    intro fuel hf
    obtain ⟨k, rfl⟩ : ∃ k, fuel = k + 2 := ⟨fuel - 2, by omega⟩
    have hw : walkBack [1, -1] (k + 2) 0 = .ok [0, 1] := by
      simp [walkBack, readAt, getAt, walkBack_none]
    rw [printPath_of_walk hw]
    simp
  refine ⟨key, ?_⟩
  intro fuel names g'
  match fuel with
  | 0 => simp [Graph.printPath, walkBack]
  | 1 => simp [Graph.printPath, walkBack, readAt, getAt]
  | k + 2 => rw [key (k + 2) (by omega)]; simp

/-- C6 (amended): for every source vertex and every predecessor map in which
`parent[source] == -1`, `printPath(source, source, parent)` prints the single-element
route `[source]`. -/
theorem C6_source_to_source (g : Graph) (s : Int) (parent : List Int)
    (h : getAt parent s = some (-1)) (fuel : Nat) (hf : 1 ≤ fuel) :
    g.printPath fuel s s parent =
      .ok (.route [s] [(nameOf g.cityNames s).1],
        { g with cityNames := (nameOf g.cityNames s).2 }) := by
  obtain ⟨k, rfl⟩ : ∃ k, fuel = k + 1 := ⟨fuel - 1, by omega⟩
  rw [printPath_of_walk (walkBack_root h k)]
  simp [printNames]

/-- Witness of C6 on the predecessor map of the worked example. -/
theorem C6_witness :
    getAt [-1, 0, 1] 0 = some (-1) ∧ 1 ≤ 3 ∧
    exampleGraph.printPath 3 0 0 [-1, 0, 1] =
      .ok (.route [0] [(nameOf exampleGraph.cityNames 0).1],
        { exampleGraph with cityNames := (nameOf exampleGraph.cityNames 0).2 }) :=
  ⟨by decide, by decide, C6_source_to_source exampleGraph 0 [-1, 0, 1] (by decide) 3 (by decide)⟩

/-- C7: when the backward walk from a destination (a vertex id, not the marker -1) is
finite, `printPath` never prints a partial path: if the walk does not pass through the
source it reports "No path found."; and whenever it prints a route, the route is the
reversed walk, has at least one vertex, starts at the source, ends at the destination, and
every consecutive pair `(a, b)` satisfies `parent[b] == a`. -/
theorem C7_never_truncated_path (g : Graph) (fuel : Nat) (start dest : Int)
    (parent walked : List Int) (hdest : dest ≠ -1)
    (hw : walkBack parent fuel dest = .ok walked) :
    (start ∉ walked → g.printPath fuel start dest parent = .ok (.noPath, g)) ∧
    ∀ ids names g', g.printPath fuel start dest parent = .ok (.route ids names, g') →
      ids = walked.reverse ∧ 1 ≤ ids.length ∧ ids.head? = some start ∧
        ids.getLast? = some dest ∧ List.Chain' (fun a b => getAt parent b = some a) ids := by
  obtain ⟨h1, h2, r, h3, -⟩ := walkBack_shape hdest hw
  rw [printPath_of_walk hw]
  cases hrev : walked.reverse with
  | nil =>
    have : walked = [] := by simpa using hrev
    subst this
    simp at h1
  | cons front rest =>
    have hmem : front ∈ walked := by
      have : front ∈ walked.reverse := by rw [hrev]; exact List.mem_cons_self _ _
      simpa using this
    constructor
    · intro hs
      have : front ≠ start := fun h => hs (h ▸ hmem)
      simp [this]
    · intro ids names g' hout
      by_cases hfs : front = start
      · simp only [hfs, ne_eq, not_true_eq_false, if_false, Except.ok.injEq, Prod.mk.injEq,
          PathOutput.route.injEq] at hout
        obtain ⟨⟨hids, -⟩, -⟩ := hout
        subst hids
        refine ⟨by rw [hfs], by simp, rfl, ?_, ?_⟩
        · have : (start :: rest).getLast? = walked.head? := by
            rw [← hfs, ← hrev, List.getLast?_reverse]
          rw [this, h1]
        · have : List.Chain' (fun a b => getAt parent b = some a) walked.reverse :=
            List.chain'_reverse.2 h2
          rw [hrev, hfs] at this
          exact this
      · simp [hfs] at hout

/-- Witness of C7 on the predecessor map of the worked example, destination C=2. -/
theorem C7_witness :
    (2 : Int) ≠ -1 ∧ walkBack [-1, 0, 1] 3 2 = .ok [2, 1, 0] ∧
    ((0 : Int) ∉ [2, 1, 0] →
      exampleGraph.printPath 3 0 2 [-1, 0, 1] = .ok (.noPath, exampleGraph)) ∧
    ∀ ids names g', exampleGraph.printPath 3 0 2 [-1, 0, 1] = .ok (.route ids names, g') →
      ids = [2, 1, 0].reverse ∧ 1 ≤ ids.length ∧ ids.head? = some 0 ∧
        ids.getLast? = some 2 ∧ List.Chain' (fun a b => getAt [-1, 0, 1] b = some a) ids :=
  ⟨by decide, by decide,
    C7_never_truncated_path exampleGraph 3 0 2 [-1, 0, 1] [2, 1, 0] (by decide) (by decide)⟩

/-- C8: `parseTime` is an exact, case-sensitive parser: it returns Morning, Afternoon or
Evening exactly on the strings "morning", "afternoon", "evening", and fails with the
invalid-time error on every other string, for instance "MORNING", "noon" and "". -/
theorem C8_parseTime_exact (s : String) :
    (parseTime s = .ok .Morning ↔ s = "morning") ∧
    (parseTime s = .ok .Afternoon ↔ s = "afternoon") ∧
    (parseTime s = .ok .Evening ↔ s = "evening") ∧
    (parseTime s = .error .invalidTime ↔
      (s ≠ "morning" ∧ s ≠ "afternoon" ∧ s ≠ "evening")) ∧
    (∀ e, parseTime s = .error e → e = .invalidTime) ∧
    parseTime "MORNING" = .error .invalidTime ∧
    parseTime "noon" = .error .invalidTime ∧
    parseTime "" = .error .invalidTime := by
  refine ⟨?_, ?_, ?_, ?_, ?_, by decide, by decide, by decide⟩
  all_goals
    unfold parseTime
    by_cases h1 : s = "morning"
    · subst h1; simp
    by_cases h2 : s = "afternoon"
    · subst h2; simp
    by_cases h3 : s = "evening"
    · subst h3; simp
    simp [h1, h2, h3]

/-! ## Termination of a query -/

/-- The predecessor chain of a returned state is what the loop of `printPath` walks. -/
theorem walkBack_of_chain {st : BFState} {v : Int} {l : List Int} (hc : Chain (pVal st) v l)
    (hr : ∀ x ∈ l, 0 ≤ x ∧ x < st.parent.length) :
    ∀ fuel, l.length ≤ fuel → walkBack st.parent fuel v = .ok l := by
  induction hc with
  | @root v hP =>
    intro fuel hf
    obtain ⟨h0, h1⟩ := hr v (List.mem_singleton.2 rfl)
    have hg : getAt st.parent v = some (-1) := by rw [pVal_eq h0 h1, hP]
    obtain ⟨k, rfl⟩ : ∃ k, fuel = k + 1 := ⟨fuel - 1, by simp at hf; omega⟩
    exact walkBack_root hg k
  | @step v l hne _ ih =>
    intro fuel hf
    obtain ⟨h0, h1⟩ := hr v (List.mem_cons_self _ _)
    have hg : getAt st.parent v = some (pVal st v) := pVal_eq h0 h1
    obtain ⟨k, rfl⟩ : ∃ k, fuel = k + 1 := ⟨fuel - 1, by simp at hf; omega⟩
    have hk : l.length ≤ k := by simp at hf; omega
    have hrec := ih (fun x hx => hr x (List.mem_cons_of_mem _ hx)) k hk
    have hv : v ≠ -1 := by omega
    simp [walkBack, hv, readAt, hg, hrec]

/-- In a returned state (no negative closed walk) every vertex in range has a predecessor
chain without repetition, inside the vector, of at most `V` vertices. -/
theorem bellmanFord_chain {g : Graph} {s : Int} {t : TimeOfDay} {st : BFState}
    (hwf : WellFormed g s t) (hneg : NoNegCycle g.edges t)
    (h : g.bellmanFord s t = .ok st) (d : Int) (hd0 : 0 ≤ d) (hd1 : d < g.V) :
    ∃ l, Chain (pVal st) d l ∧ l.Nodup ∧ l.length ≤ g.V.toNat ∧
      ∀ x ∈ l, 0 ≤ x ∧ x < st.parent.length := by
  have hI := bellmanFord_Inv hwf hneg h
  have hW := hI.1.1
  obtain ⟨-, hd, hp, -⟩ := bellmanFord_abs h
  obtain ⟨l, hl⟩ := hI.2.2 d
  have hr : ∀ x ∈ l, 0 ≤ x ∧ x < st.parent.length := by
    by_cases hD : st.abs.D d = INT_MAX
    · have hP : st.abs.P d = -1 := by
        by_contra hne
        exact (hW.par d hne).2.1 hD
      have := Chain.unique hl (Chain.root hP)
      subst this
      intro x hx
      simp only [List.mem_singleton] at hx
      subst hx
      exact ⟨hd0, by omega⟩
    · intro x hx
      have := dVal_ne (hl.finite hW hD x hx)
      omega
  have hr' : ∀ x ∈ l, 0 ≤ x ∧ x < (g.V.toNat : Int) := fun x hx => by
    have := hr x hx
    omega
  exact ⟨l, hl, hl.nodup, (nodup_range hl.nodup hr').1, hr⟩

/-- C9 fails as stated: on `overflowGraph` (ids in range, costs positive) the sum
`dist[1] + totalWeight` leaves the range of `int` and `bellmanFord` returns no result, in
either iteration order of the adjacency map. -/
theorem C9_counterexample :
    WellFormed overflowGraph 0 .Morning ∧
    NoNegCycle overflowGraph.edges .Morning ∧
    overflowGraph.bellmanFord 0 .Morning = .error .overflow ∧
    { overflowGraph with adjList := overflowGraph.adjList.reverse }.bellmanFord 0 .Morning =
      .error .overflow := by
  refine ⟨?_, noNegCycle_of_nonneg (by decide), by decide, by decide⟩
  unfold WellFormed
  decide

/-- C9 (amended): on a graph with ids in range, weights for the slot, no negative-cost
closed walk and no overflowing sum, `bellmanFord` initialises, performs exactly `V - 1`
passes over the adjacency entries and returns; and for every destination in `[0, V)` the
backward walk of `printPath` over the returned predecessor map terminates within `V`
steps, visits no vertex twice, and `printPath` itself returns. -/
theorem C9_runs_to_completion (g : Graph) (s : Int) (t : TimeOfDay)
    (hwf : WellFormed g s t) (hneg : NoNegCycle g.edges t)
    (hov : g.bellmanFord s t ≠ .error .overflow) :
    ∃ st0 st, initState g.V s = .ok st0 ∧
      passes t g.adjList (g.V - 1).toNat st0 = .ok st ∧ g.bellmanFord s t = .ok st ∧
      ∀ dest, 0 ≤ dest → dest < g.V →
        ∃ walked, walked.Nodup ∧ walked.length ≤ g.V.toNat ∧
          ∀ fuel, g.V.toNat ≤ fuel →
            walkBack st.parent fuel dest = .ok walked ∧
            ∃ out, g.printPath fuel s dest st.parent = .ok out := by
  obtain ⟨st, h⟩ := ok_of_not_overflow (bellmanFord_total hwf) hov
  obtain ⟨st0, h0⟩ := initState_isOk hwf.1.1 hwf.1.2
  have hp : passes t g.adjList (g.V - 1).toNat st0 = .ok st := by
    have := h
    unfold Graph.bellmanFord at this
    rw [h0] at this
    exact this
  refine ⟨st0, st, h0, hp, h, ?_⟩
  intro dest hd0 hd1
  obtain ⟨l, hl, hnd, hlen, hr⟩ := bellmanFord_chain hwf hneg h dest hd0 hd1
  refine ⟨l, hnd, hlen, ?_⟩
  intro fuel hf
  have hw := walkBack_of_chain hl hr fuel (le_trans hlen hf)
  refine ⟨hw, ?_⟩
  rw [printPath_of_walk hw]
  have hne := hl.ne_nil
  cases hrev : l.reverse with
  | nil =>
    have : l = [] := by simpa using hrev
    subst this
    simp at hne
  | cons front rest =>
    by_cases hfs : front = s
    · simp [hfs]
    · simp [hfs]

/-- Witness of C9 on the worked example at source A in the morning. -/
theorem C9_witness :
    WellFormed exampleGraph 0 .Morning ∧ NoNegCycle exampleGraph.edges .Morning ∧
    exampleGraph.bellmanFord 0 .Morning ≠ .error .overflow ∧
    ∃ st0 st, initState exampleGraph.V 0 = .ok st0 ∧
      passes .Morning exampleGraph.adjList (exampleGraph.V - 1).toNat st0 = .ok st ∧
      exampleGraph.bellmanFord 0 .Morning = .ok st ∧
      ∀ dest, 0 ≤ dest → dest < exampleGraph.V →
        ∃ walked, walked.Nodup ∧ walked.length ≤ exampleGraph.V.toNat ∧
          ∀ fuel, exampleGraph.V.toNat ≤ fuel →
            walkBack st.parent fuel dest = .ok walked ∧
            ∃ out, exampleGraph.printPath fuel 0 dest st.parent = .ok out :=
  ⟨exampleGraph_wf, noNegCycle_of_nonneg exampleGraph_nonneg, by decide,
    C9_runs_to_completion exampleGraph 0 .Morning exampleGraph_wf
      (noNegCycle_of_nonneg exampleGraph_nonneg) (by decide)⟩

/-! ## Graph construction -/

theorem build_induction (I : Graph → Prop) (V : Int) (h0 : I (Graph.new V))
    (hstep : ∀ g op, I g → I (g.apply op)) (ops : List Op) : I (Graph.build V ops) := by
  unfold Graph.build
  generalize Graph.new V = g0 at h0
  induction ops generalizing g0 with
  | nil => exact h0
  | cons op ops ih => exact ih _ (hstep g0 op h0)

theorem lookup_pushBack (m : List (Int × List Edge)) (k : Int) (e : Edge) (k' : Int) :
    lookup (pushBack m k e) k' = if k' = k then some (adjOf m k ++ [e]) else lookup m k' := by
  induction m with
  | nil =>
    by_cases h : k' = k
    · subst h; simp [pushBack, lookup, adjOf]
    · have h' : ¬ k = k' := fun x => h x.symm
      simp [pushBack, lookup, h, h']
  | cons p m ih =>
    obtain ⟨k0, es⟩ := p
    simp only [pushBack]
    by_cases h0 : k0 = k
    · subst h0
      by_cases h : k' = k0
      · subst h; simp [lookup, adjOf]
      · have h' : ¬ k0 = k' := fun x => h x.symm
        simp [lookup, h, h']
    · simp only [h0, if_false, lookup]
      by_cases h : k0 = k'
      · subst h
        have : ¬ k0 = k := h0
        simp [this]
      · simp only [h, if_false, ih]
        by_cases hk : k' = k
        · subst hk; simp [adjOf, lookup, h0]
        · simp [hk]

theorem adjOf_pushBack (m : List (Int × List Edge)) (k : Int) (e : Edge) (k' : Int) :
    adjOf (pushBack m k e) k' = if k' = k then adjOf m k ++ [e] else adjOf m k' := by
  unfold adjOf
  rw [lookup_pushBack]
  split <;> simp [adjOf]

theorem count_adjOf_pushBack (m : List (Int × List Edge)) (k : Int) (e x : Edge) (u : Int) :
    (adjOf (pushBack m k e) u).count x =
      (adjOf m u).count x + if u = k ∧ x = e then 1 else 0 := by
  rw [adjOf_pushBack]
  by_cases hu : u = k
  · subst hu
    by_cases hx : x = e
    · subst hx; simp
    · have : ¬ e = x := fun h => hx h.symm
      simp [List.count_singleton, hx, this]
  · simp [hu]

theorem mem_allEdges_pushBack (m : List (Int × List Edge)) (k : Int) (e x : Edge) :
    x ∈ allEdges (pushBack m k e) ↔ x ∈ allEdges m ∨ x = e := by
  induction m with
  | nil => simp [pushBack, allEdges]
  | cons p m ih =>
    obtain ⟨k0, es⟩ := p
    simp only [pushBack]
    split
    · simp [allEdges]; tauto
    · simp [allEdges, ih]; tauto

theorem adjOf_pushBack_u {m : List (Int × List Edge)} (h : ∀ k, ∀ e ∈ adjOf m k, e.u = k)
    (k0 : Int) (e0 : Edge) (h0 : e0.u = k0) :
    ∀ k, ∀ e ∈ adjOf (pushBack m k0 e0) k, e.u = k := by
  intro k e he
  rw [adjOf_pushBack] at he
  split at he
  · rename_i hk
    rcases List.mem_append.1 he with he | he
    · rw [hk]; exact h _ e he
    · simp only [List.mem_singleton] at he
      rw [he, h0, hk]
  · exact h _ e he

theorem symAdj_addEdge {m : List (Int × List Edge)} (h : SymAdj m) (a b w : Int)
    (tr : Traffic) :
    SymAdj (pushBack (pushBack m a ⟨a, b, w, tr⟩) b ⟨b, a, w, tr⟩) := by
  obtain ⟨h1, h2⟩ := h
  constructor
  · exact adjOf_pushBack_u (adjOf_pushBack_u h1 a ⟨a, b, w, tr⟩ rfl) b ⟨b, a, w, tr⟩ rfl
  · intro u v c tr'
    rw [count_adjOf_pushBack, count_adjOf_pushBack, count_adjOf_pushBack,
      count_adjOf_pushBack, h2 u v c tr']
    have e1 : (u = a ∧ (⟨u, v, c, tr'⟩ : Edge) = ⟨a, b, w, tr⟩) ↔
        (v = b ∧ (⟨v, u, c, tr'⟩ : Edge) = ⟨b, a, w, tr⟩) := by
      simp only [Edge.mk.injEq]; tauto
    have e2 : (u = b ∧ (⟨u, v, c, tr'⟩ : Edge) = ⟨b, a, w, tr⟩) ↔
        (v = a ∧ (⟨v, u, c, tr'⟩ : Edge) = ⟨a, b, w, tr⟩) := by
      simp only [Edge.mk.injEq]; tauto
    simp only [e1, e2]
    omega

theorem build_symAdj (V : Int) (ops : List Op) : SymAdj (Graph.build V ops).adjList := by
  refine build_induction (fun g => SymAdj g.adjList) V ?_ ?_ ops
  · constructor
    · intro k e he; simp [Graph.new, adjOf, lookup] at he
    · intro u v b tr; simp [Graph.new, adjOf, lookup]
  · intro g op h
    cases op with
    | addCity id name => exact h
    | addEdge u v b tr => exact symAdj_addEdge h u v b tr

/-- Every entry visited by `bellmanFord` on a constructed graph has its mirror image among
the entries visited. -/
theorem build_edges_symm (V : Int) (ops : List Op) :
    ∀ e ∈ (Graph.build V ops).edges,
      (⟨e.v, e.u, e.baseWeight, e.traffic⟩ : Edge) ∈ (Graph.build V ops).edges := by
  refine build_induction
    (fun g => ∀ e ∈ g.edges, (⟨e.v, e.u, e.baseWeight, e.traffic⟩ : Edge) ∈ g.edges) V ?_ ?_ ops
  · intro e he; simp [Graph.new, Graph.edges, allEdges] at he
  · intro g op h
    cases op with
    | addCity id name => exact h
    | addEdge u v b tr =>
      intro e he
      simp only [Graph.apply, Graph.addEdge, Graph.edges, mem_allEdges_pushBack] at he ⊢
      rcases he with (he | he) | he
      · exact Or.inl (Or.inl (h e he))
      · subst he; exact Or.inr rfl
      · subst he; exact Or.inl (Or.inr rfl)

/-- C10: after any sequence of `addCity` and `addEdge` calls on an empty graph, every entry
in the adjacency of `u` starts at `u`, an entry `u -> v` occurs in the adjacency of `u`
exactly as often as the entry `v -> u` with the same base weight and the same traffic
weights occurs in the adjacency of `v`, so every entry has such a mirror image, and both
directions have the same weight and cost in every slot. -/
theorem C10_adjacency_symmetry (V : Int) (ops : List Op) :
    (∀ k, ∀ e ∈ adjOf (Graph.build V ops).adjList k, e.u = k) ∧
    (∀ u v b tr, (adjOf (Graph.build V ops).adjList u).count ⟨u, v, b, tr⟩ =
      (adjOf (Graph.build V ops).adjList v).count ⟨v, u, b, tr⟩) ∧
    ∀ u, ∀ e ∈ adjOf (Graph.build V ops).adjList u,
      ∃ e' ∈ adjOf (Graph.build V ops).adjList e.v,
        e'.u = e.v ∧ e'.v = e.u ∧ e'.baseWeight = e.baseWeight ∧ e'.traffic = e.traffic ∧
        ∀ t, e'.traffic.getWeight t = e.traffic.getWeight t ∧ e'.cost t = e.cost t := by
  obtain ⟨h1, h2⟩ := build_symAdj V ops
  refine ⟨h1, h2, ?_⟩
  intro u e he
  have hu := h1 u e he
  subst hu
  have hc : 0 < (adjOf (Graph.build V ops).adjList e.u).count e := List.count_pos_iff.2 he
  have := h2 e.u e.v e.baseWeight e.traffic
  rw [this] at hc
  exact ⟨⟨e.v, e.u, e.baseWeight, e.traffic⟩, List.count_pos_iff.1 hc, rfl, rfl, rfl, rfl,
    fun t => ⟨rfl, rfl⟩⟩

/-! ## Shortest distances and the reconstructed route -/

theorem walkVerts_getLast {E : List Edge} {a b : Int} {p : List Edge} (hp : IsWalk E a b p) :
    (walkVerts a p).getLast? = some b := by
  induction p generalizing a with
  | nil =>
    simp only [IsWalk] at hp
    subst hp
    rfl
  | cons e p ih =>
    obtain ⟨-, -, h3⟩ := hp
    have := ih h3
    simp only [walkVerts, List.map_cons] at this ⊢
    rw [List.getLast?_cons_cons]
    exact this

/-- C1 fails as stated: on `maxCostGraph` city 1 is joined to the source 0 by a road of
cost exactly `INT_MAX`; no sum overflows, yet `dist[1]` stays the unreachable sentinel
`INT_MAX` (the program prints "No route found"), in either iteration order of the
adjacency map. -/
theorem C1_counterexample :
    WellFormed maxCostGraph 0 .Morning ∧
    NoNegCycle maxCostGraph.edges .Morning ∧
    maxCostGraph.bellmanFord 0 .Morning = .ok ⟨[0, INT_MAX], [-1, -1]⟩ ∧
    { maxCostGraph with adjList := maxCostGraph.adjList.reverse }.bellmanFord 0 .Morning =
      .ok ⟨[0, INT_MAX], [-1, -1]⟩ ∧
    IsWalk maxCostGraph.edges 0 1 [⟨0, 1, 2147483647, .ofTriple 0 0 0⟩] ∧
    walkCost .Morning [⟨0, 1, 2147483647, .ofTriple 0 0 0⟩] = INT_MAX ∧
    getAt [0, INT_MAX] 1 = some INT_MAX := by
  refine ⟨?_, noNegCycle_of_nonneg (by decide), by decide, by decide, by decide, by decide,
    by decide⟩
  unfold WellFormed
  decide

/-- C2 fails as stated: on `maxCostGraph` city 1 is reachable from the source 0 (by the
road of cost `INT_MAX`), but the predecessor map returned is `[-1, -1]` and `printPath`
from 0 to 1 never prints a route. -/
theorem C2_counterexample :
    WellFormed maxCostGraph 0 .Morning ∧
    NoNegCycle maxCostGraph.edges .Morning ∧
    (∃ st, maxCostGraph.bellmanFord 0 .Morning = .ok st ∧ st.parent = [-1, -1]) ∧
    (∃ p, IsWalk maxCostGraph.edges 0 1 p) ∧
    (∀ fuel, 1 ≤ fuel →
      maxCostGraph.printPath fuel 0 1 [-1, -1] = .ok (.noPath, maxCostGraph)) ∧
    ∀ fuel ids names g',
      maxCostGraph.printPath fuel 0 1 [-1, -1] ≠ .ok (.route ids names, g') := by
  have key : ∀ fuel, 1 ≤ fuel →
      maxCostGraph.printPath fuel 0 1 [-1, -1] = .ok (.noPath, maxCostGraph) := by
    intro fuel hf
    obtain ⟨k, rfl⟩ : ∃ k, fuel = k + 1 := ⟨fuel - 1, by omega⟩
    have hw : walkBack [-1, -1] (k + 1) 1 = .ok [1] := walkBack_root (by decide) k
    rw [printPath_of_walk hw]
    simp
  refine ⟨?_, noNegCycle_of_nonneg (by decide), ⟨⟨[0, INT_MAX], [-1, -1]⟩, by decide, rfl⟩,
    ⟨[⟨0, 1, 2147483647, .ofTriple 0 0 0⟩], by decide⟩, key, ?_⟩
  · unfold WellFormed
    decide
  · intro fuel ids names g'
    match fuel with
    | 0 => simp [Graph.printPath, walkBack]
    | k + 1 => rw [key (k + 1) (by omega)]; simp

/-! ## Name maps and the construction calls -/

theorem lookup_assign {κ ν : Type} [DecidableEq κ] (m : List (κ × ν)) (k : κ) (x : ν) (k' : κ) :
    lookup (assign m k x) k' = if k' = k then some x else lookup m k' := by
  induction m with
  | nil =>
    by_cases h : k' = k
    · subst h; simp [assign, lookup]
    · have h' : ¬ k = k' := fun e => h e.symm
      simp [assign, lookup, h, h']
  | cons p m ih =>
    obtain ⟨k0, y⟩ := p
    simp only [assign]
    by_cases h0 : k0 = k
    · subst h0
      by_cases h : k' = k0
      · subst h; simp [lookup]
      · have h' : ¬ k0 = k' := fun e => h e.symm
        simp [lookup, h, h']
    · simp only [h0, if_false, lookup]
      by_cases h : k0 = k'
      · subst h
        have : ¬ k0 = k := h0
        simp [this]
      · simp only [h, if_false, ih]

theorem build_snoc (V : Int) (ops : List Op) (op : Op) :
    Graph.build V (ops ++ [op]) = (Graph.build V ops).apply op := by
  simp [Graph.build, List.foldl_append]

theorem build_cityNames_isSome (V : Int) (ops : List Op) (id : Int) :
    (lookup (Graph.build V ops).cityNames id).isSome ↔ ∃ n, Op.addCity id n ∈ ops := by
  induction ops using List.reverseRecOn with
  | nil => simp [Graph.build, Graph.new, lookup]
  | append_singleton ops op ih =>
    rw [build_snoc]
    cases op with
    | addCity id0 n0 =>
      simp only [Graph.apply, Graph.addCity, lookup_assign]
      by_cases h : id = id0
      · subst h
        simp only [if_true, Option.isSome_some, true_iff]
        exact ⟨n0, by simp⟩
      · simp only [h, if_false, ih, List.mem_append, List.mem_singleton, Op.addCity.injEq]
        constructor
        · rintro ⟨n, hn⟩; exact ⟨n, Or.inl hn⟩
        · rintro ⟨n, hn | hn⟩
          · exact ⟨n, hn⟩
          · exact False.elim hn.1
    | addEdge u v b tr =>
      simp only [Graph.apply, Graph.addEdge, ih, List.mem_append, List.mem_singleton]
      constructor
      · rintro ⟨n, hn⟩; exact ⟨n, Or.inl hn⟩
      · rintro ⟨n, hn | hn⟩
        · exact ⟨n, hn⟩
        · cases hn

theorem build_edges_mem (V : Int) (ops : List Op) (e : Edge) :
    e ∈ (Graph.build V ops).edges ↔
      ∃ u v b tr, Op.addEdge u v b tr ∈ ops ∧ (e = ⟨u, v, b, tr⟩ ∨ e = ⟨v, u, b, tr⟩) := by
  induction ops using List.reverseRecOn with
  | nil => simp [Graph.build, Graph.new, Graph.edges, allEdges]
  | append_singleton ops op ih =>
    rw [build_snoc]
    cases op with
    | addCity id0 n0 =>
      have : ((Graph.build V ops).apply (.addCity id0 n0)).edges = (Graph.build V ops).edges :=
        rfl
      rw [this, ih]
      constructor
      · rintro ⟨u, v, b, tr, hm, he⟩
        exact ⟨u, v, b, tr, List.mem_append_left _ hm, he⟩
      · rintro ⟨u, v, b, tr, hm, he⟩
        rcases List.mem_append.1 hm with hm | hm
        · exact ⟨u, v, b, tr, hm, he⟩
        · simp at hm
    | addEdge u0 v0 b0 tr0 =>
      simp only [Graph.apply, Graph.addEdge, Graph.edges, mem_allEdges_pushBack]
      have ih' : e ∈ allEdges (Graph.build V ops).adjList ↔ _ := ih
      rw [ih']
      constructor
      · rintro ((⟨u, v, b, tr, hm, he⟩ | he) | he)
        · exact ⟨u, v, b, tr, List.mem_append_left _ hm, he⟩
        · exact ⟨u0, v0, b0, tr0, by simp, Or.inl he⟩
        · exact ⟨u0, v0, b0, tr0, by simp, Or.inr he⟩
      · rintro ⟨u, v, b, tr, hm, he⟩
        rcases List.mem_append.1 hm with hm | hm
        · exact Or.inl (Or.inl ⟨u, v, b, tr, hm, he⟩)
        · simp only [List.mem_singleton, Op.addEdge.injEq] at hm
          obtain ⟨rfl, rfl, rfl, rfl⟩ := hm
          rcases he with he | he
          · exact Or.inl (Or.inr he)
          · exact Or.inr he

/-- C11 fails as stated: `addEdge(0, 1, 5, ...)` on a graph with no registered city does not
fail; both directed entries are inserted although neither endpoint has a name. -/
theorem C11_counterexample :
    lookup ((Graph.new 2).addEdge 0 1 5 (.ofTriple 0 0 0)).cityNames 0 = none ∧
    lookup ((Graph.new 2).addEdge 0 1 5 (.ofTriple 0 0 0)).cityNames 1 = none ∧
    adjOf ((Graph.new 2).addEdge 0 1 5 (.ofTriple 0 0 0)).adjList 0 =
      [⟨0, 1, 5, .ofTriple 0 0 0⟩] ∧
    adjOf ((Graph.new 2).addEdge 0 1 5 (.ofTriple 0 0 0)).adjList 1 =
      [⟨1, 0, 5, .ofTriple 0 0 0⟩] := by
  decide

/-! ## Registration of cities and name resolution -/

theorem mem_regIds (ops : List Op) (id : Int) :
    id ∈ regIds ops ↔ ∃ n, Op.addCity id n ∈ ops := by
  simp only [regIds, List.mem_filterMap]
  constructor
  · rintro ⟨op, hop, h⟩
    cases op with
    | addCity i n =>
      simp only [Op.cityId, Option.some.injEq] at h
      subst h; exact ⟨n, hop⟩
    | addEdge u v b tr => simp [Op.cityId] at h
  · rintro ⟨n, h⟩
    exact ⟨_, h, rfl⟩

theorem mem_regNames (ops : List Op) (name : String) :
    name ∈ regNames ops ↔ ∃ id, Op.addCity id name ∈ ops := by
  simp only [regNames, List.mem_filterMap]
  constructor
  · rintro ⟨op, hop, h⟩
    cases op with
    | addCity i n =>
      simp only [Op.cityName, Option.some.injEq] at h
      subst h; exact ⟨i, hop⟩
    | addEdge u v b tr => simp [Op.cityName] at h
  · rintro ⟨i, h⟩
    exact ⟨_, h, rfl⟩

/-- Calls that do not register `name` leave its entry in the name-to-id map alone. -/
theorem foldl_nameToId_of_not_mem (ops : List Op) (name : String)
    (h : ∀ id, Op.addCity id name ∉ ops) (g0 : Graph) :
    lookup (ops.foldl Graph.apply g0).nameToId name = lookup g0.nameToId name := by
  induction ops generalizing g0 with
  | nil => rfl
  | cons op ops ih =>
    simp only [List.foldl_cons]
    rw [ih (fun id hm => h id (List.mem_cons_of_mem _ hm))]
    cases op with
    | addCity i n =>
      have hn : name ≠ n := by
        intro e
        subst e
        exact h i (List.mem_cons_self _ _)
      simp [Graph.apply, Graph.addCity, lookup_assign, hn]
    | addEdge u v b tr => rfl

/-- Calls that do not register `id` leave its entry in the id-to-name map alone. -/
theorem foldl_cityNames_of_not_mem (ops : List Op) (id : Int)
    (h : ∀ n, Op.addCity id n ∉ ops) (g0 : Graph) :
    lookup (ops.foldl Graph.apply g0).cityNames id = lookup g0.cityNames id := by
  induction ops generalizing g0 with
  | nil => rfl
  | cons op ops ih =>
    simp only [List.foldl_cons]
    rw [ih (fun n hm => h n (List.mem_cons_of_mem _ hm))]
    cases op with
    | addCity i n =>
      have hn : id ≠ i := by
        intro e
        subst e
        exact h n (List.mem_cons_self _ _)
      simp [Graph.apply, Graph.addCity, lookup_assign, hn]
    | addEdge u v b tr => rfl

theorem build_maps_inverse (V : Int) (ops : List Op)
    (hid : (regIds ops).Nodup) (hnm : (regNames ops).Nodup) (id : Int) (name : String) :
    lookup (Graph.build V ops).cityNames id = some name ↔
      lookup (Graph.build V ops).nameToId name = some id := by
  induction ops using List.reverseRecOn generalizing id name with
  | nil => simp [Graph.build, Graph.new, lookup]
  | append_singleton ops op ih =>
    rw [build_snoc]
    cases op with
    | addEdge u v b tr =>
      have h1 : regIds (ops ++ [Op.addEdge u v b tr]) = regIds ops := by
        simp [regIds, List.filterMap_append, Op.cityId]
      have h2 : regNames (ops ++ [Op.addEdge u v b tr]) = regNames ops := by
        simp [regNames, List.filterMap_append, Op.cityName]
      rw [h1] at hid
      rw [h2] at hnm
      exact ih hid hnm id name
    | addCity i n =>
      have h1 : regIds (ops ++ [Op.addCity i n]) = regIds ops ++ [i] := by
        simp [regIds, List.filterMap_append, Op.cityId]
      have h2 : regNames (ops ++ [Op.addCity i n]) = regNames ops ++ [n] := by
        simp [regNames, List.filterMap_append, Op.cityName]
      rw [h1] at hid
      rw [h2] at hnm
      have hid' : (regIds ops).Nodup := (List.nodup_append.1 hid).1
      have hnm' : (regNames ops).Nodup := (List.nodup_append.1 hnm).1
      have hi : i ∉ regIds ops := fun hm =>
        (List.nodup_append.1 hid).2.2 hm (List.mem_singleton.2 rfl)
      have hn : n ∉ regNames ops := fun hm =>
        (List.nodup_append.1 hnm).2.2 hm (List.mem_singleton.2 rfl)
      have hci : lookup (Graph.build V ops).cityNames i = none :=
        foldl_cityNames_of_not_mem ops i
          (fun m hm => hi ((mem_regIds ops i).2 ⟨m, hm⟩)) (Graph.new V)
      have hnn : lookup (Graph.build V ops).nameToId n = none :=
        foldl_nameToId_of_not_mem ops n
          (fun j hm => hn ((mem_regNames ops n).2 ⟨j, hm⟩)) (Graph.new V)
      have IH := ih hid' hnm'
      simp only [Graph.apply, Graph.addCity, lookup_assign]
      by_cases e1 : id = i
      · subst e1
        by_cases e2 : name = n
        · subst e2; simp
        · simp only [if_true, e2, if_false, Option.some.injEq]
          constructor
          · intro h; exact absurd h.symm e2
          · intro h
            rw [← IH, hci] at h
            cases h
      · by_cases e2 : name = n
        · subst e2
          simp only [e1, if_false, if_true, Option.some.injEq]
          constructor
          · intro h
            rw [IH, hnn] at h
            cases h
          · intro h; exact absurd h.symm e1
        · simp only [e1, e2, if_false]
          exact IH id name

/-- C12 fails as stated: registering the name "A" for city 0 and then for city 1 fails
nowhere, and afterwards city 0 is still called "A" while "A" resolves to city 1. -/
theorem C12_counterexample :
    lookup (Graph.build 2 duplicateNameOps).cityNames 0 = some "A" ∧
    lookup (Graph.build 2 duplicateNameOps).cityNames 1 = some "A" ∧
    lookup (Graph.build 2 duplicateNameOps).nameToId "A" = some 1 ∧
    ¬ (lookup (Graph.build 2 duplicateNameOps).cityNames 0 = some "A" ↔
      lookup (Graph.build 2 duplicateNameOps).nameToId "A" = some 0) := by
  decide

/-- C12 (amended): `addCity(id, name)` never fails, it assigns `cityNames[id] = name` and
`nameToId[name] = id`, overwriting earlier entries; after a sequence of calls in which the
registered ids are pairwise distinct and the registered names are pairwise distinct, the
id-to-name and name-to-id maps are mutually inverse, hence both are injective. -/
theorem C12_city_maps (V : Int) (ops : List Op)
    (hid : (regIds ops).Nodup) (hnm : (regNames ops).Nodup) :
    (∀ (g : Graph) (id : Int) (name : String),
      lookup (g.addCity id name).cityNames id = some name ∧
      lookup (g.addCity id name).nameToId name = some id ∧
      (g.addCity id name).adjList = g.adjList ∧ (g.addCity id name).V = g.V) ∧
    (∀ id name, lookup (Graph.build V ops).cityNames id = some name ↔
      lookup (Graph.build V ops).nameToId name = some id) ∧
    (∀ id1 id2 name, lookup (Graph.build V ops).cityNames id1 = some name →
      lookup (Graph.build V ops).cityNames id2 = some name → id1 = id2) ∧
    (∀ name1 name2 id, lookup (Graph.build V ops).nameToId name1 = some id →
      lookup (Graph.build V ops).nameToId name2 = some id → name1 = name2) := by
  have hinv := build_maps_inverse V ops hid hnm
  refine ⟨?_, hinv, ?_, ?_⟩
  · intro g id name
    simp [Graph.addCity, lookup_assign]
  · intro id1 id2 name h1 h2
    have a := (hinv id1 name).1 h1
    have b := (hinv id2 name).1 h2
    rw [a] at b
    exact Option.some.inj b
  · intro n1 n2 id h1 h2
    have a := (hinv id n1).2 h1
    have b := (hinv id n2).2 h2
    rw [a] at b
    exact Option.some.inj b

/-- Witness of C12 on the construction of the worked example. -/
theorem C12_witness :
    (regIds exampleOps).Nodup ∧ (regNames exampleOps).Nodup ∧
    ((∀ (g : Graph) (id : Int) (name : String),
      lookup (g.addCity id name).cityNames id = some name ∧
      lookup (g.addCity id name).nameToId name = some id ∧
      (g.addCity id name).adjList = g.adjList ∧ (g.addCity id name).V = g.V) ∧
    (∀ id name, lookup (Graph.build 3 exampleOps).cityNames id = some name ↔
      lookup (Graph.build 3 exampleOps).nameToId name = some id) ∧
    (∀ id1 id2 name, lookup (Graph.build 3 exampleOps).cityNames id1 = some name →
      lookup (Graph.build 3 exampleOps).cityNames id2 = some name → id1 = id2) ∧
    (∀ name1 name2 id, lookup (Graph.build 3 exampleOps).nameToId name1 = some id →
      lookup (Graph.build 3 exampleOps).nameToId name2 = some id → name1 = name2)) :=
  ⟨by decide, by decide, C12_city_maps 3 exampleOps (by decide) (by decide)⟩

/-- C13 fails as stated: the name "A" was registered by `addCity(0, "A")`, but after the
later call `addCity(1, "A")` the lookup of "A" yields 1. -/
theorem C13_counterexample :
    Op.addCity 0 "A" ∈ duplicateNameOps ∧
    lookup (Graph.build 2 duplicateNameOps).nameToId "A" = some 1 ∧
    lookup (Graph.build 2 duplicateNameOps).nameToId "A" ≠ some 0 := by
  decide

/-- C13 (amended): the lookup of a name yields the id given by the most recent `addCity`
call for that name (the id it was registered with, when it was registered once), and fails
for a name no `addCity` call registered; a round of `userInterface` whose start or
destination name is unknown writes the invalid-city line and leaves the graph alone, for
every graph and whatever `bellmanFord` would do on it, and any other outcome of a round
means that both names were resolved. -/
theorem C13_name_resolution :
    (∀ (V : Int) (ops1 : List Op) (id : Int) (name : String) (ops2 : List Op),
      (∀ id', Op.addCity id' name ∉ ops2) →
      lookup (Graph.build V (ops1 ++ Op.addCity id name :: ops2)).nameToId name = some id) ∧
    (∀ (V : Int) (ops : List Op) (name : String), (∀ id, Op.addCity id name ∉ ops) →
      lookup (Graph.build V ops).nameToId name = none) ∧
    (∀ (g : Graph) (fuel : Nat) (startName endName timeStr : String), startName ≠ "exit" →
      (lookup g.nameToId startName = none ∨ lookup g.nameToId endName = none) →
      g.query fuel startName endName timeStr = .ok (.invalidCity, g)) ∧
    (∀ (g : Graph) (fuel : Nat) (startName endName timeStr : String) (r : QueryOutput × Graph),
      startName ≠ "exit" → g.query fuel startName endName timeStr = .ok r →
      r.1 ≠ .invalidCity →
      ∃ a b, lookup g.nameToId startName = some a ∧ lookup g.nameToId endName = some b) ∧
    exampleGraph.query 3 "A" "C" "morning" =
      .ok (.found 11 (.route [0, 1, 2] ["A", "B", "C"]), exampleGraph) ∧
    exampleGraph.query 3 "A" "Z" "morning" = .ok (.invalidCity, exampleGraph) := by
  refine ⟨?_, ?_, ?_, ?_, by decide, by decide⟩
  · intro V ops1 id name ops2 h
    have : Graph.build V (ops1 ++ Op.addCity id name :: ops2) =
        ops2.foldl Graph.apply ((Graph.build V ops1).addCity id name) := by
      simp [Graph.build, List.foldl_append, Graph.apply]
    rw [this, foldl_nameToId_of_not_mem ops2 name h]
    simp [Graph.addCity, lookup_assign]
  · intro V ops name h
    exact foldl_nameToId_of_not_mem ops name h (Graph.new V)
  · intro g fuel sN eN tS hex h
    unfold Graph.query
    rw [if_neg hex]
    rcases h with h | h
    · rw [h]
    · rw [h]
      cases lookup g.nameToId sN <;> rfl
  · intro g fuel sN eN tS r hex hq hne
    unfold Graph.query at hq
    rw [if_neg hex] at hq
    cases h1 : lookup g.nameToId sN with
    | none =>
      rw [h1] at hq
      injection hq with hq
      subst hq
      exact absurd rfl hne
    | some a =>
      cases h2 : lookup g.nameToId eN with
      | none =>
        rw [h1, h2] at hq
        injection hq with hq
        subst hq
        exact absurd rfl hne
      | some b => exact ⟨a, b, rfl, rfl⟩

/-! ## Effects of a query on the graph -/

theorem printNames_registered (names : List (Int × String)) (ids : List Int)
    (h : ∀ id ∈ ids, (lookup names id).isSome) : (printNames names ids).2 = names := by
  induction ids with
  | nil => rfl
  | cons id ids ih =>
    obtain ⟨s, hs⟩ := Option.isSome_iff_exists.1 (h id (List.mem_cons_self _ _))
    have hn : nameOf names id = (s, names) := by simp [nameOf, hs]
    simp only [printNames, hn]
    exact ih (fun x hx => h x (List.mem_cons_of_mem _ hx))

/-- What `printPath` can change: nothing but the id-to-name map, and not even that map when
the output is "No path found." or every vertex of the printed route has a name. -/
theorem printPath_frame {g g' : Graph} {fuel : Nat} {s d : Int} {parent : List Int}
    {out : PathOutput} (h : g.printPath fuel s d parent = .ok (out, g')) :
    g'.V = g.V ∧ g'.adjList = g.adjList ∧ g'.nameToId = g.nameToId ∧
      (out = .noPath → g' = g) ∧
      ∀ ids names, out = .route ids names →
        (∀ id ∈ ids, (lookup g.cityNames id).isSome) → g' = g := by
  unfold Graph.printPath at h
  split at h
  · cases h
  rename_i walked hw
  split at h
  · cases h
  rename_i front rest hrev
  split at h
  · injection h with h
    injection h with h1 h2
    subst h1 h2
    exact ⟨rfl, rfl, rfl, fun _ => rfl, fun _ _ hc => by cases hc⟩
  · injection h with h
    injection h with h1 h2
    subst h1 h2
    refine ⟨rfl, rfl, rfl, (fun hc => by cases hc), ?_⟩
    intro ids names hc hreg
    injection hc with hids hnames
    subst hids
    have := printNames_registered g.cityNames (front :: rest) hreg
    simp only [this]

/-! ## Index safety and consistency of the result -/

/-- A vertex other than the source without predecessor has the sentinel distance; kept by
every relaxation along an entry whose `u` is not the marker -1. -/
theorem relaxF_root {t : TimeOfDay} {s : Int} {σ : FS} {e : Edge} (he : e.u ≠ -1)
    (h : ∀ v, σ.P v = -1 → v ≠ s → σ.D v = INT_MAX) :
    ∀ v, (relaxF t σ e).P v = -1 → v ≠ s → (relaxF t σ e).D v = INT_MAX := by
  unfold relaxF
  split
  · intro v hv hvs
    dsimp only at hv ⊢
    by_cases hve : v = e.v
    · subst hve
      simp only [Function.update_same] at hv
      exact absurd hv he
    · simp only [Function.update_apply, hve, if_false] at hv ⊢
      exact h v hv hvs
  · exact h

theorem bellmanFord_root {g : Graph} {s : Int} {t : TimeOfDay} {st : BFState}
    (hE : ∀ e ∈ g.edges, e.u ≠ -1) (h : g.bellmanFord s t = .ok st) :
    ∀ v, st.abs.P v = -1 → v ≠ s → st.abs.D v = INT_MAX := by
  obtain ⟨-, -, -, ha⟩ := bellmanFord_abs h
  rw [ha]
  refine iterate_passF_inv (fun σ => ∀ v, σ.P v = -1 → v ≠ s → σ.D v = INT_MAX)
    (fun σ e he hI => relaxF_root (hE e he) hI) _ _ ?_
  intro v _ hvs
  simp [initF, hvs]

/-- In a returned state every predecessor entry is -1 or an index of the vectors. -/
theorem bellmanFord_parent_range {g : Graph} {s : Int} {t : TimeOfDay} {st : BFState}
    (h : g.bellmanFord s t = .ok st) :
    ∀ j x, getAt st.parent j = some x → x = -1 ∨ (0 ≤ x ∧ x < g.V) := by
  intro j x hj
  have hW := bellmanFord_InvW h
  obtain ⟨-, hd, -, -⟩ := bellmanFord_abs h
  by_cases hx : x = -1
  · exact Or.inl hx
  · right
    have hP : st.abs.P j = x := by
      show pVal st j = x
      simp [pVal, hj]
    have := (hW.par j (by rw [hP]; exact hx)).1
    rw [hP] at this
    have := dVal_ne this
    omega

/-- The loop of `printPath` never reads outside a predecessor vector whose entries are -1
or indices of the vector. -/
theorem walkBack_in_bounds {parent : List Int}
    (hP : ∀ j x, getAt parent j = some x → x = -1 ∨ (0 ≤ x ∧ x < parent.length)) :
    ∀ (fuel : Nat) (cur : Int), cur = -1 ∨ (0 ≤ cur ∧ cur < parent.length) →
      (∃ l, walkBack parent fuel cur = .ok l) ∨ walkBack parent fuel cur = .error .outOfFuel := by
  intro fuel
  induction fuel with
  | zero =>
    intro cur _
    by_cases hc : cur = -1
    · exact Or.inl ⟨[], by simp [walkBack, hc]⟩
    · exact Or.inr (by simp [walkBack, hc])
  | succ k ih =>
    intro cur hcur
    by_cases hc : cur = -1
    · exact Or.inl ⟨[], by simp [walkBack, hc]⟩
    · rcases hcur with hcur | ⟨h0, h1⟩
      · exact absurd hcur hc
      obtain ⟨nxt, hn⟩ := getAt_isSome h0 h1
      rcases ih nxt (hP cur nxt hn) with ⟨l, hl⟩ | hl
      · exact Or.inl ⟨cur :: l, by simp [walkBack, hc, readAt, hn, hl]⟩
      · exact Or.inr (by simp [walkBack, hc, readAt, hn, hl])

/-- C15: when the source and both endpoints of every adjacency entry lie in `[0, V)` (so
`V >= 1`) and every entry has a weight for the slot, no access of `bellmanFord` is out of
bounds or undefined: the run never ends in an index error, a missing weight or a length
error (its only possible abnormal outcome is an overflowing sum); the returned `dist` and
`parent` have length exactly `V`; every entry of `parent` is -1 or a vertex id in `[0, V)`;
and the walk of `printPath` from a destination in `[0, V)` never reads outside `parent`. -/
theorem C15_index_safety (g : Graph) (s : Int) (t : TimeOfDay) (hwf : WellFormed g s t) :
    g.bellmanFord s t ≠ .error .outOfRange ∧ g.bellmanFord s t ≠ .error .missingWeight ∧
    g.bellmanFord s t ≠ .error .lengthError ∧
    (g.bellmanFord s t = .error .overflow ∨ ∃ st, g.bellmanFord s t = .ok st) ∧
    ∀ st, g.bellmanFord s t = .ok st →
      (st.dist.length : Int) = g.V ∧ (st.parent.length : Int) = g.V ∧
      (∀ j x, getAt st.parent j = some x → x = -1 ∨ (0 ≤ x ∧ x < g.V)) ∧
      ∀ dest, 0 ≤ dest → dest < g.V → ∀ fuel,
        (∃ l, walkBack st.parent fuel dest = .ok l) ∨
          walkBack st.parent fuel dest = .error .outOfFuel := by
  have htot := bellmanFord_total hwf
  have hcases : g.bellmanFord s t = .error .overflow ∨ ∃ st, g.bellmanFord s t = .ok st := by
    rcases htot with ⟨st, h, -, -⟩ | h
    · exact Or.inr ⟨st, h⟩
    · exact Or.inl h
  refine ⟨?_, ?_, ?_, hcases, ?_⟩
  · rcases hcases with h | ⟨st, h⟩ <;> rw [h] <;> simp
  · rcases hcases with h | ⟨st, h⟩ <;> rw [h] <;> simp
  · rcases hcases with h | ⟨st, h⟩ <;> rw [h] <;> simp
  · intro st h
    obtain ⟨⟨h0, h1⟩, hd, hp, -⟩ := bellmanFord_abs h
    have hpr := bellmanFord_parent_range h
    refine ⟨by omega, by omega, hpr, ?_⟩
    intro dest hd0 hd1 fuel
    refine walkBack_in_bounds (fun j x hj => ?_) fuel dest (Or.inr ⟨hd0, by omega⟩)
    rcases hpr j x hj with hx | hx
    · exact Or.inl hx
    · exact Or.inr ⟨hx.1, by omega⟩

/-- Witness of C15 on the worked example at source A in the morning. -/
theorem C15_witness :
    WellFormed exampleGraph 0 .Morning ∧
    (exampleGraph.bellmanFord 0 .Morning ≠ .error .outOfRange ∧
    exampleGraph.bellmanFord 0 .Morning ≠ .error .missingWeight ∧
    exampleGraph.bellmanFord 0 .Morning ≠ .error .lengthError ∧
    (exampleGraph.bellmanFord 0 .Morning = .error .overflow ∨
      ∃ st, exampleGraph.bellmanFord 0 .Morning = .ok st) ∧
    ∀ st, exampleGraph.bellmanFord 0 .Morning = .ok st →
      (st.dist.length : Int) = exampleGraph.V ∧ (st.parent.length : Int) = exampleGraph.V ∧
      (∀ j x, getAt st.parent j = some x → x = -1 ∨ (0 ≤ x ∧ x < exampleGraph.V)) ∧
      ∀ dest, 0 ≤ dest → dest < exampleGraph.V → ∀ fuel,
        (∃ l, walkBack st.parent fuel dest = .ok l) ∨
          walkBack st.parent fuel dest = .error .outOfFuel) :=
  ⟨exampleGraph_wf, C15_index_safety exampleGraph 0 .Morning exampleGraph_wf⟩

/-- C16: whenever `bellmanFord` returns on a graph whose adjacency entries have both
endpoints in `[0, V)`, whatever the weights: `parent[v] == u` with `u != -1` implies that
the graph has an adjacency entry `u -> v`; and for every vertex `v` in `[0, V)` other than
the source, `parent[v] == -1` if and only if `dist[v]` is the sentinel `INT_MAX`. -/
theorem C16_result_maps_consistent (g : Graph) (s : Int) (t : TimeOfDay) (st : BFState)
    (hids : ∀ e ∈ g.edges, (0 ≤ e.u ∧ e.u < g.V) ∧ (0 ≤ e.v ∧ e.v < g.V))
    (h : g.bellmanFord s t = .ok st) :
    (∀ v u, getAt st.parent v = some u → u ≠ -1 → ∃ e ∈ g.edges, e.u = u ∧ e.v = v) ∧
    ∀ v, 0 ≤ v → v < g.V → v ≠ s →
      (getAt st.parent v = some (-1) ↔ getAt st.dist v = some INT_MAX) := by
  have hW := bellmanFord_InvW h
  have hR := bellmanFord_root (fun e he => by have := (hids e he).1.1; omega) h
  obtain ⟨-, hd, hp, -⟩ := bellmanFord_abs h
  constructor
  · intro v u hv hu
    have hP : st.abs.P v = u := by
      show pVal st v = u
      simp [pVal, hv]
    obtain ⟨-, -, e, he, h1, h2, -⟩ := hW.par v (by rw [hP]; exact hu)
    exact ⟨e, he, by rw [h1, hP], h2⟩
  · intro v h0 h1 hvs
    have hgd : getAt st.dist v = some (dVal st v) := dVal_eq h0 (by omega)
    have hgp : getAt st.parent v = some (pVal st v) := pVal_eq h0 (by omega)
    rw [hgd, hgp]
    constructor
    · intro hp1
      have : pVal st v = -1 := Option.some.inj hp1
      exact congrArg some (hR v this hvs)
    · intro hd1
      have hD : dVal st v = INT_MAX := Option.some.inj hd1
      by_contra hne
      have hne' : st.abs.P v ≠ -1 := fun e => hne (congrArg some e)
      exact (hW.par v hne').2.1 hD

/-- Witness of C16 on the worked example at source A in the morning. -/
theorem C16_witness :
    (∀ e ∈ exampleGraph.edges, (0 ≤ e.u ∧ e.u < exampleGraph.V) ∧
      (0 ≤ e.v ∧ e.v < exampleGraph.V)) ∧
    exampleGraph.bellmanFord 0 .Morning = .ok ⟨[0, 7, 11], [-1, 0, 1]⟩ ∧
    ((∀ v u, getAt [-1, 0, 1] v = some u → u ≠ -1 →
      ∃ e ∈ exampleGraph.edges, e.u = u ∧ e.v = v) ∧
    ∀ v, 0 ≤ v → v < exampleGraph.V → v ≠ 0 →
      (getAt [-1, 0, 1] v = some (-1) ↔ getAt [0, 7, 11] v = some INT_MAX)) :=
  ⟨by decide, by decide,
    C16_result_maps_consistent exampleGraph 0 .Morning ⟨[0, 7, 11], [-1, 0, 1]⟩
      (by decide) (by decide)⟩

/-! ## Order of relaxation and symmetry of distances -/

theorem IsWalk.mono {E E' : List Edge} (h : ∀ e ∈ E, e ∈ E') {a b : Int} {p : List Edge}
    (hp : IsWalk E a b p) : IsWalk E' a b p := by
  induction p generalizing a with
  | nil => exact hp
  | cons e p ih =>
    obtain ⟨h1, h2, h3⟩ := hp
    exact ⟨h e h1, h2, ih h3⟩

/-- A stable state lies below every state whose finite vertices hang on predecessor chains
that end at the source. -/
theorem stable_le_of_chains {E : List Edge} {t : TimeOfDay} {s : Int} {σ1 σ2 : FS}
    (h1 : Inv E t s σ1) (hle : ∀ v, σ2.D v ≤ INT_MAX) (hs : σ2.D s = 0)
    (hst : ∀ e ∈ E, σ2.D e.u ≠ INT_MAX → σ2.D e.v ≤ σ2.D e.u + e.cost t) :
    ∀ v, σ2.D v ≤ σ1.D v := by
  obtain ⟨⟨hW, hDs, -⟩, hroot, hch⟩ := h1
  have key : ∀ v l, Chain σ1.P v l → σ1.D v ≠ INT_MAX → σ2.D v ≤ σ1.D v := by
    intro v l hc
    induction hc with
    | @root v hP =>
      intro hv
      have : v = s := by
        by_contra hvs
        exact hv (hroot v hP hvs)
      subst this
      rw [hs, hDs]
    | @step v l hne _ ih =>
      intro _
      obtain ⟨hDu, -, e, he, hu, hv, hc⟩ := hW.par v hne
      have hIH := ih hDu
      have hlu := hW.le (σ1.P v)
      have := hst e he (by rw [hu]; omega)
      rw [hu, hv] at this
      omega
  intro v
  by_cases hv : σ1.D v = INT_MAX
  · rw [hv]; exact hle v
  · obtain ⟨l, hl⟩ := hch v
    exact key v l hl hv

theorem dist_eq_of_dVal {st st' : BFState} (hd : st.dist.length = st'.dist.length)
    (h : ∀ j, dVal st j = dVal st' j) : st.dist = st'.dist := by
  apply List.ext_getElem hd
  intro i h1 h2
  have := h (i : Int)
  simp only [dVal, getAt, Int.toNat_ofNat, Int.ofNat_nonneg, if_true] at this
  rw [List.getElem?_eq_getElem h1, List.getElem?_eq_getElem h2] at this
  simpa using this

/-- C17: two graphs with the same capacity and the same adjacency entries up to order,
with ids in range, weights for the slot, no negative-cost closed walk and no overflowing sum
in either run, get the same `dist` vector from the same source.  The predecessor maps may
differ: on `diamondGraph`, iterating the adjacency map in the opposite order gives the
same distances and another predecessor of city 3. -/
theorem C17_order_independent (g1 g2 : Graph) (s : Int) (t : TimeOfDay)
    (hV : g1.V = g2.V) (hperm : g1.edges.Perm g2.edges)
    (hwf : WellFormed g1 s t) (hneg : NoNegCycle g1.edges t)
    (hov1 : g1.bellmanFord s t ≠ .error .overflow)
    (hov2 : g2.bellmanFord s t ≠ .error .overflow) :
    (∃ st1 st2, g1.bellmanFord s t = .ok st1 ∧ g2.bellmanFord s t = .ok st2 ∧
      st1.dist = st2.dist) ∧
    (diamondGraph.bellmanFord 0 .Morning = .ok ⟨[0, 1, 1, 2], [-1, 0, 0, 1]⟩ ∧
      { diamondGraph with adjList := diamondGraph.adjList.reverse }.bellmanFord 0 .Morning =
        .ok ⟨[0, 1, 1, 2], [-1, 0, 0, 2]⟩) := by
  refine ⟨?_, by decide, by decide⟩
  have hmem : ∀ e, e ∈ g1.edges ↔ e ∈ g2.edges := fun e => hperm.mem_iff
  have hwf2 : WellFormed g2 s t := by
    refine ⟨by rw [← hV]; exact hwf.1, fun e he => ?_⟩
    rw [← hV]
    exact hwf.2 e ((hmem e).2 he)
  have hneg2 : NoNegCycle g2.edges t := fun a p hp =>
    hneg a p (IsWalk.mono (fun e he => (hmem e).2 he) hp)
  obtain ⟨st1, h1⟩ := ok_of_not_overflow (bellmanFord_total hwf) hov1
  obtain ⟨st2, h2⟩ := ok_of_not_overflow (bellmanFord_total hwf2) hov2
  refine ⟨st1, st2, h1, h2, ?_⟩
  have I1 := bellmanFord_Inv hwf hneg h1
  have I2 := bellmanFord_Inv hwf2 hneg2 h2
  have S1 := bellmanFord_stable hwf hneg h1
  have S2 := bellmanFord_stable hwf2 hneg2 h2
  obtain ⟨-, hd1, -, -⟩ := bellmanFord_abs h1
  obtain ⟨-, hd2, -, -⟩ := bellmanFord_abs h2
  have a : ∀ v, st2.abs.D v ≤ st1.abs.D v :=
    stable_le_of_chains I1 I2.1.1.le I2.1.2.1 (fun e he => S2 e ((hmem e).1 he))
  have b : ∀ v, st1.abs.D v ≤ st2.abs.D v :=
    stable_le_of_chains I2 I1.1.1.le I1.1.2.1 (fun e he => S1 e ((hmem e).2 he))
  exact dist_eq_of_dVal (by rw [hd1, hd2, hV]) (fun j => le_antisymm (b j) (a j))

/-- Witness of C17: the worked example and the same graph iterated in the opposite order. -/
theorem C17_witness :
    exampleGraph.V = { exampleGraph with adjList := exampleGraph.adjList.reverse }.V ∧
    exampleGraph.edges.Perm
      { exampleGraph with adjList := exampleGraph.adjList.reverse }.edges ∧
    WellFormed exampleGraph 0 .Morning ∧ NoNegCycle exampleGraph.edges .Morning ∧
    exampleGraph.bellmanFord 0 .Morning ≠ .error .overflow ∧
    { exampleGraph with adjList := exampleGraph.adjList.reverse }.bellmanFord 0 .Morning ≠
      .error .overflow ∧
    ((∃ st1 st2, exampleGraph.bellmanFord 0 .Morning = .ok st1 ∧
      { exampleGraph with adjList := exampleGraph.adjList.reverse }.bellmanFord 0 .Morning =
        .ok st2 ∧ st1.dist = st2.dist) ∧
    (diamondGraph.bellmanFord 0 .Morning = .ok ⟨[0, 1, 1, 2], [-1, 0, 0, 1]⟩ ∧
      { diamondGraph with adjList := diamondGraph.adjList.reverse }.bellmanFord 0 .Morning =
        .ok ⟨[0, 1, 1, 2], [-1, 0, 0, 2]⟩)) :=
  ⟨rfl, by decide, exampleGraph_wf, noNegCycle_of_nonneg exampleGraph_nonneg, by decide,
    by decide,
    C17_order_independent exampleGraph
      { exampleGraph with adjList := exampleGraph.adjList.reverse } 0 .Morning rfl
      (by decide) exampleGraph_wf (noNegCycle_of_nonneg exampleGraph_nonneg) (by decide)
      (by decide)⟩

/-- On a graph whose entries all have a mirror image, a walk can be walked backwards at the
same cost. -/
theorem IsWalk.reverse {E : List Edge} (t : TimeOfDay)
    (hsym : ∀ e ∈ E, (⟨e.v, e.u, e.baseWeight, e.traffic⟩ : Edge) ∈ E)
    {a b : Int} {p : List Edge} (hp : IsWalk E a b p) :
    ∃ q, IsWalk E b a q ∧ walkCost t q = walkCost t p := by
  induction p generalizing a with
  | nil =>
    simp only [IsWalk] at hp
    subst hp
    exact ⟨[], rfl, rfl⟩
  | cons e p ih =>
    obtain ⟨h1, h2, h3⟩ := hp
    obtain ⟨q, hq, hc⟩ := ih h3
    have hm : IsWalk E e.v a [⟨e.v, e.u, e.baseWeight, e.traffic⟩] := ⟨hsym e h1, rfl, h2⟩
    refine ⟨q ++ [⟨e.v, e.u, e.baseWeight, e.traffic⟩], hq.append hm, ?_⟩
    rw [walkCost_append, hc]
    simp only [walkCost, Edge.cost]
    omega

/-! ## Absence of overflow under a weight bound -/

theorem relaxF_Counted {W : Int} {V : Nat} {t : TimeOfDay} {σ : FS} {e : Edge}
    (hW : 0 ≤ W) (hc : 0 ≤ e.cost t ∧ e.cost t ≤ W)
    (hv : (σ.D e.u ≠ INT_MAX ∧ σ.D e.u + e.cost t < σ.D e.v) → 0 ≤ e.v ∧ e.v < V)
    (h : Counted W V σ) : Counted W V (relaxF t σ e) := by
  obtain ⟨hle, L, hnd, hmem, hrng, hbd⟩ := h
  have hle' : ∀ v, (relaxF t σ e).D v ≤ INT_MAX := fun v =>
    le_trans (relaxF_D_le t σ e v) (hle v)
  refine ⟨hle', ?_⟩
  unfold relaxF
  split
  · rename_i hg
    have hv := hv hg
    obtain ⟨hne, hlt⟩ := hg
    have hu := hbd e.u ((hmem e.u).1 hne)
    have hlev := hle e.v
    by_cases hfin : σ.D e.v = INT_MAX
    · have hnot : e.v ∉ L := fun hm => (hmem e.v).2 hm hfin
      refine ⟨e.v :: L, List.nodup_cons.2 ⟨hnot, hnd⟩, ?_, ?_, ?_⟩
      · intro v
        dsimp only
        by_cases hve : v = e.v
        · subst hve
          simp only [Function.update_same, List.mem_cons, true_or, iff_true]
          omega
        · simp only [Function.update_apply, hve, if_false, List.mem_cons, false_or]
          exact hmem v
      · intro v hvL
        rcases List.mem_cons.1 hvL with h1 | h1
        · subst h1; exact hv
        · exact hrng v h1
      · intro v hvL
        dsimp only
        have hlen : ((e.v :: L).length : Int) - 1 = (L.length : Int) := by simp
        rw [hlen]
        by_cases hve : v = e.v
        · subst hve
          simp only [Function.update_same]
          constructor
          · omega
          · have : ((L.length : Int) - 1) * W + W = (L.length : Int) * W := by ring
            omega
        · simp only [Function.update_apply, hve, if_false]
          have hvL' : v ∈ L := by
            rcases List.mem_cons.1 hvL with h1 | h1
            · exact absurd h1 hve
            · exact h1
          have := hbd v hvL'
          have : ((L.length : Int) - 1) * W + W = (L.length : Int) * W := by ring
          omega
    · have hin : e.v ∈ L := (hmem e.v).1 hfin
      have hvb := hbd e.v hin
      refine ⟨L, hnd, ?_, hrng, ?_⟩
      · intro v
        dsimp only
        by_cases hve : v = e.v
        · subst hve
          simp only [Function.update_same]
          constructor
          · intro _; exact hin
          · intro _; omega
        · simp only [Function.update_apply, hve, if_false]
          exact hmem v
      · intro v hvL
        dsimp only
        by_cases hve : v = e.v
        · subst hve
          simp only [Function.update_same]
          omega
        · simp only [Function.update_apply, hve, if_false]
          exact hbd v hvL
  · exact ⟨L, hnd, hmem, hrng, hbd⟩

theorem initF_Counted {W : Int} {V : Nat} {s : Int} (hs : 0 ≤ s ∧ s < V) :
    Counted W V (initF s) := by
  refine ⟨fun v => ?_, [s], by simp, ?_, ?_, ?_⟩
  · simp only [initF]
    split <;> simp [INT_MAX]
  · intro v
    simp only [initF, List.mem_singleton]
    by_cases h : v = s
    · simp [h, INT_MAX]
    · simp [h]
  · intro v hv
    simp only [List.mem_singleton] at hv
    subst hv; exact hs
  · intro v hv
    simp only [List.mem_singleton] at hv
    subst hv
    simp [initF]

/-- Every finite distance of a counted state lies in `[0, (V - 1) * W]`. -/
theorem Counted.bound {W : Int} {V : Nat} {σ : FS} (hW : 0 ≤ W) (h : Counted W V σ) :
    ∀ v, σ.D v ≠ INT_MAX → 0 ≤ σ.D v ∧ σ.D v ≤ ((V : Int) - 1) * W := by
  obtain ⟨-, L, hnd, hmem, hrng, hbd⟩ := h
  intro v hv
  have hvL := (hmem v).1 hv
  obtain ⟨h1, h2⟩ := hbd v hvL
  have hlen := (nodup_range hnd hrng).1
  refine ⟨h1, le_trans h2 ?_⟩
  have : ((L.length : Int) - 1) ≤ (V : Int) - 1 := by omega
  exact mul_le_mul_of_nonneg_right this hW

/-- The only ways in which one relaxation can overflow. -/
theorem relaxEdge_overflow {t : TimeOfDay} {st : BFState} {e : Edge}
    (h : relaxEdge t st e = .error .overflow) :
    ¬ (INT_MIN ≤ e.cost t ∧ e.cost t ≤ INT_MAX) ∨
      (dVal st e.u ≠ INT_MAX ∧
        ¬ (INT_MIN ≤ dVal st e.u + e.cost t ∧ dVal st e.u + e.cost t ≤ INT_MAX)) := by
  unfold relaxEdge at h
  split at h
  · rename_i x hx
    unfold Traffic.getWeight at hx
    split at hx
    · cases hx
    · injection hx with hx; subst hx; cases h
  rename_i w hw
  have hcost := cost_eq hw
  split at h
  · rename_i x hx
    left
    unfold addInt at hx
    split at hx
    · cases hx
    · rw [hcost]; assumption
  rename_i tw htw
  obtain ⟨htw1, -, -⟩ := addInt_ok htw
  split at h
  · rename_i x hx
    unfold readAt at hx
    split at hx
    · cases hx
    · injection hx with hx; subst hx; cases h
  rename_i du hdu
  have hdu' := readAt_ok hdu
  have hD : dVal st e.u = du := by simp [dVal, hdu']
  split at h
  · rename_i hne
    split at h
    · rename_i x hx
      right
      unfold addInt at hx
      split at hx
      · cases hx
      · rw [hD, hcost, ← htw1]
        exact ⟨hne, by assumption⟩
    rename_i s hs
    split at h
    · rename_i x hx
      unfold readAt at hx
      split at hx
      · cases hx
      · injection hx with hx; subst hx; cases h
    split at h
    · split at h
      · cases h
      · cases h
    · cases h
  · cases h

theorem relaxEdges_append (t : TimeOfDay) (E1 E2 : List Edge) (st : BFState) :
    relaxEdges t (E1 ++ E2) st =
      match relaxEdges t E1 st with
      | .ok st' => relaxEdges t E2 st'
      | .error x => .error x := by
  induction E1 generalizing st with
  | nil => rfl
  | cons e E1 ih =>
    simp only [List.cons_append, relaxEdges]
    cases relaxEdge t st e with
    | ok st1 => exact ih st1
    | error x => rfl

/-- One pass is the relaxation of the adjacency entries in iteration order. -/
theorem relaxPass_eq (t : TimeOfDay) (adj : List (Int × List Edge)) (st : BFState) :
    relaxPass t adj st = relaxEdges t (allEdges adj) st := by
  induction adj generalizing st with
  | nil => rfl
  | cons p adj ih =>
    simp only [relaxPass, allEdges, relaxEdges_append]
    cases relaxEdges t p.2 st with
    | ok st1 => exact ih st1
    | error x => rfl

theorem relaxEdge_Safe {W : Int} {V : Nat} {t : TimeOfDay} {st : BFState} {e : Edge}
    (hW : 0 ≤ W) (hV : 1 ≤ V) (hVW : (V : Int) * W ≤ INT_MAX)
    (hc : 0 ≤ e.cost t ∧ e.cost t ≤ W) (h : Safe W V st) :
    relaxEdge t st e ≠ .error .overflow ∧
      ∀ st', relaxEdge t st e = .ok st' → Safe W V st' := by
  obtain ⟨hd, hp, hC⟩ := h
  have hV1 : (1 : Int) ≤ V := by omega
  have hWle : W ≤ (V : Int) * W := by nlinarith
  constructor
  · intro h'
    rcases relaxEdge_overflow h' with hbad | ⟨hne, hbad⟩
    · apply hbad
      simp only [INT_MIN, INT_MAX] at hVW ⊢
      omega
    · apply hbad
      obtain ⟨b0, b1⟩ : 0 ≤ dVal st e.u ∧ dVal st e.u ≤ ((V : Int) - 1) * W :=
        hC.bound hW e.u hne
      have : ((V : Int) - 1) * W + W = (V : Int) * W := by ring
      simp only [INT_MIN, INT_MAX] at hVW ⊢
      constructor <;> omega
  · intro st' h'
    obtain ⟨hd', hp', ha⟩ := relaxEdge_abs h'
    refine ⟨hd'.trans hd, hp'.trans hp, ?_⟩
    rw [ha]
    refine relaxF_Counted hW hc (fun hg => ?_) hC
    have hx : (relaxF t st.abs e).D e.v ≠ INT_MAX := by
      have h1 : (relaxF t st.abs e).D e.v = st.abs.D e.u + e.cost t := by
        simp [relaxF, hg]
      have h2 := hC.1 e.v
      rw [h1]
      omega
    rw [← ha] at hx
    have := dVal_ne hx
    omega

theorem relaxEdges_Safe {W : Int} {V : Nat} {t : TimeOfDay} (hW : 0 ≤ W) (hV : 1 ≤ V)
    (hVW : (V : Int) * W ≤ INT_MAX) (es : List Edge)
    (hE : ∀ e ∈ es, 0 ≤ e.cost t ∧ e.cost t ≤ W) (st : BFState) (h : Safe W V st) :
    relaxEdges t es st ≠ .error .overflow ∧
      ∀ st', relaxEdges t es st = .ok st' → Safe W V st' := by
  induction es generalizing st with
  | nil =>
    refine ⟨by simp [relaxEdges], fun st' h' => ?_⟩
    simp only [relaxEdges] at h'
    injection h' with h'
    subst h'
    exact h
  | cons e es ih =>
    obtain ⟨hno, hok⟩ := relaxEdge_Safe hW hV hVW (hE e (List.mem_cons_self _ _)) h
    simp only [relaxEdges]
    cases h1 : relaxEdge t st e with
    | ok st1 =>
      exact ih (fun x hx => hE x (List.mem_cons_of_mem _ hx)) st1 (hok st1 h1)
    | error x =>
      refine ⟨fun hx => hno (by rw [h1, Except.error.inj hx]), fun st' h' => by cases h'⟩

theorem passes_Safe {W : Int} {V : Nat} {t : TimeOfDay} (hW : 0 ≤ W) (hV : 1 ≤ V)
    (hVW : (V : Int) * W ≤ INT_MAX) (adj : List (Int × List Edge))
    (hE : ∀ e ∈ allEdges adj, 0 ≤ e.cost t ∧ e.cost t ≤ W)
    (n : Nat) (st : BFState) (h : Safe W V st) :
    passes t adj n st ≠ .error .overflow ∧
      ∀ st', passes t adj n st = .ok st' → Safe W V st' := by
  induction n generalizing st with
  | zero =>
    refine ⟨by simp [passes], fun st' h' => ?_⟩
    simp only [passes] at h'
    injection h' with h'
    subst h'
    exact h
  | succ n ih =>
    obtain ⟨hno, hok⟩ := relaxEdges_Safe hW hV hVW (allEdges adj) hE st h
    simp only [passes, relaxPass_eq]
    cases h1 : relaxEdges t (allEdges adj) st with
    | ok st1 => exact ih st1 (hok st1 h1)
    | error x =>
      refine ⟨fun hx => hno (by rw [h1, Except.error.inj hx]), fun st' h' => by cases h'⟩

theorem relaxEdge_skip {t : TimeOfDay} {st : BFState} {e : Edge} {w tw : Int}
    (hw : e.traffic.getWeight t = .ok w) (htw : addInt e.baseWeight w = .ok tw)
    (hdu : readAt st.dist e.u = .ok INT_MAX) : relaxEdge t st e = .ok st := by
  simp [relaxEdge, hw, htw, hdu]

/-- C18: when every entry cost `baseWeight + traffic[slot]` lies in `[0, W]` (with
`W >= 0`) and `V * W <= INT_MAX`, no sum of `bellmanFord` overflows, and with ids in range and
weights for the slot the run returns and reaches every point of its loops.  At every point
reached (after any number of full passes and any initial part of the adjacency entries in
iteration order) every finite entry of `dist` lies in `[0, (V - 1) * W]`, the next entry's
`totalWeight` is computed without overflow, the sum `dist[edge.u] + totalWeight` is
evaluated only when `dist[edge.u]` is not the sentinel `INT_MAX`, and then it lies in
`[0, V * W]` and does not overflow. -/
theorem C18_no_overflow (g : Graph) (s : Int) (t : TimeOfDay) (W : Int) (hW : 0 ≤ W)
    (hcost : ∀ e ∈ g.edges, 0 ≤ e.cost t ∧ e.cost t ≤ W) (hVW : g.V * W ≤ INT_MAX) :
    g.bellmanFord s t ≠ .error .overflow ∧
    (WellFormed g s t →
      (∃ st, g.bellmanFord s t = .ok st) ∧
      ∀ (n : Nat) (E1 E2 : List Edge), g.edges = E1 ++ E2 →
        ∃ st0 stn st, initState g.V s = .ok st0 ∧ passes t g.adjList n st0 = .ok stn ∧
          relaxEdges t E1 stn = .ok st) ∧
    ∀ (n : Nat) (E1 E2 : List Edge) (st0 stn st : BFState), g.edges = E1 ++ E2 →
      initState g.V s = .ok st0 → passes t g.adjList n st0 = .ok stn →
      relaxEdges t E1 stn = .ok st →
      (∀ v d, getAt st.dist v = some d → d ≠ INT_MAX → 0 ≤ d ∧ d ≤ (g.V - 1) * W) ∧
      ∀ e, E2.head? = some e → ∀ w, e.traffic.getWeight t = .ok w →
        addInt e.baseWeight w = .ok (e.baseWeight + w) ∧
        ∀ du, readAt st.dist e.u = .ok du →
          (du = INT_MAX → relaxEdge t st e = .ok st) ∧
          (du ≠ INT_MAX →
            0 ≤ du + (e.baseWeight + w) ∧ du + (e.baseWeight + w) ≤ g.V * W ∧
              addInt du (e.baseWeight + w) = .ok (du + (e.baseWeight + w))) := by
  have hstart : ∀ st0, initState g.V s = .ok st0 →
      1 ≤ g.V.toNat ∧ ((g.V.toNat : Nat) : Int) = g.V ∧ Safe W g.V.toNat st0 := by
    intro st0 h0
    obtain ⟨⟨hs0, hs1⟩, l1, l2, ha⟩ := initState_ok h0
    exact ⟨by omega, by omega, l1, l2, by rw [ha]; exact initF_Counted ⟨hs0, by omega⟩⟩
  have hcost' : ∀ e ∈ allEdges g.adjList, 0 ≤ e.cost t ∧ e.cost t ≤ W := hcost
  have hno : g.bellmanFord s t ≠ .error .overflow := by
    unfold Graph.bellmanFord
    cases h0 : initState g.V s with
    | ok st0 =>
      obtain ⟨hV, hVn, hS⟩ := hstart st0 h0
      exact (passes_Safe hW hV (by rw [hVn]; exact hVW) g.adjList hcost' _ st0 hS).1
    | error x =>
      intro hx
      have hx' : x = .overflow := Except.error.inj hx
      subst hx'
      unfold initState at h0
      split at h0
      · cases h0
      · split at h0
        · cases h0
        · rename_i y hy
          injection h0 with h0
          subst h0
          unfold writeAt at hy
          split at hy <;> cases hy
  refine ⟨hno, ?_, ?_⟩
  · intro hwf
    refine ⟨ok_of_not_overflow (bellmanFord_total hwf) hno, ?_⟩
    intro n E1 E2 hsplit
    obtain ⟨st0, h0⟩ := initState_isOk hwf.1.1 hwf.1.2
    obtain ⟨hV, hVn, hS⟩ := hstart st0 h0
    have hVW' : ((g.V.toNat : Nat) : Int) * W ≤ INT_MAX := by rw [hVn]; exact hVW
    have hE : ∀ e ∈ allEdges g.adjList, (0 ≤ e.u ∧ e.u < g.V.toNat) ∧
        (0 ≤ e.v ∧ e.v < g.V.toNat) ∧ (e.traffic.find t).isSome := by
      intro e he
      obtain ⟨a, b, c⟩ := hwf.2 e he
      exact ⟨⟨a.1, by omega⟩, ⟨b.1, by omega⟩, c⟩
    obtain ⟨hn1, hn2⟩ := passes_Safe hW hV hVW' g.adjList hcost' n st0 hS
    obtain ⟨stn, hn⟩ := ok_of_not_overflow (passes_total g.adjList hE n st0 hS.1 hS.2.1) hn1
    have hSn := hn2 stn hn
    have hE1 : ∀ e ∈ E1, e ∈ allEdges g.adjList := fun e he => by
      show e ∈ g.edges
      rw [hsplit]
      exact List.mem_append_left _ he
    obtain ⟨h11, -⟩ := relaxEdges_Safe hW hV hVW' E1 (fun e he => hcost' e (hE1 e he)) stn hSn
    obtain ⟨st, h1⟩ := ok_of_not_overflow
      (relaxEdges_total E1 (fun e he => hE e (hE1 e he)) stn hSn.1 hSn.2.1) h11
    exact ⟨st0, stn, st, h0, hn, h1⟩
  · intro n E1 E2 st0 stn st hsplit h0 hn h1
    obtain ⟨hV, hVn, hS⟩ := hstart st0 h0
    have hVW' : ((g.V.toNat : Nat) : Int) * W ≤ INT_MAX := by rw [hVn]; exact hVW
    have hSn := (passes_Safe hW hV hVW' g.adjList hcost' n st0 hS).2 stn hn
    have hE1 : ∀ e ∈ E1, 0 ≤ e.cost t ∧ e.cost t ≤ W := fun e he =>
      hcost e (by rw [hsplit]; exact List.mem_append_left _ he)
    obtain ⟨hd, hp, hC⟩ := (relaxEdges_Safe hW hV hVW' E1 hE1 stn hSn).2 st h1
    have hbound := hC.bound hW
    rw [hVn] at hbound
    have hV1 : (1 : Int) ≤ g.V := by omega
    have hWle : W ≤ g.V * W := by nlinarith
    constructor
    · intro v d hg hne
      have hD : st.abs.D v = d := by
        show dVal st v = d
        simp [dVal, hg]
      have := hbound v (by rw [hD]; exact hne)
      rw [hD] at this
      exact this
    · intro e hhead w hgw
      have heE2 : e ∈ E2 := by
        cases E2 with
        | nil => cases hhead
        | cons x xs =>
          simp only [List.head?_cons, Option.some.injEq] at hhead
          subst hhead
          exact List.mem_cons_self _ _
      have hc := hcost e (by rw [hsplit]; exact List.mem_append_right _ heE2)
      have hcw : e.cost t = e.baseWeight + w := cost_eq hgw
      rw [hcw] at hc
      have htw : addInt e.baseWeight w = .ok (e.baseWeight + w) := by
        unfold addInt
        rw [if_pos]
        simp only [INT_MIN, INT_MAX] at hVW ⊢
        omega
      refine ⟨htw, ?_⟩
      intro du hrd
      constructor
      · intro hmax
        subst hmax
        exact relaxEdge_skip hgw htw hrd
      · intro hne
        have hD : st.abs.D e.u = du := by
          show dVal st e.u = du
          simp [dVal, readAt_ok hrd]
        obtain ⟨b0, b1⟩ := hbound e.u (by rw [hD]; exact hne)
        rw [hD] at b0 b1
        have hsum : (g.V - 1) * W + W = g.V * W := by ring
        refine ⟨by omega, by omega, ?_⟩
        unfold addInt
        rw [if_pos]
        simp only [INT_MIN, INT_MAX] at hVW ⊢
        omega

/-- Witness of C18 on the worked example in the morning, with the weight bound 7. -/
theorem C18_witness :
    (0 : Int) ≤ 7 ∧
    (∀ e ∈ exampleGraph.edges, 0 ≤ e.cost .Morning ∧ e.cost .Morning ≤ 7) ∧
    exampleGraph.V * 7 ≤ INT_MAX ∧
    (exampleGraph.bellmanFord 0 .Morning ≠ .error .overflow ∧
    (WellFormed exampleGraph 0 .Morning →
      (∃ st, exampleGraph.bellmanFord 0 .Morning = .ok st) ∧
      ∀ (n : Nat) (E1 E2 : List Edge), exampleGraph.edges = E1 ++ E2 →
        ∃ st0 stn st, initState exampleGraph.V 0 = .ok st0 ∧
          passes .Morning exampleGraph.adjList n st0 = .ok stn ∧
          relaxEdges .Morning E1 stn = .ok st) ∧
    ∀ (n : Nat) (E1 E2 : List Edge) (st0 stn st : BFState), exampleGraph.edges = E1 ++ E2 →
      initState exampleGraph.V 0 = .ok st0 →
      passes .Morning exampleGraph.adjList n st0 = .ok stn →
      relaxEdges .Morning E1 stn = .ok st →
      (∀ v d, getAt st.dist v = some d → d ≠ INT_MAX →
        0 ≤ d ∧ d ≤ (exampleGraph.V - 1) * 7) ∧
      ∀ e, E2.head? = some e → ∀ w, e.traffic.getWeight .Morning = .ok w →
        addInt e.baseWeight w = .ok (e.baseWeight + w) ∧
        ∀ du, readAt st.dist e.u = .ok du →
          (du = INT_MAX → relaxEdge .Morning st e = .ok st) ∧
          (du ≠ INT_MAX →
            0 ≤ du + (e.baseWeight + w) ∧ du + (e.baseWeight + w) ≤ exampleGraph.V * 7 ∧
              addInt du (e.baseWeight + w) = .ok (du + (e.baseWeight + w)))) :=
  ⟨by decide, by decide, by decide,
    C18_no_overflow exampleGraph 0 .Morning 7 (by decide) (by decide) (by decide)⟩

/-! ## Constructed graphs in any iteration order of the adjacency map -/

/-- Adjacency entries that are, in some order, the entries of a constructed graph all have
their mirror image among them. -/
theorem perm_build_symm {g : Graph} {V : Int} {ops : List Op}
    (h : g.edges.Perm (Graph.build V ops).edges) :
    ∀ e ∈ g.edges, (⟨e.v, e.u, e.baseWeight, e.traffic⟩ : Edge) ∈ g.edges := by
  intro e he
  exact h.mem_iff.2 (build_edges_symm V ops e (h.mem_iff.1 he))

/-- Where every entry has its mirror image and no closed walk is negative, every entry has
non-negative cost: an entry followed by its mirror image is a closed walk. -/
theorem symm_cost_nonneg {E : List Edge} {t : TimeOfDay}
    (hsym : ∀ e ∈ E, (⟨e.v, e.u, e.baseWeight, e.traffic⟩ : Edge) ∈ E)
    (hneg : NoNegCycle E t) : ∀ e ∈ E, 0 ≤ e.cost t := by
  intro e he
  have hw : IsWalk E e.u e.u [e, ⟨e.v, e.u, e.baseWeight, e.traffic⟩] :=
    ⟨he, rfl, hsym e he, rfl, rfl⟩
  have := hneg _ _ hw
  simp only [walkCost, Edge.cost] at this ⊢
  omega

/-- C1 (amended): let the adjacency entries of `g` be those of a graph built with `addCity`
and `addEdge`, iterated in any order, with ids in range, weights for the slot, no
negative-cost closed walk and no overflowing sum in the run on `g`.  Then `bellmanFord`
returns, and for every vertex `v` to which a walk from the source of total cost below
`INT_MAX` exists, `dist[v]` is finite (not `INT_MAX`), is the cost of a walk from the source
to `v`, and is at most the cost of every walk from the source to `v`; a vertex in range all
of whose walks cost `INT_MAX` or more keeps the sentinel. -/
theorem C1_shortest_distances (g : Graph) (V : Int) (ops : List Op) (s : Int) (t : TimeOfDay)
    (hbuilt : g.edges.Perm (Graph.build V ops).edges)
    (hwf : WellFormed g s t) (hneg : NoNegCycle g.edges t)
    (hov : g.bellmanFord s t ≠ .error .overflow) :
    ∃ st, g.bellmanFord s t = .ok st ∧
      (∀ v p, IsWalk g.edges s v p → walkCost t p < INT_MAX →
        ∃ d, getAt st.dist v = some d ∧ d ≠ INT_MAX ∧
          (∃ q, IsWalk g.edges s v q ∧ walkCost t q = d) ∧
          ∀ q, IsWalk g.edges s v q → d ≤ walkCost t q) ∧
      ∀ v, 0 ≤ v → v < g.V →
        (∀ p, IsWalk g.edges s v p → INT_MAX ≤ walkCost t p) →
        getAt st.dist v = some INT_MAX := by
  obtain ⟨st, h⟩ := ok_of_not_overflow (bellmanFord_total hwf) hov
  have hst := bellmanFord_stable hwf hneg h
  have hnn := symm_cost_nonneg (perm_build_symm hbuilt) hneg
  obtain ⟨hW, hDs, -⟩ := bellmanFord_InvS (fun p hp => hneg s p hp) h
  obtain ⟨-, hd, -, -⟩ := bellmanFord_abs h
  have hsne : st.abs.D s ≠ INT_MAX := by rw [hDs]; decide
  refine ⟨st, h, ?_, ?_⟩
  · intro v p hp hlt
    have hle := stable_le_walk hnn hst hp hsne (by rw [hDs]; omega)
    rw [hDs] at hle
    have hne : st.abs.D v ≠ INT_MAX := by omega
    obtain ⟨h0, h1⟩ := dVal_ne hne
    refine ⟨dVal st v, dVal_eq h0 h1, hne, ?_, ?_⟩
    · obtain ⟨q, hq, hc⟩ := hW.walk v hne
      exact ⟨q, hq, hc⟩
    · intro q hq
      by_cases hqlt : walkCost t q < INT_MAX
      · have := stable_le_walk hnn hst hq hsne (by rw [hDs]; omega)
        rw [hDs] at this
        show st.abs.D v ≤ _
        omega
      · have := hW.le v
        show st.abs.D v ≤ _
        omega
  · intro v h0 h1 hall
    have hD : dVal st v = INT_MAX := by
      by_contra hne
      obtain ⟨q, hq, hc⟩ := hW.walk v hne
      have h2 := hall q hq
      have h3 := hW.le v
      have : st.abs.D v = dVal st v := rfl
      omega
    rw [dVal_eq h0 (by rw [hd]; omega), hD]

/-- Witness of C1: the worked example with its adjacency map iterated in the opposite order
(city C first), at source A in the morning. -/
theorem C1_witness :
    { exampleGraph with adjList := exampleGraph.adjList.reverse }.edges.Perm
      (Graph.build 3 exampleOps).edges ∧
    WellFormed { exampleGraph with adjList := exampleGraph.adjList.reverse } 0 .Morning ∧
    NoNegCycle { exampleGraph with adjList := exampleGraph.adjList.reverse }.edges .Morning ∧
    { exampleGraph with adjList := exampleGraph.adjList.reverse }.bellmanFord 0 .Morning ≠
      .error .overflow ∧
    ∃ st, { exampleGraph with adjList := exampleGraph.adjList.reverse }.bellmanFord 0 .Morning =
        .ok st ∧
      (∀ v p, IsWalk { exampleGraph with adjList := exampleGraph.adjList.reverse }.edges 0 v p →
        walkCost .Morning p < INT_MAX →
        ∃ d, getAt st.dist v = some d ∧ d ≠ INT_MAX ∧
          (∃ q, IsWalk { exampleGraph with adjList := exampleGraph.adjList.reverse }.edges 0 v q ∧
            walkCost .Morning q = d) ∧
          ∀ q, IsWalk { exampleGraph with adjList := exampleGraph.adjList.reverse }.edges 0 v q →
            d ≤ walkCost .Morning q) ∧
      ∀ v, 0 ≤ v → v < { exampleGraph with adjList := exampleGraph.adjList.reverse }.V →
        (∀ p, IsWalk { exampleGraph with adjList := exampleGraph.adjList.reverse }.edges 0 v p →
          INT_MAX ≤ walkCost .Morning p) →
        getAt st.dist v = some INT_MAX :=
  have hwf : WellFormed { exampleGraph with adjList := exampleGraph.adjList.reverse } 0
      .Morning := by
    unfold WellFormed
    decide
  have hneg : NoNegCycle { exampleGraph with adjList := exampleGraph.adjList.reverse }.edges
      .Morning := noNegCycle_of_nonneg (by decide)
  ⟨by decide, hwf, hneg, by decide,
    C1_shortest_distances { exampleGraph with adjList := exampleGraph.adjList.reverse } 3
      exampleOps 0 .Morning (by decide) hwf hneg (by decide)⟩

/-- C2 (amended): let the adjacency entries of `g` be those of a graph built with `addCity`
and `addEdge`, iterated in any order, with ids in range, weights for the slot, no
negative-cost closed walk and no overflowing sum in the run on `g`.  For every destination
reachable from the source by a walk of total cost below `INT_MAX`, the returned distance is
not the sentinel and `printPath` prints a route that starts at the source, ends at the
destination, follows adjacency entries of the graph from one vertex to the next, and whose
entries have total cost `dist[destination]`.  On the worked example, in either iteration
order of the adjacency map, the query (A, C, morning) gives 11 and (A, C, evening) gives 12,
both with route `[A, B, C]`. -/
theorem C2_route_round_trip (g : Graph) (V : Int) (ops : List Op) (s : Int) (t : TimeOfDay)
    (hbuilt : g.edges.Perm (Graph.build V ops).edges)
    (hwf : WellFormed g s t) (hneg : NoNegCycle g.edges t)
    (hov : g.bellmanFord s t ≠ .error .overflow) :
    (∃ st, g.bellmanFord s t = .ok st ∧
      ∀ dest p, IsWalk g.edges s dest p → walkCost t p < INT_MAX →
        ∃ d es, getAt st.dist dest = some d ∧ d ≠ INT_MAX ∧
          IsWalk g.edges s dest es ∧ walkCost t es = d ∧
          (walkVerts s es).head? = some s ∧ (walkVerts s es).getLast? = some dest ∧
          ∀ fuel, g.V.toNat ≤ fuel →
            ∃ names g', g.printPath fuel s dest st.parent =
              .ok (.route (walkVerts s es) names, g')) ∧
    (exampleGraph.bellmanFord 0 .Morning = .ok ⟨[0, 7, 11], [-1, 0, 1]⟩ ∧
      exampleGraph.printPath 3 0 2 [-1, 0, 1] =
        .ok (.route [0, 1, 2] ["A", "B", "C"], exampleGraph) ∧
      exampleGraph.bellmanFord 0 .Evening = .ok ⟨[0, 9, 12], [-1, 0, 1]⟩ ∧
      { exampleGraph with adjList := exampleGraph.adjList.reverse }.bellmanFord 0 .Morning =
        .ok ⟨[0, 7, 11], [-1, 0, 1]⟩ ∧
      { exampleGraph with adjList := exampleGraph.adjList.reverse }.bellmanFord 0 .Evening =
        .ok ⟨[0, 9, 12], [-1, 0, 1]⟩) := by
  refine ⟨?_, by decide, by decide, by decide, by decide, by decide⟩
  obtain ⟨st, h⟩ := ok_of_not_overflow (bellmanFord_total hwf) hov
  have hst := bellmanFord_stable hwf hneg h
  have hI := bellmanFord_Inv hwf hneg h
  have hnn := symm_cost_nonneg (perm_build_symm hbuilt) hneg
  obtain ⟨-, hd, hp, -⟩ := bellmanFord_abs h
  refine ⟨st, h, ?_⟩
  intro dest p hwalk hlt
  have hDs : st.abs.D s = 0 := hI.1.2.1
  have hle := stable_le_walk hnn hst hwalk (by rw [hDs]; decide) (by rw [hDs]; omega)
  rw [hDs] at hle
  have hne : st.abs.D dest ≠ INT_MAX := by omega
  obtain ⟨h0, h1⟩ := dVal_ne hne
  obtain ⟨l, hl, -, hlen, hr⟩ := bellmanFord_chain hwf hneg h dest h0 (by omega)
  obtain ⟨es, hes, hverts, hc⟩ := Chain.route hI hst hl hne
  refine ⟨dVal st dest, es, dVal_eq h0 h1, hne, hes, hc, rfl, walkVerts_getLast hes, ?_⟩
  intro fuel hf
  have hw := walkBack_of_chain hl hr fuel (le_trans hlen hf)
  rw [printPath_of_walk hw, ← hverts]
  simp [walkVerts]

/-- Witness of C2 on the worked example at source A in the evening. -/
theorem C2_witness :
    exampleGraph.edges.Perm (Graph.build 3 exampleOps).edges ∧
    WellFormed exampleGraph 0 .Evening ∧ NoNegCycle exampleGraph.edges .Evening ∧
    exampleGraph.bellmanFord 0 .Evening ≠ .error .overflow ∧
    (∃ st, exampleGraph.bellmanFord 0 .Evening = .ok st ∧
      ∀ dest p, IsWalk exampleGraph.edges 0 dest p → walkCost .Evening p < INT_MAX →
        ∃ d es, getAt st.dist dest = some d ∧ d ≠ INT_MAX ∧
          IsWalk exampleGraph.edges 0 dest es ∧ walkCost .Evening es = d ∧
          (walkVerts 0 es).head? = some 0 ∧ (walkVerts 0 es).getLast? = some dest ∧
          ∀ fuel, exampleGraph.V.toNat ≤ fuel →
            ∃ names g', exampleGraph.printPath fuel 0 dest st.parent =
              .ok (.route (walkVerts 0 es) names, g')) ∧
    (exampleGraph.bellmanFord 0 .Morning = .ok ⟨[0, 7, 11], [-1, 0, 1]⟩ ∧
      exampleGraph.printPath 3 0 2 [-1, 0, 1] =
        .ok (.route [0, 1, 2] ["A", "B", "C"], exampleGraph) ∧
      exampleGraph.bellmanFord 0 .Evening = .ok ⟨[0, 9, 12], [-1, 0, 1]⟩ ∧
      { exampleGraph with adjList := exampleGraph.adjList.reverse }.bellmanFord 0 .Morning =
        .ok ⟨[0, 7, 11], [-1, 0, 1]⟩ ∧
      { exampleGraph with adjList := exampleGraph.adjList.reverse }.bellmanFord 0 .Evening =
        .ok ⟨[0, 9, 12], [-1, 0, 1]⟩) :=
  have hwf : WellFormed exampleGraph 0 .Evening := by unfold WellFormed; decide
  have hneg : NoNegCycle exampleGraph.edges .Evening := noNegCycle_of_nonneg (by decide)
  ⟨List.Perm.refl _, hwf, hneg, by decide,
    C2_route_round_trip exampleGraph 3 exampleOps 0 .Evening (List.Perm.refl _) hwf hneg
      (by decide)⟩

/-- C19: let the adjacency entries of `g` be those of a graph built with `addCity` and
`addEdge`, iterated in any order, with ids in range, weights for the slot, non-negative entry
costs and no overflowing sum in either run on `g`.  The distance from `a` to `b` equals the
distance from `b` to `a`: `bellmanFord(a)[b] == bellmanFord(b)[a]`, and both are the sentinel
`INT_MAX` when no walk joins `a` and `b`. -/
theorem C19_symmetric_cost (g : Graph) (V : Int) (ops : List Op) (a b : Int) (t : TimeOfDay)
    (hbuilt : g.edges.Perm (Graph.build V ops).edges)
    (hwf : WellFormed g a t) (hb : 0 ≤ b ∧ b < g.V)
    (hnn : ∀ e ∈ g.edges, 0 ≤ e.cost t)
    (hova : g.bellmanFord a t ≠ .error .overflow)
    (hovb : g.bellmanFord b t ≠ .error .overflow) :
    ∃ sta stb, g.bellmanFord a t = .ok sta ∧ g.bellmanFord b t = .ok stb ∧
      ∃ d, getAt sta.dist b = some d ∧ getAt stb.dist a = some d ∧
        ((¬ ∃ p, IsWalk g.edges a b p) → d = INT_MAX) := by
  have hwfb : WellFormed g b t := ⟨hb, hwf.2⟩
  have hneg := noNegCycle_of_nonneg hnn
  have hsym := perm_build_symm hbuilt
  obtain ⟨sta, ha⟩ := ok_of_not_overflow (bellmanFord_total hwf) hova
  obtain ⟨stb, hb'⟩ := ok_of_not_overflow (bellmanFord_total hwfb) hovb
  have key : ∀ (x y : Int) (stx sty : BFState),
      WellFormed g x t → WellFormed g y t →
      g.bellmanFord x t = .ok stx → g.bellmanFord y t = .ok sty →
      sty.abs.D x ≤ stx.abs.D y := by
    intro x y stx sty hx hy hrx hry
    have hWx := bellmanFord_InvW hrx
    obtain ⟨hWy, hDy, -⟩ := bellmanFord_InvS (fun p hp => hneg y p hp) hry
    have hSy := bellmanFord_stable hy hneg hry
    by_cases hfin : stx.abs.D y = INT_MAX
    · rw [hfin]; exact hWy.le x
    · obtain ⟨p, hp, hc⟩ := hWx.walk y hfin
      obtain ⟨q, hq, hcq⟩ := hp.reverse t hsym
      have hlt : stx.abs.D y < INT_MAX := lt_of_le_of_ne (hWx.le y) hfin
      have := stable_le_walk hnn hSy hq (by rw [hDy]; decide) (by rw [hDy]; omega)
      rw [hDy] at this
      omega
  have e1 := key a b sta stb hwf hwfb ha hb'
  have e2 := key b a stb sta hwfb hwf hb' ha
  have heq : sta.abs.D b = stb.abs.D a := le_antisymm e2 e1
  obtain ⟨-, hda, -, -⟩ := bellmanFord_abs ha
  obtain ⟨-, hdb, -, -⟩ := bellmanFord_abs hb'
  refine ⟨sta, stb, ha, hb', dVal sta b, dVal_eq hb.1 (by omega), ?_, ?_⟩
  · have : getAt stb.dist a = some (dVal stb a) := dVal_eq hwf.1.1 (by have := hwf.1.2; omega)
    rw [this]
    exact congrArg some heq.symm
  · intro hun
    by_contra hne
    obtain ⟨p, hp, -⟩ := (bellmanFord_InvW ha).walk b hne
    exact hun ⟨p, hp⟩

/-- Witness of C19: the worked example with its adjacency map iterated in the opposite order,
between A=0 and C=2 in the morning. -/
theorem C19_witness :
    { exampleGraph with adjList := exampleGraph.adjList.reverse }.edges.Perm
      (Graph.build 3 exampleOps).edges ∧
    WellFormed { exampleGraph with adjList := exampleGraph.adjList.reverse } 0 .Morning ∧
    ((0 : Int) ≤ 2 ∧
      (2 : Int) < { exampleGraph with adjList := exampleGraph.adjList.reverse }.V) ∧
    (∀ e ∈ { exampleGraph with adjList := exampleGraph.adjList.reverse }.edges,
      0 ≤ e.cost .Morning) ∧
    { exampleGraph with adjList := exampleGraph.adjList.reverse }.bellmanFord 0 .Morning ≠
      .error .overflow ∧
    { exampleGraph with adjList := exampleGraph.adjList.reverse }.bellmanFord 2 .Morning ≠
      .error .overflow ∧
    ∃ sta stb,
      { exampleGraph with adjList := exampleGraph.adjList.reverse }.bellmanFord 0 .Morning =
        .ok sta ∧
      { exampleGraph with adjList := exampleGraph.adjList.reverse }.bellmanFord 2 .Morning =
        .ok stb ∧
      ∃ d, getAt sta.dist 2 = some d ∧ getAt stb.dist 0 = some d ∧
        ((¬ ∃ p, IsWalk { exampleGraph with adjList := exampleGraph.adjList.reverse }.edges
          0 2 p) → d = INT_MAX) :=
  have hwf : WellFormed { exampleGraph with adjList := exampleGraph.adjList.reverse } 0
      .Morning := by
    unfold WellFormed
    decide
  ⟨by decide, hwf, by decide, by decide, by decide, by decide,
    C19_symmetric_cost { exampleGraph with adjList := exampleGraph.adjList.reverse } 3
      exampleOps 0 2 .Morning (by decide) hwf (by decide) (by decide) (by decide) (by decide)⟩

/-! ## Stability with the unreachable distance read as infinity -/

theorem extDist_le {du dv c : Int} (h : du ≠ INT_MAX → dv ≤ du + c)
    (hc : du = INT_MAX ∨ dv ≠ INT_MAX ∨ du + c < INT_MAX) :
    extDist dv ≤ extDist du + ((c : Int) : WithTop Int) := by
  by_cases hu : du = INT_MAX
  · simp [extDist, hu]
  · have h1 := h hu
    have hv : dv ≠ INT_MAX := by
      rcases hc with h2 | h2 | h2
      · exact absurd h2 hu
      · exact h2
      · omega
    simp only [extDist, hu, hv, if_false]
    rw [← WithTop.coe_add]
    exact WithTop.coe_le_coe.2 h1

/-- C3 fails as stated.  On `maxCostGraph` (one road 0-1 of cost exactly `INT_MAX`, either
iteration order) the run from city 0 meets no overflow and returns `dist = [0, INT_MAX]`:
city 1 is marked unreachable although the entry `0 -> 1` gives the finite bound
`dist[0] + w = INT_MAX`, so with the unreachable distance counted as +infinity the
inequality `dist[1] <= dist[0] + w` is false.  On `lateGraph` the run from city 0 meets no
overflow and returns `dist = [0, INT_MAX - 1]`, and one further pass evaluates
`dist[1] + w`, which overflows. -/
theorem C3_counterexample :
    (WellFormed maxCostGraph 0 .Morning ∧ NoNegCycle maxCostGraph.edges .Morning ∧
      { maxCostGraph with adjList := maxCostGraph.adjList.reverse }.bellmanFord 0 .Morning =
        .ok ⟨[0, INT_MAX], [-1, -1]⟩ ∧
      ∃ st, maxCostGraph.bellmanFord 0 .Morning = .ok st ∧
        ∃ e ∈ maxCostGraph.edges, ∃ du dv,
          getAt st.dist e.u = some du ∧ getAt st.dist e.v = some dv ∧
          ¬ extDist dv ≤ extDist du + ((e.cost .Morning : Int) : WithTop Int)) ∧
    (WellFormed lateGraph 0 .Morning ∧ NoNegCycle lateGraph.edges .Morning ∧
      lateGraph.bellmanFord 0 .Morning = .ok ⟨[0, 2147483646], [-1, 0]⟩ ∧
      relaxPass .Morning lateGraph.adjList ⟨[0, 2147483646], [-1, 0]⟩ = .error .overflow) := by
  refine ⟨⟨?_, noNegCycle_of_nonneg (by decide), by decide, ⟨[0, INT_MAX], [-1, -1]⟩,
    by decide, ⟨0, 1, 2147483647, .ofTriple 0 0 0⟩, by decide, 0, INT_MAX, by decide,
    by decide, ?_⟩, ?_, noNegCycle_of_nonneg (by decide), by decide, by decide⟩
  · unfold WellFormed
    decide
  · have h0 : extDist 0 = ((0 : Int) : WithTop Int) := by
      simp [extDist, INT_MAX]
    have h1 : extDist INT_MAX = ⊤ := by simp [extDist]
    rw [h0, h1, ← WithTop.coe_add]
    exact WithTop.not_top_le_coe _
  · unfold WellFormed
    decide

/-- C3 (amended): on a graph with ids in range, weights for the slot, no negative-cost
closed walk and no overflowing sum, the state returned by `bellmanFord` is stable: for every
adjacency entry `u -> v` with `dist[u]` not the sentinel, `dist[v] <= dist[u] + cost` as
integers, and the same for a mirrored entry `v -> u`; with an unreachable distance counted
as +infinity the inequality holds for every entry except those where `dist[u]` is finite,
`dist[v]` is the sentinel and the bound `dist[u] + cost` is `INT_MAX` or more.  One further
pass on unbounded integers changes neither `dist` nor `parent`; in the program a further
pass changes neither, unless one of its sums overflows. -/
theorem C3_post_relaxation_stability (g : Graph) (s : Int) (t : TimeOfDay)
    (hwf : WellFormed g s t) (hneg : NoNegCycle g.edges t)
    (hov : g.bellmanFord s t ≠ .error .overflow) :
    ∃ st, g.bellmanFord s t = .ok st ∧
      (∀ e ∈ g.edges, ∃ du dv, getAt st.dist e.u = some du ∧ getAt st.dist e.v = some dv ∧
        (du ≠ INT_MAX → dv ≤ du + e.cost t) ∧
        ((du = INT_MAX ∨ dv ≠ INT_MAX ∨ du + e.cost t < INT_MAX) →
          extDist dv ≤ extDist du + ((e.cost t : Int) : WithTop Int))) ∧
      (∀ e ∈ g.edges, ∀ e' ∈ g.edges, e'.u = e.v → e'.v = e.u →
        ∃ du dv, getAt st.dist e.u = some du ∧ getAt st.dist e.v = some dv ∧
          (dv ≠ INT_MAX → du ≤ dv + e'.cost t) ∧
          ((dv = INT_MAX ∨ du ≠ INT_MAX ∨ dv + e'.cost t < INT_MAX) →
            extDist du ≤ extDist dv + ((e'.cost t : Int) : WithTop Int))) ∧
      passF t g.edges st.abs = st.abs ∧
      (relaxPass t g.adjList st = .ok st ∨ relaxPass t g.adjList st = .error .overflow) := by
  obtain ⟨st, h⟩ := ok_of_not_overflow (bellmanFord_total hwf) hov
  have hst := bellmanFord_stable hwf hneg h
  obtain ⟨-, hd, hp, -⟩ := bellmanFord_abs h
  have hget : ∀ e ∈ g.edges, getAt st.dist e.u = some (dVal st e.u) ∧
      getAt st.dist e.v = some (dVal st e.v) := by
    intro e he
    obtain ⟨a, b, -⟩ := hwf.2 e he
    exact ⟨dVal_eq a.1 (by omega), dVal_eq b.1 (by omega)⟩
  have hfix : passF t g.edges st.abs = st.abs := foldl_relaxF_fix g.edges hst
  refine ⟨st, h, ?_, ?_, hfix, ?_⟩
  · intro e he
    exact ⟨_, _, (hget e he).1, (hget e he).2, hst e he, extDist_le (hst e he)⟩
  · intro e he e' he' h1 h2
    have := hst e' he'
    rw [h1, h2] at this
    exact ⟨_, _, (hget e he).1, (hget e he).2, this, extDist_le this⟩
  · have hE : ∀ e ∈ allEdges g.adjList, (0 ≤ e.u ∧ e.u < g.V.toNat) ∧
        (0 ≤ e.v ∧ e.v < g.V.toNat) ∧ (e.traffic.find t).isSome := by
      intro e he
      obtain ⟨a, b, c⟩ := hwf.2 e he
      exact ⟨⟨a.1, by omega⟩, ⟨b.1, by omega⟩, c⟩
    rcases relaxPass_total (t := t) g.adjList hE st hd hp with ⟨st', h', hd', hp'⟩ | h'
    · left
      obtain ⟨-, -, ha⟩ := relaxPass_abs h'
      have : st' = st := abs_inj (hd'.trans hd.symm) (hp'.trans hp.symm) (ha.trans hfix)
      rw [h', this]
    · exact Or.inr h'

/-- Witness of C3 on the worked example at source A in the morning. -/
theorem C3_witness :
    WellFormed exampleGraph 0 .Morning ∧ NoNegCycle exampleGraph.edges .Morning ∧
    exampleGraph.bellmanFord 0 .Morning ≠ .error .overflow ∧
    ∃ st, exampleGraph.bellmanFord 0 .Morning = .ok st ∧
      (∀ e ∈ exampleGraph.edges, ∃ du dv, getAt st.dist e.u = some du ∧
        getAt st.dist e.v = some dv ∧ (du ≠ INT_MAX → dv ≤ du + e.cost .Morning) ∧
        ((du = INT_MAX ∨ dv ≠ INT_MAX ∨ du + e.cost .Morning < INT_MAX) →
          extDist dv ≤ extDist du + ((e.cost .Morning : Int) : WithTop Int))) ∧
      (∀ e ∈ exampleGraph.edges, ∀ e' ∈ exampleGraph.edges, e'.u = e.v → e'.v = e.u →
        ∃ du dv, getAt st.dist e.u = some du ∧ getAt st.dist e.v = some dv ∧
          (dv ≠ INT_MAX → du ≤ dv + e'.cost .Morning) ∧
          ((dv = INT_MAX ∨ du ≠ INT_MAX ∨ dv + e'.cost .Morning < INT_MAX) →
            extDist du ≤ extDist dv + ((e'.cost .Morning : Int) : WithTop Int))) ∧
      passF .Morning exampleGraph.edges st.abs = st.abs ∧
      (relaxPass .Morning exampleGraph.adjList st = .ok st ∨
        relaxPass .Morning exampleGraph.adjList st = .error .overflow) :=
  ⟨exampleGraph_wf, noNegCycle_of_nonneg exampleGraph_nonneg, by decide,
    C3_post_relaxation_stability exampleGraph 0 .Morning exampleGraph_wf
      (noNegCycle_of_nonneg exampleGraph_nonneg) (by decide)⟩

/-! ## Adjacency entries and registered cities -/

/-- C11 (amended): `addEdge(u, v, baseWeight, traffic)` makes no registration check and
never fails: it appends the entry `u -> v` to the adjacency of `u` and the entry `v -> u`
to the adjacency of `v` and leaves the capacity and the name maps alone.  Every adjacency
entry of a constructed graph references registered cities if and only if every `addEdge`
call of the construction names endpoints that some `addCity` call of the construction
registers. -/
theorem C11_addEdge_unchecked (V : Int) (ops : List Op) :
    (∀ (g : Graph) (u v b : Int) (tr : Traffic),
      (∀ k, adjOf (g.addEdge u v b tr).adjList k =
        (adjOf g.adjList k ++ if k = u then [⟨u, v, b, tr⟩] else []) ++
          if k = v then [⟨v, u, b, tr⟩] else []) ∧
      (g.addEdge u v b tr).cityNames = g.cityNames ∧
      (g.addEdge u v b tr).nameToId = g.nameToId ∧ (g.addEdge u v b tr).V = g.V) ∧
    ((∀ e ∈ (Graph.build V ops).edges,
        (lookup (Graph.build V ops).cityNames e.u).isSome ∧
        (lookup (Graph.build V ops).cityNames e.v).isSome) ↔
      ∀ u v b tr, Op.addEdge u v b tr ∈ ops →
        (∃ n, Op.addCity u n ∈ ops) ∧ ∃ n, Op.addCity v n ∈ ops) := by
  constructor
  · intro g u v b tr
    refine ⟨?_, rfl, rfl, rfl⟩
    intro k
    simp only [Graph.addEdge, adjOf_pushBack]
    by_cases hv : k = v
    · subst hv
      by_cases hu : k = u
      · subst hu; simp
      · simp [hu]
    · by_cases hu : k = u
      · subst hu; simp [hv]
      · simp [hu, hv]
  · constructor
    · intro hall u v b tr hm
      have he : (⟨u, v, b, tr⟩ : Edge) ∈ (Graph.build V ops).edges :=
        (build_edges_mem V ops _).2 ⟨u, v, b, tr, hm, Or.inl rfl⟩
      obtain ⟨h1, h2⟩ := hall _ he
      exact ⟨(build_cityNames_isSome V ops u).1 h1, (build_cityNames_isSome V ops v).1 h2⟩
    · intro hreg e he
      obtain ⟨u, v, b, tr, hm, he⟩ := (build_edges_mem V ops e).1 he
      obtain ⟨h1, h2⟩ := hreg u v b tr hm
      rcases he with rfl | rfl
      · exact ⟨(build_cityNames_isSome V ops u).2 h1, (build_cityNames_isSome V ops v).2 h2⟩
      · exact ⟨(build_cityNames_isSome V ops v).2 h2, (build_cityNames_isSome V ops u).2 h1⟩

/-! ## Effects of `displayMap` and of a query on the graph -/

theorem walkBack_mem {parent : List Int} {fuel : Nat} {cur : Int} {l : List Int}
    (h : walkBack parent fuel cur = .ok l) :
    ∀ x ∈ l, l.getLast? = some x ∨ ∃ y, getAt parent x = some y ∧ y ≠ -1 := by
  induction fuel generalizing cur l with
  | zero =>
    by_cases hc : cur = -1
    · simp [walkBack, hc] at h
      subst h
      simp
    · simp [walkBack, hc] at h
  | succ k ih =>
    by_cases hc : cur = -1
    · subst hc
      rw [walkBack_none] at h
      injection h with h
      subst h
      simp
    · obtain ⟨k', nxt, rest, hk, hn, hr, rfl⟩ := walkBack_step hc h
      obtain rfl : k' = k := by omega
      intro x hx
      by_cases hnx : nxt = -1
      · subst hnx
        rw [walkBack_none] at hr
        injection hr with hr
        subst hr
        simp only [List.mem_singleton] at hx
        subst hx
        exact Or.inl rfl
      · rcases List.mem_cons.1 hx with rfl | hx
        · exact Or.inr ⟨nxt, hn, hnx⟩
        · rcases ih hr x hx with h1 | h1
          · left
            cases rest with
            | nil => simp at hx
            | cons b tl => rw [List.getLast?_cons_cons]; exact h1
          · exact Or.inr h1

/-- A printed route is the reversed backward walk and starts at the source. -/
theorem printPath_route {g g' : Graph} {fuel : Nat} {s d : Int} {parent : List Int}
    {ids : List Int} {names : List String}
    (h : g.printPath fuel s d parent = .ok (.route ids names, g')) :
    ∃ walked, walkBack parent fuel d = .ok walked ∧ ids = walked.reverse ∧
      ids.head? = some s := by
  unfold Graph.printPath at h
  split at h
  · cases h
  rename_i walked hw
  split at h
  · cases h
  rename_i front rest hrev
  split at h
  · injection h with h
    injection h with h1 h2
    cases h1
  · rename_i hfs
    injection h with h
    injection h with h1 h2
    injection h1 with hids hnames
    subst hids
    refine ⟨walked, hw, hrev.symm, ?_⟩
    have : front = s := not_not.1 hfs
    simp [this]

/-- On a store whose adjacency entries lead to named cities, a run of `bellmanFord` from a
named source followed by `printPath` leaves the graph as it was. -/
theorem printPath_named {g g' : Graph} {s d : Int} {t : TimeOfDay} {fuel : Nat}
    {st : BFState} {out : PathOutput}
    (hnamed : ∀ e ∈ g.edges, (lookup g.cityNames e.v).isSome)
    (hs : (lookup g.cityNames s).isSome)
    (hrun : g.bellmanFord s t = .ok st)
    (h : g.printPath fuel s d st.parent = .ok (out, g')) : g' = g := by
  obtain ⟨-, -, -, hno, hroute⟩ := printPath_frame h
  cases out with
  | noPath => exact hno rfl
  | route ids names =>
    refine hroute ids names rfl ?_
    obtain ⟨walked, hw, hids, hhead⟩ := printPath_route h
    intro id hid
    rw [hids, List.mem_reverse] at hid
    rcases walkBack_mem hw id hid with h1 | ⟨y, hy, hne⟩
    · rw [hids, List.head?_reverse, h1] at hhead
      injection hhead with hhead
      rw [hhead]
      exact hs
    · have hP : st.abs.P id = y := by
        show pVal st id = y
        simp [pVal, hy]
      obtain ⟨-, -, e, he, -, hv, -⟩ := (bellmanFord_InvW hrun).par id (by rw [hP]; exact hne)
      rw [← hv]
      exact hnamed e he

theorem nameOf_isSome (names : List (Int × String)) (id k : Int) :
    (lookup (nameOf names id).2 k).isSome ↔ (lookup names k).isSome ∨ k = id := by
  unfold nameOf
  cases hl : lookup names id with
  | some s =>
    simp only
    constructor
    · exact Or.inl
    · rintro (h | rfl)
      · exact h
      · rw [hl]; rfl
  | none =>
    simp only [lookup_assign]
    by_cases hk : k = id
    · simp [hk]
    · simp [hk]

theorem displayEdge_isSome {names names' : List (Int × String)} {e : Edge} {line : MapLine}
    (h : displayEdge names e = .ok (line, names')) (k : Int) :
    (lookup names' k).isSome ↔ (lookup names k).isSome ∨ k = e.u ∨ k = e.v := by
  unfold displayEdge at h
  simp only at h
  split at h
  · cases h
  split at h
  · cases h
  split at h
  · cases h
  injection h with h
  injection h with h1 h2
  subst h2
  rw [nameOf_isSome, nameOf_isSome]
  tauto

theorem displayEdges_isSome {names names' : List (Int × String)} {es : List Edge}
    {lines : List MapLine} (h : displayEdges names es = .ok (lines, names')) (k : Int) :
    (lookup names' k).isSome ↔ (lookup names k).isSome ∨ ∃ e ∈ es, k = e.u ∨ k = e.v := by
  induction es generalizing names lines with
  | nil =>
    simp only [displayEdges] at h
    injection h with h
    injection h with h1 h2
    subst h2
    simp
  | cons e es ih =>
    simp only [displayEdges] at h
    split at h
    · cases h
    rename_i line names1 h1
    split at h
    · cases h
    rename_i lines1 names2 h2
    injection h with h
    injection h with h3 h4
    subst h4
    rw [ih h2, displayEdge_isSome h1 k]
    constructor
    · rintro ((h | h) | ⟨e', he', h⟩)
      · exact Or.inl h
      · exact Or.inr ⟨e, List.mem_cons_self _ _, h⟩
      · exact Or.inr ⟨e', List.mem_cons_of_mem _ he', h⟩
    · rintro (h | ⟨e', he', h⟩)
      · exact Or.inl (Or.inl h)
      · rcases List.mem_cons.1 he' with rfl | he'
        · exact Or.inl (Or.inr h)
        · exact Or.inr ⟨e', he', h⟩

/-- What `displayMap` changes: nothing but the id-to-name map, in which every endpoint of an
adjacency entry has a name afterwards and every id that had a name still has one. -/
theorem displayMap_frame {g gd : Graph} {lines : List MapLine}
    (h : g.displayMap = .ok (lines, gd)) :
    gd.V = g.V ∧ gd.adjList = g.adjList ∧ gd.nameToId = g.nameToId ∧
      (∀ e ∈ gd.edges, (lookup gd.cityNames e.u).isSome ∧ (lookup gd.cityNames e.v).isSome) ∧
      ∀ id, (lookup g.cityNames id).isSome → (lookup gd.cityNames id).isSome := by
  unfold Graph.displayMap at h
  split at h
  · cases h
  rename_i ls names hd
  injection h with h
  injection h with h1 h2
  subst h2
  refine ⟨rfl, rfl, rfl, ?_, ?_⟩
  · intro e he
    have he' : e ∈ g.edges := he
    exact ⟨(displayEdges_isSome hd e.u).2 (Or.inr ⟨e, he', Or.inl rfl⟩),
      (displayEdges_isSome hd e.v).2 (Or.inr ⟨e, he', Or.inr rfl⟩)⟩
  · intro id hid
    exact (displayEdges_isSome hd id).2 (Or.inl hid)

/-- One round of `userInterface` leaves the graph as it was, on a store whose adjacency
entries lead to named cities and whose registered names resolve to named ids. -/
theorem query_frame {g g' : Graph} {fuel : Nat} {startName endName timeStr : String}
    {out : QueryOutput}
    (hnamed : ∀ e ∈ g.edges, (lookup g.cityNames e.v).isSome)
    (hcons : ∀ name id, lookup g.nameToId name = some id → (lookup g.cityNames id).isSome)
    (h : g.query fuel startName endName timeStr = .ok (out, g')) : g' = g := by
  unfold Graph.query at h
  split at h
  · injection h with h
    injection h with h1 h2
    exact h2.symm
  split at h
  · rename_i start stop hstart hstop
    split at h
    · injection h with h
      injection h with h1 h2
      exact h2.symm
    rename_i timeOfDay ht
    split at h
    · cases h
    rename_i st hrun
    split at h
    · cases h
    rename_i dd hdd
    split at h
    · injection h with h
      injection h with h1 h2
      exact h2.symm
    split at h
    · cases h
    rename_i outp g1 hpp
    injection h with h
    injection h with h1 h2
    subst h2
    exact printPath_named hnamed (hcons _ _ hstart) hrun hpp
  · injection h with h
    injection h with h1 h2
    exact h2.symm

/-- In a constructed graph every registered name resolves to an id that has a name. -/
theorem build_nameToId_named (V : Int) (ops : List Op) (name : String) (id : Int)
    (h : lookup (Graph.build V ops).nameToId name = some id) :
    (lookup (Graph.build V ops).cityNames id).isSome := by
  induction ops using List.reverseRecOn with
  | nil => simp [Graph.build, Graph.new, lookup] at h
  | append_singleton ops op ih =>
    rw [build_snoc] at h ⊢
    cases op with
    | addCity id0 n0 =>
      simp only [Graph.apply, Graph.addCity, lookup_assign] at h ⊢
      by_cases hn : name = n0
      · simp only [hn, if_true, Option.some.injEq] at h
        simp [h]
      · simp only [hn, if_false] at h
        by_cases hi : id = id0
        · simp [hi]
        · simp only [hi, if_false]
          exact ih h
    | addEdge u v b tr => exact ih h

/-- C14 fails as stated for the graph state `unnamedStopGraph`, in which the cities A=0 and
C=2 are registered and the stop 1 between them is not.  `bellmanFord` from A in the morning
followed by `printPath` to C finds distance 11 and prints the route `[0, 1, 2]`; reading the
name of stop 1 with `cityNames[1]` inserts the entry `1 -> ""` into the id-to-name map, so
the graph after the query differs from the graph before it (the adjacency and the name-to-id
map are unchanged). -/
theorem C14_counterexample :
    lookup unnamedStopGraph.cityNames 1 = none ∧
    unnamedStopGraph.bellmanFord 0 .Morning = .ok ⟨[0, 7, 11], [-1, 0, 1]⟩ ∧
    unnamedStopGraph.printPath 3 0 2 [-1, 0, 1] =
      .ok (.route [0, 1, 2] ["A", "", "C"],
        { unnamedStopGraph with cityNames := [(0, "A"), (2, "C"), (1, "")] }) ∧
    unnamedStopGraph.query 3 "A" "C" "morning" =
      .ok (.found 11 (.route [0, 1, 2] ["A", "", "C"]),
        { unnamedStopGraph with cityNames := [(0, "A"), (2, "C"), (1, "")] }) ∧
    unnamedStopGraph.cityNames = [(0, "A"), (2, "C")] ∧
    ({ unnamedStopGraph with cityNames := [(0, "A"), (2, "C"), (1, "")] } : Graph) ≠
      unnamedStopGraph := by
  decide

/-- C14 (amended): in every graph state in which the source and both endpoints of every
adjacency entry have an entry in the id-to-name map, for every destination and slot, every
result of `bellmanFord` followed by `printPath` (a printed route or "No path found.") leaves
the whole graph (capacity, adjacency, id-to-name map, name-to-id map) exactly as it was.
The program is in such a state at every query: `displayMap`, which `main` runs before
`userInterface`, changes only the id-to-name map and gives every endpoint of an adjacency
entry a name; a source resolved from a registered name of a constructed graph has a name;
so every round of `userInterface` after `displayMap` leaves the graph as it was. -/
theorem C14_query_frame (g : Graph) (s d : Int) (t : TimeOfDay) (fuel : Nat)
    (hnamed : ∀ e ∈ g.edges,
      (lookup g.cityNames e.u).isSome ∧ (lookup g.cityNames e.v).isSome)
    (hs : (lookup g.cityNames s).isSome) :
    (∀ st out g', g.bellmanFord s t = .ok st →
      g.printPath fuel s d st.parent = .ok (out, g') → g' = g) ∧
    (∀ (h hd : Graph) (lines : List MapLine), h.displayMap = .ok (lines, hd) →
      hd.V = h.V ∧ hd.adjList = h.adjList ∧ hd.nameToId = h.nameToId ∧
      (∀ e ∈ hd.edges,
        (lookup hd.cityNames e.u).isSome ∧ (lookup hd.cityNames e.v).isSome) ∧
      ∀ id, (lookup h.cityNames id).isSome → (lookup hd.cityNames id).isSome) ∧
    (∀ (V : Int) (ops : List Op) (name : String) (id : Int),
      lookup (Graph.build V ops).nameToId name = some id →
      (lookup (Graph.build V ops).cityNames id).isSome) ∧
    (∀ (h hd : Graph) (lines : List MapLine), h.displayMap = .ok (lines, hd) →
      (∀ name id, lookup h.nameToId name = some id → (lookup h.cityNames id).isSome) →
      ∀ (startName endName timeStr : String) (out : QueryOutput) (g' : Graph),
        hd.query fuel startName endName timeStr = .ok (out, g') → g' = hd) := by
  refine ⟨?_, ?_, build_nameToId_named, ?_⟩
  · intro st out g' hrun hpp
    exact printPath_named (fun e he => (hnamed e he).2) hs hrun hpp
  · intro h hd lines hdm
    exact displayMap_frame hdm
  · intro h hd lines hdm hcons startName endName timeStr out g' hq
    obtain ⟨-, -, hn, hnm, hmono⟩ := displayMap_frame hdm
    refine query_frame (fun e he => (hnm e he).2) ?_ hq
    intro name id hl
    rw [hn] at hl
    exact hmono id (hcons name id hl)

/-- Witness of C14: the state of `unnamedStopGraph` after `displayMap`, in which the stop 1
has the empty name; source A=0, destination C=2, in the morning. -/
theorem C14_witness :
    unnamedStopGraph.displayMap =
      .ok ([⟨"A", "", 5, 2, 1, 4⟩, ⟨"", "A", 5, 2, 1, 4⟩, ⟨"", "C", 3, 1, 5, 0⟩,
          ⟨"C", "", 3, 1, 5, 0⟩],
        { unnamedStopGraph with cityNames := [(0, "A"), (2, "C"), (1, "")] }) ∧
    (∀ e ∈ ({ unnamedStopGraph with cityNames := [(0, "A"), (2, "C"), (1, "")] } : Graph).edges,
      (lookup ({ unnamedStopGraph with
          cityNames := [(0, "A"), (2, "C"), (1, "")] } : Graph).cityNames e.u).isSome ∧
      (lookup ({ unnamedStopGraph with
          cityNames := [(0, "A"), (2, "C"), (1, "")] } : Graph).cityNames e.v).isSome) ∧
    (lookup ({ unnamedStopGraph with
      cityNames := [(0, "A"), (2, "C"), (1, "")] } : Graph).cityNames 0).isSome ∧
    ({ unnamedStopGraph with cityNames := [(0, "A"), (2, "C"), (1, "")] } : Graph).printPath
      3 0 2 [-1, 0, 1] =
      .ok (.route [0, 1, 2] ["A", "", "C"],
        { unnamedStopGraph with cityNames := [(0, "A"), (2, "C"), (1, "")] }) ∧
    ∀ st out g',
      ({ unnamedStopGraph with cityNames := [(0, "A"), (2, "C"), (1, "")] } : Graph).bellmanFord
        0 .Morning = .ok st →
      ({ unnamedStopGraph with cityNames := [(0, "A"), (2, "C"), (1, "")] } : Graph).printPath
        3 0 2 st.parent = .ok (out, g') →
      g' = { unnamedStopGraph with cityNames := [(0, "A"), (2, "C"), (1, "")] } :=
  ⟨by decide, by decide, by decide, by decide,
    (C14_query_frame { unnamedStopGraph with cityNames := [(0, "A"), (2, "C"), (1, "")] }
      0 2 .Morning 3 (by decide) (by decide)).1⟩

end RouteRec
